import Mathlib

/-!
# Game-tree search engines of `main.cc`

A shallow embedding of the four search engines of `src/main.cc` (plain negamax,
negamax with alpha-beta pruning, scout with its helper `TEST`, and negascout)
over an abstract game state, followed by theorems about them.

Conventions of the embedding:

* `int` values are mathematical integers; every `int` operation of the source
  (`-x`, `x * y`, `x - 1`) goes through `wrap32`, two's-complement wrap-around.
* the global `unsigned` counters `expanded` and `generated` are an explicit
  `Counters` value threaded through every call; `++` wraps modulo `2^32`.
* `state_t` (declared in `othello_cut.h`, which is not part of the sources) is
  an abstract type with the four operations the engines use and the constant
  `DIM`, collected in `Game`.
* the `depth` argument is a natural number (the engines are specified for
  `depth >= 0`).
* `scout` and `TEST` re-search a position with no legal move at the *same*
  depth, so their recursion need not end; they carry a fuel argument and
  return `none` when it runs out.
* the `condition` string of `TEST` is one of the two values `">"` and `">="`.

The file has two parts: the definitions (the engines, test positions, and the
reference notions the theorems are stated with), then the theorems.
-/

namespace Othello

/-! ## Machine integers and counters -/

/-- Largest `int`: `numeric_limits<int>::max()`. -/
def INT_MAX : Int := 2147483647

/-- Smallest `int`. -/
def INT_MIN : Int := -2147483648

/-- Two's-complement reduction of an integer to the 32-bit `int` range. -/
def wrap32 (x : Int) : Int := (x + 2147483648) % 4294967296 - 2147483648

/-- Unary minus on `int`. -/
def neg32 (x : Int) : Int := wrap32 (-x)

/-- Product on `int`. -/
def mul32 (x y : Int) : Int := wrap32 (x * y)

/-- Difference on `int`. -/
def sub32 (x y : Int) : Int := wrap32 (x - y)

/-- The global counters `expanded` and `generated` (both `unsigned`). -/
structure Counters where
  expanded : Nat
  generated : Nat
  deriving DecidableEq, Repr

/-- Both counters at zero, as the driver sets them before a search. -/
def Counters.zero : Counters := ⟨0, 0⟩

/-- The statement `++expanded`. -/
def Counters.incExpanded (k : Counters) : Counters :=
  ⟨(k.expanded + 1) % 4294967296, k.generated⟩

/-- The statement `++generated`. -/
def Counters.incGenerated (k : Counters) : Counters :=
  ⟨k.expanded, (k.generated + 1) % 4294967296⟩

/-! ## The state abstraction -/

/-- The interface of `state_t` used by the engines: `terminal()`, `value()`,
`outflank(color, pos)`, `move(color, pos)` and the constant `DIM`. -/
structure Game (σ : Type) where
  DIM : Nat
  terminal : σ → Bool
  value : σ → Int
  outflank : σ → Bool → Nat → Bool
  move : σ → Bool → Nat → σ

variable {σ : Type}

/-! ## Negamax (lines 57-81) -/

/-- The `for (pos = 0; pos < DIM; ++pos)` loop of `negamax`, over the positions
still to visit; the loop state is `alpha`, `no_moves` and the counters. `recur`
is the recursive call `negamax(child, depth - 1, -color)`. -/
def negamaxLoop (g : Game σ) (recur : σ → Counters → Int × Counters) (s : σ)
    (color_b : Bool) : List Nat → Int → Bool → Counters → Int × Bool × Counters
  | [], alpha, no_moves, k => (alpha, no_moves, k)
  | pos :: rest, alpha, no_moves, k =>
    if g.outflank s color_b pos then
      let r := recur (g.move s color_b pos) k.incGenerated
      let tmp := neg32 r.1
      negamaxLoop g recur s color_b rest (max alpha tmp) false r.2
    else
      negamaxLoop g recur s color_b rest alpha no_moves k

/-- The function `negamax(state, depth, color)`; returns the score and the
counters after the call. -/
def negamax (g : Game σ) : σ → Nat → Int → Counters → Int × Counters
  | s, 0, color, k => (mul32 color (g.value s), k.incExpanded)
  | s, depth + 1, color, k =>
    let k1 := k.incExpanded
    if g.terminal s then (mul32 color (g.value s), k1)
    else
      let color_b := decide (color = 1)
      let out := negamaxLoop g (fun st kk => negamax g st depth (neg32 color) kk) s color_b
        (List.range g.DIM) (neg32 INT_MAX) true k1
      if out.2.1 then
        let r := negamax g s depth (neg32 color) out.2.2.incGenerated
        (max out.1 (neg32 r.1), r.2)
      else (out.1, out.2.2)

/-! ## Negamax with alpha-beta pruning (lines 93-121) -/

/-- The loop of the alpha-beta overload; the loop state is `value`, `alpha`,
`no_moves` and the counters, and `break` ends the recursion over positions. -/
def negamax_abLoop (g : Game σ) (recur : σ → Int → Int → Counters → Int × Counters)
    (s : σ) (color_b : Bool) (beta : Int) :
    List Nat → Int → Int → Bool → Counters → Int × Int × Bool × Counters
  | [], value, alpha, no_moves, k => (value, alpha, no_moves, k)
  | pos :: rest, value, alpha, no_moves, k =>
    if g.outflank s color_b pos then
      let r := recur (g.move s color_b pos) (neg32 beta) (neg32 alpha) k.incGenerated
      let value1 := max value (neg32 r.1)
      let alpha1 := max alpha value1
      if alpha1 ≥ beta then (value1, alpha1, false, r.2)
      else negamax_abLoop g recur s color_b beta rest value1 alpha1 false r.2
    else
      negamax_abLoop g recur s color_b beta rest value alpha no_moves k

/-- The overload `negamax(state, depth, alpha, beta, color)`. -/
def negamax_ab (g : Game σ) : σ → Nat → Int → Int → Int → Counters → Int × Counters
  | s, 0, _, _, color, k => (mul32 color (g.value s), k.incExpanded)
  | s, depth + 1, alpha, beta, color, k =>
    let k1 := k.incExpanded
    if g.terminal s then (mul32 color (g.value s), k1)
    else
      let color_b := decide (color = 1)
      let out := negamax_abLoop g
        (fun st a b kk => negamax_ab g st depth a b (neg32 color) kk) s color_b beta
        (List.range g.DIM) (neg32 INT_MAX) alpha true k1
      if out.2.2.1 then
        let r := negamax_ab g s depth (neg32 beta) (neg32 out.2.1) (neg32 color)
          out.2.2.2.incGenerated
        (max out.1 (neg32 r.1), r.2)
      else (out.1, out.2.2.2)

/-! ## Scout and its helper `TEST` (lines 133-202) -/

/-- The `condition` argument of `TEST`. The source passes it as a string; the
only strings `scout` ever passes, and `TEST` hands on unchanged, are `">"` and
`">="`. -/
inductive Condition where
  | gt
  | ge
  deriving DecidableEq, Repr

/-- The comparison `state.value() > score` or `state.value() >= score` chosen by
`condition`. -/
def Condition.holds : Condition → Int → Int → Bool
  | Condition.gt, v, score => decide (v > score)
  | Condition.ge, v, score => decide (v ≥ score)

/-- The loop of `TEST`. The result is `none` when a recursive call ran out of
fuel; otherwise its first component is `some b` when the loop executed
`return b`, and the second component is `no_moves`. -/
def TESTLoop (g : Game σ) (recur : σ → Option Bool) (s : σ) (color_b is_MAX : Bool) :
    List Nat → Bool → Option (Option Bool × Bool)
  | [], no_moves => some (none, no_moves)
  | pos :: rest, no_moves =>
    if g.outflank s color_b pos then
      match recur (g.move s color_b pos) with
      | none => none
      | some t =>
        if is_MAX && t then some (some true, false)
        else if !is_MAX && !t then some (some false, false)
        else TESTLoop g recur s color_b is_MAX rest false
    else
      TESTLoop g recur s color_b is_MAX rest no_moves

/-- The function `TEST(state, depth, score, condition, color)`, with a fuel
argument bounding the number of nested calls. -/
def TEST (g : Game σ) : Nat → σ → Nat → Int → Condition → Int → Option Bool
  | 0, _, _, _, _, _ => none
  | fuel + 1, s, depth, score, condition, color =>
    if depth == 0 || g.terminal s then some (condition.holds (g.value s) score)
    else
      let is_MAX := decide (color = 1)
      let color_b := decide (color = 1)
      match TESTLoop g (fun child => TEST g fuel child (depth - 1) score condition (neg32 color))
          s color_b is_MAX (List.range g.DIM) true with
      | none => none
      | some (some b, _) => some b
      | some (none, no_moves) =>
        if no_moves then
          match TEST g fuel s depth score condition (neg32 color) with
          | none => none
          | some t =>
            if is_MAX && t then some true
            else if !is_MAX && !t then some false
            else some (!is_MAX)
        else some (!is_MAX)

/-- The two `if` statements that `scout` runs on a child that is not the first:
`if (color == 1 && TEST(child, depth, score, ">", -color)) score = scout(...)`
followed by
`if (color == -1 && !TEST(child, depth, score, ">=", -color)) score = scout(...)`. -/
def scoutRetest (recur : σ → Counters → Option (Int × Counters))
    (test : σ → Int → Condition → Option Bool) (child : σ) (color : Int)
    (score : Int) (k : Counters) : Option (Int × Counters) :=
  let r1 : Option (Int × Counters) :=
    if color = 1 then
      match test child score Condition.gt with
      | none => none
      | some true => recur child k
      | some false => some (score, k)
    else some (score, k)
  match r1 with
  | none => none
  | some (score1, k1) =>
    if color = -1 then
      match test child score1 Condition.ge with
      | none => none
      | some false => recur child k1
      | some true => some (score1, k1)
    else some (score1, k1)

/-- The loop of `scout`; the loop state is `score`, `is_first_child`,
`no_moves` and the counters. `recur` is `scout(child, depth - 1, -color)` and
`test` is `TEST(child, depth, score, condition, -color)`. -/
def scoutLoop (g : Game σ) (recur : σ → Counters → Option (Int × Counters))
    (test : σ → Int → Condition → Option Bool) (s : σ) (color : Int) (color_b : Bool) :
    List Nat → Int → Bool → Bool → Counters → Option (Int × Bool × Bool × Counters)
  | [], score, is_first_child, no_moves, k => some (score, is_first_child, no_moves, k)
  | pos :: rest, score, is_first_child, no_moves, k =>
    if g.outflank s color_b pos then
      let child := g.move s color_b pos
      let k1 := k.incGenerated
      if is_first_child then
        match recur child k1 with
        | none => none
        | some r => scoutLoop g recur test s color color_b rest r.1 false false r.2
      else
        match scoutRetest recur test child color score k1 with
        | none => none
        | some r => scoutLoop g recur test s color color_b rest r.1 false false r.2
    else
      scoutLoop g recur test s color color_b rest score is_first_child no_moves k

/-- The function `scout(state, depth, color)`, with a fuel argument bounding the
number of nested calls. -/
def scout (g : Game σ) : Nat → σ → Nat → Int → Counters → Option (Int × Counters)
  | 0, _, _, _, _ => none
  | fuel + 1, s, depth, color, k =>
    let k1 := k.incExpanded
    if depth == 0 || g.terminal s then some (g.value s, k1)
    else
      let color_b := decide (color = 1)
      match scoutLoop g (fun child kk => scout g fuel child (depth - 1) (neg32 color) kk)
          (fun child score condition => TEST g fuel child depth score condition (neg32 color))
          s color color_b (List.range g.DIM) 0 true true k1 with
      | none => none
      | some (score, _, no_moves, k2) =>
        if no_moves then scout g fuel s depth (neg32 color) k2.incGenerated
        else some (score, k2)

/-! ## Negascout (lines 214-247) -/

/-- The search of one child in the loop of `negascout`: the full window for the
first child, otherwise the null-window probe and, when its result falls inside
`(alpha, beta)`, the re-search. Returns the new `score` and the counters. -/
def negascoutChild (recur : σ → Int → Int → Counters → Int × Counters) (child : σ)
    (alpha beta : Int) (is_first_child : Bool) (k : Counters) : Int × Counters :=
  if is_first_child then
    let r := recur child (neg32 beta) (neg32 alpha) k
    (neg32 r.1, r.2)
  else
    let r := recur child (sub32 (neg32 alpha) 1) (neg32 alpha) k
    let score := neg32 r.1
    if alpha < score ∧ score < beta then
      let r2 := recur child (neg32 beta) (neg32 score) r.2
      (neg32 r2.1, r2.2)
    else (score, r.2)

/-- The loop of `negascout`; the loop state is `score`, `alpha`, `no_moves`,
`is_first_child` and the counters. -/
def negascoutLoop (g : Game σ) (recur : σ → Int → Int → Counters → Int × Counters)
    (s : σ) (color_b : Bool) (beta : Int) :
    List Nat → Int → Int → Bool → Bool → Counters → Int × Int × Bool × Bool × Counters
  | [], score, alpha, no_moves, is_first_child, k =>
    (score, alpha, no_moves, is_first_child, k)
  | pos :: rest, score, alpha, no_moves, is_first_child, k =>
    if g.outflank s color_b pos then
      let r := negascoutChild recur (g.move s color_b pos) alpha beta is_first_child
        k.incGenerated
      let alpha1 := max alpha r.1
      if alpha1 ≥ beta then (r.1, alpha1, false, false, r.2)
      else negascoutLoop g recur s color_b beta rest r.1 alpha1 false false r.2
    else
      negascoutLoop g recur s color_b beta rest score alpha no_moves is_first_child k

/-- The function `negascout(state, depth, alpha, beta, color)`. -/
def negascout (g : Game σ) : σ → Nat → Int → Int → Int → Counters → Int × Counters
  | s, 0, _, _, color, k => (mul32 color (g.value s), k.incExpanded)
  | s, depth + 1, alpha, beta, color, k =>
    let k1 := k.incExpanded
    if g.terminal s then (mul32 color (g.value s), k1)
    else
      let color_b := decide (color = 1)
      let out := negascoutLoop g
        (fun st a b kk => negascout g st depth a b (neg32 color) kk) s color_b beta
        (List.range g.DIM) (neg32 INT_MAX) alpha true true k1
      if out.2.2.1 then
        let r := negascout g s depth (neg32 beta) (neg32 out.2.1) (neg32 color)
          out.2.2.2.2.incGenerated
        (max out.2.1 (neg32 r.1), r.2)
      else (out.2.1, out.2.2.2.2)

/-! ## Concrete games used as test inputs -/

/-- A finite game tree: static value, terminal flag, and the successor positions
of the first player (`kidsMax`) and of the second player (`kidsMin`). -/
inductive GTree where
  | node (value : Int) (terminal : Bool) (kidsMax kidsMin : List GTree)

/-- Static value of the root. -/
def GTree.value : GTree → Int
  | GTree.node v _ _ _ => v

/-- Terminal flag of the root. -/
def GTree.terminal : GTree → Bool
  | GTree.node _ t _ _ => t

/-- Successor positions for the player to move. -/
def GTree.kids : GTree → Bool → List GTree
  | GTree.node _ _ km kn, b => if b then km else kn

/-- The game played on a `GTree`: move `pos` is legal when the mover has more
than `pos` successors, and leads to the successor of that index. -/
def treeGame (dim : Nat) : Game GTree where
  DIM := dim
  terminal := GTree.terminal
  value := GTree.value
  outflank := fun s b pos => decide (pos < (s.kids b).length)
  move := fun s b pos => ((s.kids b).get? pos).getD s

/-- A terminal position of static value `v`. -/
def leaf (v : Int) : GTree := GTree.node v true [] []

/-- The game on a `GTree` with the static values cut off at `-200` and `200`,
the score range of the example domain. -/
def boundedTreeGame (dim : Nat) : Game GTree where
  DIM := dim
  terminal := GTree.terminal
  value := fun s => max (-200) (min 200 s.value)
  outflank := fun s b pos => decide (pos < (s.kids b).length)
  move := fun s b pos => ((s.kids b).get? pos).getD s

/-- A position where the first player has one move, to a position where the
second player chooses between terminal positions of value `5` and `1`. -/
def twoPly : GTree := GTree.node 0 false [GTree.node 0 false [] [leaf 5, leaf 1]] []

/-- A position of static value `0` where the first player has no legal move and
the second player has one move, to a terminal position of value `5`. -/
def passPosition : GTree := GTree.node 0 false [] [leaf 5]

/-- A position where the first player has exactly one move, to a terminal
position of value `5`. -/
def oneMove : GTree := GTree.node 0 false [leaf 5] []

/-! ## Reference definitions

The minimax value in the words of the specification, and the value computed by
`negamax` written without counters. -/

/-- The legal successor positions of `s` among the move indices `l`, for the
player `p`, in the order of the indices. -/
def kidsOf (g : Game σ) (s : σ) (p : Bool) (l : List Nat) : List σ :=
  (l.filter (fun pos => g.outflank s p pos)).map (fun pos => g.move s p pos)

/-- The legal successor positions of `s` for the player `p`. -/
def legalChildren (g : Game σ) (s : σ) (p : Bool) : List σ :=
  kidsOf g s p (List.range g.DIM)

/-- Maximum of the non-empty list `x :: xs`. -/
def maxOf (x : Int) (xs : List Int) : Int := xs.foldl max x

/-- Minimum of the non-empty list `x :: xs`. -/
def minOf (x : Int) (xs : List Int) : Int := xs.foldl min x

/-- The depth-limited minimax value: `value(s)` when `d = 0` or `s` is terminal,
otherwise the maximum (when the maximizer `p = true` moves) or the minimum (when
the minimizer moves) of the values of the legal children at depth `d - 1` with
the other player to move, and the value of `s` itself at depth `d - 1` with the
other player to move when there is no legal move. -/
def mm (g : Game σ) : σ → Nat → Bool → Int
  | s, 0, _ => g.value s
  | s, d + 1, p =>
    if g.terminal s then g.value s
    else
      match legalChildren g s p with
      | [] => mm g s d (!p)
      | c :: cs =>
        if p then maxOf (mm g c d (!p)) (cs.map (fun ch => mm g ch d (!p)))
        else minOf (mm g c d (!p)) (cs.map (fun ch => mm g ch d (!p)))

/-- The score returned by `negamax`, without the counters. -/
def negamaxV (g : Game σ) : σ → Nat → Int → Int
  | s, 0, color => mul32 color (g.value s)
  | s, depth + 1, color =>
    if g.terminal s then mul32 color (g.value s)
    else
      let kids := legalChildren g s (decide (color = 1))
      let alpha := kids.foldl
        (fun acc ch => max acc (neg32 (negamaxV g ch depth (neg32 color)))) (neg32 INT_MAX)
      if kids.isEmpty then max alpha (neg32 (negamaxV g s depth (neg32 color)))
      else alpha

/-- The `color` argument of the engines for the player `p`: `1` for the
maximizer (`p = true`), `-1` for the minimizer. -/
def colorOf (p : Bool) : Int := if p then 1 else -1

/-- Every line of play from `s`, with the player `p` to move, reaches a terminal
position within `d` plies, a forced pass counting as one ply. -/
def resolved (g : Game σ) : σ → Nat → Bool → Bool
  | s, 0, _ => g.terminal s
  | s, d + 1, p =>
    g.terminal s ||
      (if (legalChildren g s p).isEmpty then resolved g s d (!p)
       else (legalChildren g s p).all (fun ch => resolved g ch d (!p)))

/-- The window contract of a search with window `(a, b)`: `r` is the true value
`v` when `v` lies inside the window, and otherwise a bound on the side where
`v` lies. -/
def WindowSpec (v r a b : Int) : Prop :=
  (v ≤ a → v ≤ r ∧ r ≤ a) ∧ (a < v → v < b → r = v) ∧ (b ≤ v → b ≤ r ∧ r ≤ v)

/-- The value `r` lies between `v` and `b` (in either order). -/
def Between (v r b : Int) : Prop := min v b ≤ r ∧ r ≤ max v b

/-- A position that is not terminal although neither player has a legal move. -/
def stuck : GTree := GTree.node 0 false [] []

/-- A position where the first player has two moves: to a terminal position of
value `3`, and to a position of static value `10` from which the second player
can only move to a terminal position of value `0`. -/
def shallowHigh : GTree :=
  GTree.node 0 false [leaf 3, GTree.node 10 false [] [leaf 0]] []

/-- A position where the first player has two moves: to a terminal position of
value `3`, and to a position of static value `0` from which the second player
can only move to a terminal position of value `10`. -/
def shallowLow : GTree :=
  GTree.node 0 false [leaf 3, GTree.node 0 false [] [leaf 10]] []

/-! ## The driver (lines 261-348)

`PV` (declared in `othello_cut.h`) is the list of the array's entries; an entry
is a move index or the sentinel `-1`. The array `pv` of 128 positions is a list
of length 128; a write outside it is dropped. -/

/-- The loop `for (i = 0; PV[i] != -1; ++i) ++npv`, with `npv` as accumulator. -/
def countPV : List Int → Nat → Nat
  | [], npv => npv
  | x :: rest, npv => if x ≠ -1 then countPV rest (npv + 1) else npv

/-- The loop that extracts the principal variation (lines 276-282): over the
entries of `PV` still to read, with the loop index `i`, the current `state` and
the array `pv`. -/
def extractLoop (g : Game σ) (npv : Nat) : List Int → Nat → σ → List σ → σ × List σ
  | [], _, state, pv => (state, pv)
  | x :: rest, i, state, pv =>
    if x ≠ -1 then
      let player := decide (i % 2 = 0)
      let pos := x
      let pv1 := pv.set (npv - i) state
      extractLoop g npv rest (i + 1) (g.move state player pos.toNat) pv1
    else (state, pv)

/-- The array `pv` after the extraction (lines 262-283), `init` being the
default-constructed `state_t`, the initial position. -/
def extractPV (g : Game σ) (init : σ) (PV : List Int) : List σ :=
  let npv := countPV PV 0
  let out := extractLoop g npv PV 0 init (List.replicate 128 init)
  out.2.set 0 out.1

/-- The position reached from `state` by the moves `ms`, the move of index `k`
(counted from the start of the game) being played by the first player exactly
when `k` is even. -/
def replayFrom (g : Game σ) : Nat → σ → List Int → σ
  | _, state, [] => state
  | k, state, x :: rest =>
    replayFrom g (k + 1) (g.move state (decide (k % 2 = 0)) x.toNat) rest

/-- The assignments `expanded = 0; generated = 0;` of the driver. -/
def Counters.reset (k : Counters) : Counters :=
  let k1 : Counters := ⟨0, k.generated⟩
  ⟨k1.expanded, 0⟩

/-- The color the driver gives to the position `pv[i]`:
`i % 2 == 1 ? 1 : -1`. -/
def driverColor (i : Nat) : Int := if i % 2 = 1 then 1 else -1

/-- The selection of the engine (lines 321-329); `value` is `0` when no branch
is taken. -/
def runAlgorithm (g : Game σ) (fuel : Nat) (algorithm : Int) (s : σ) (color : Int)
    (k : Counters) : Option (Int × Counters) :=
  if algorithm = 1 then some (negamax g s 33 color k)
  else if algorithm = 2 then some (negamax_ab g s 33 (-200) 200 color k)
  else if algorithm = 3 then scout g fuel s 33 color k
  else if algorithm = 4 then some (negascout g s 33 (-200) 200 color k)
  else some (0, k)

/-- What the driver prints for one position: `color * value`, `expanded` and
`generated`. -/
structure Report where
  value : Int
  expanded : Nat
  generated : Nat
  deriving DecidableEq, Repr

/-- One iteration of the loop over `pv` (lines 306-345) for the position
`s = pv[i]`, started with the global counters `k`: the report printed and the
counters left behind. -/
def driverStep (g : Game σ) (fuel : Nat) (algorithm : Int) (s : σ) (i : Nat)
    (k : Counters) : Option (Report × Counters) :=
  let k0 := k.reset
  let color := driverColor i
  match runAlgorithm g fuel algorithm s color k0 with
  | none => none
  | some (value, k1) => some (⟨mul32 color value, k1.expanded, k1.generated⟩, k1)

/-- The loop over `pv` (line 306), over the indices still to visit. -/
def driverLoop (g : Game σ) (fuel : Nat) (algorithm : Int) (init : σ) (pv : List σ) :
    List Nat → Counters → Option (List Report)
  | [], _ => some []
  | i :: rest, k =>
    match driverStep g fuel algorithm (pv.getD i init) i k with
    | none => none
    | some (r, k1) =>
      match driverLoop g fuel algorithm init pv rest k1 with
      | none => none
      | some rs => some (r :: rs)

/-- The function `main` for the selector `algorithm` (`0` when no argument is
given): the reports printed for `pv[0]` to `pv[npv]`. -/
def driver (g : Game σ) (fuel : Nat) (algorithm : Int) (init : σ) (PV : List Int) :
    Option (List Report) :=
  driverLoop g fuel algorithm init (extractPV g init PV)
    (List.range (countPV PV 0 + 1)) Counters.zero

/-! ## Node counts -/

/-- The counters are `unsigned`: both components are below `2^32`. -/
def Counters.valid (k : Counters) : Prop :=
  k.expanded < 4294967296 ∧ k.generated < 4294967296

/-- The counters after `e` executions of `++expanded` and `g` executions of
`++generated`. -/
def Counters.add (k : Counters) (e g : Nat) : Counters :=
  ⟨(k.expanded + e) % 4294967296, (k.generated + g) % 4294967296⟩

/-- The number of moves generated by `negamax(s, d, color)`, the synthetic pass
move included, as an unbounded natural number; the number of calls is one
more. -/
def negamaxGenerated (g : Game σ) : σ → Nat → Int → Nat
  | _, 0, _ => 0
  | s, depth + 1, color =>
    if g.terminal s then 0
    else
      let kids := legalChildren g s (decide (color = 1))
      if kids.isEmpty then negamaxGenerated g s depth (neg32 color) + 1
      else (kids.map (fun ch => negamaxGenerated g ch depth (neg32 color) + 1)).sum

/-- A game whose tree does not end: position `0` offers the first player a move
to the terminal position `1` (value `200`) and a move to position `2`; from
position `2` either player has two moves, both back to position `2`; at
position `3` the first player has no move and the second player has two, both
to position `2`. -/
def deepGame : Game Nat where
  DIM := 2
  terminal := fun s => decide (s = 1)
  value := fun s => if s = 1 then 200 else 0
  outflank := fun s b _ => decide (s = 0) || decide (s = 2) || (decide (s = 3) && !b)
  move := fun s _ pos => if s = 0 ∧ pos = 0 then 1 else 2

/-! ## The engines with counters that do not wrap

The same functions with `expanded` and `generated` taken as unbounded natural
numbers: `++` adds one and never wraps. They give the number of calls and of
generated moves of a search as they are counted without the 32-bit limit. -/

/-- The counters as unbounded natural numbers. -/
structure Wide where
  expanded : Nat
  generated : Nat
  deriving DecidableEq, Repr

/-- The statement `++expanded` on unbounded counters. -/
def Wide.incExpanded (u : Wide) : Wide := ⟨u.expanded + 1, u.generated⟩

/-- The statement `++generated` on unbounded counters. -/
def Wide.incGenerated (u : Wide) : Wide := ⟨u.expanded, u.generated + 1⟩

/-- The `unsigned` counters that hold the counts `u`: both reduced modulo
`2^32`. -/
def Wide.wrap (u : Wide) : Counters :=
  ⟨u.expanded % 4294967296, u.generated % 4294967296⟩

/-- The loop of `negamax`, with counters that do not wrap. -/
def negamaxLoopWide (g : Game σ) (recur : σ → Wide → Int × Wide) (s : σ)
    (color_b : Bool) : List Nat → Int → Bool → Wide → Int × Bool × Wide
  | [], alpha, no_moves, k => (alpha, no_moves, k)
  | pos :: rest, alpha, no_moves, k =>
    if g.outflank s color_b pos then
      let r := recur (g.move s color_b pos) k.incGenerated
      let tmp := neg32 r.1
      negamaxLoopWide g recur s color_b rest (max alpha tmp) false r.2
    else
      negamaxLoopWide g recur s color_b rest alpha no_moves k

/-- The function `negamax(state, depth, color)`, with counters that do not wrap. -/
def negamaxWide (g : Game σ) : σ → Nat → Int → Wide → Int × Wide
  | s, 0, color, k => (mul32 color (g.value s), k.incExpanded)
  | s, depth + 1, color, k =>
    let k1 := k.incExpanded
    if g.terminal s then (mul32 color (g.value s), k1)
    else
      let color_b := decide (color = 1)
      let out := negamaxLoopWide g (fun st kk => negamaxWide g st depth (neg32 color) kk) s color_b
        (List.range g.DIM) (neg32 INT_MAX) true k1
      if out.2.1 then
        let r := negamaxWide g s depth (neg32 color) out.2.2.incGenerated
        (max out.1 (neg32 r.1), r.2)
      else (out.1, out.2.2)

/-- The loop of the alpha-beta overload, with counters that do not wrap. -/
def negamax_abLoopWide (g : Game σ) (recur : σ → Int → Int → Wide → Int × Wide)
    (s : σ) (color_b : Bool) (beta : Int) :
    List Nat → Int → Int → Bool → Wide → Int × Int × Bool × Wide
  | [], value, alpha, no_moves, k => (value, alpha, no_moves, k)
  | pos :: rest, value, alpha, no_moves, k =>
    if g.outflank s color_b pos then
      let r := recur (g.move s color_b pos) (neg32 beta) (neg32 alpha) k.incGenerated
      let value1 := max value (neg32 r.1)
      let alpha1 := max alpha value1
      if alpha1 ≥ beta then (value1, alpha1, false, r.2)
      else negamax_abLoopWide g recur s color_b beta rest value1 alpha1 false r.2
    else
      negamax_abLoopWide g recur s color_b beta rest value alpha no_moves k

/-- The overload `negamax(state, depth, alpha, beta, color)`, with counters that do
not wrap. -/
def negamax_abWide (g : Game σ) : σ → Nat → Int → Int → Int → Wide → Int × Wide
  | s, 0, _, _, color, k => (mul32 color (g.value s), k.incExpanded)
  | s, depth + 1, alpha, beta, color, k =>
    let k1 := k.incExpanded
    if g.terminal s then (mul32 color (g.value s), k1)
    else
      let color_b := decide (color = 1)
      let out := negamax_abLoopWide g
        (fun st a b kk => negamax_abWide g st depth a b (neg32 color) kk) s color_b beta
        (List.range g.DIM) (neg32 INT_MAX) alpha true k1
      if out.2.2.1 then
        let r := negamax_abWide g s depth (neg32 beta) (neg32 out.2.1) (neg32 color)
          out.2.2.2.incGenerated
        (max out.1 (neg32 r.1), r.2)
      else (out.1, out.2.2.2)

/-- The two `if` statements that `scout` runs on a child that is not the first,
with counters that do not wrap. -/
def scoutRetestWide (recur : σ → Wide → Option (Int × Wide))
    (test : σ → Int → Condition → Option Bool) (child : σ) (color : Int)
    (score : Int) (k : Wide) : Option (Int × Wide) :=
  let r1 : Option (Int × Wide) :=
    if color = 1 then
      match test child score Condition.gt with
      | none => none
      | some true => recur child k
      | some false => some (score, k)
    else some (score, k)
  match r1 with
  | none => none
  | some (score1, k1) =>
    if color = -1 then
      match test child score1 Condition.ge with
      | none => none
      | some false => recur child k1
      | some true => some (score1, k1)
    else some (score1, k1)

/-- The loop of `scout`, with counters that do not wrap. -/
def scoutLoopWide (g : Game σ) (recur : σ → Wide → Option (Int × Wide))
    (test : σ → Int → Condition → Option Bool) (s : σ) (color : Int) (color_b : Bool) :
    List Nat → Int → Bool → Bool → Wide → Option (Int × Bool × Bool × Wide)
  | [], score, is_first_child, no_moves, k => some (score, is_first_child, no_moves, k)
  | pos :: rest, score, is_first_child, no_moves, k =>
    if g.outflank s color_b pos then
      let child := g.move s color_b pos
      let k1 := k.incGenerated
      if is_first_child then
        match recur child k1 with
        | none => none
        | some r => scoutLoopWide g recur test s color color_b rest r.1 false false r.2
      else
        match scoutRetestWide recur test child color score k1 with
        | none => none
        | some r => scoutLoopWide g recur test s color color_b rest r.1 false false r.2
    else
      scoutLoopWide g recur test s color color_b rest score is_first_child no_moves k

/-- The function `scout(state, depth, color)`, with counters that do not wrap and
the same fuel argument. -/
def scoutWide (g : Game σ) : Nat → σ → Nat → Int → Wide → Option (Int × Wide)
  | 0, _, _, _, _ => none
  | fuel + 1, s, depth, color, k =>
    let k1 := k.incExpanded
    if depth == 0 || g.terminal s then some (g.value s, k1)
    else
      let color_b := decide (color = 1)
      match scoutLoopWide g (fun child kk => scoutWide g fuel child (depth - 1) (neg32 color) kk)
          (fun child score condition => TEST g fuel child depth score condition (neg32 color))
          s color color_b (List.range g.DIM) 0 true true k1 with
      | none => none
      | some (score, _, no_moves, k2) =>
        if no_moves then scoutWide g fuel s depth (neg32 color) k2.incGenerated
        else some (score, k2)

/-- The search of one child in the loop of `negascout`, with counters that do not
wrap. -/
def negascoutChildWide (recur : σ → Int → Int → Wide → Int × Wide) (child : σ)
    (alpha beta : Int) (is_first_child : Bool) (k : Wide) : Int × Wide :=
  if is_first_child then
    let r := recur child (neg32 beta) (neg32 alpha) k
    (neg32 r.1, r.2)
  else
    let r := recur child (sub32 (neg32 alpha) 1) (neg32 alpha) k
    let score := neg32 r.1
    if alpha < score ∧ score < beta then
      let r2 := recur child (neg32 beta) (neg32 score) r.2
      (neg32 r2.1, r2.2)
    else (score, r.2)

/-- The loop of `negascout`, with counters that do not wrap. -/
def negascoutLoopWide (g : Game σ) (recur : σ → Int → Int → Wide → Int × Wide)
    (s : σ) (color_b : Bool) (beta : Int) :
    List Nat → Int → Int → Bool → Bool → Wide → Int × Int × Bool × Bool × Wide
  | [], score, alpha, no_moves, is_first_child, k =>
    (score, alpha, no_moves, is_first_child, k)
  | pos :: rest, score, alpha, no_moves, is_first_child, k =>
    if g.outflank s color_b pos then
      let r := negascoutChildWide recur (g.move s color_b pos) alpha beta is_first_child
        k.incGenerated
      let alpha1 := max alpha r.1
      if alpha1 ≥ beta then (r.1, alpha1, false, false, r.2)
      else negascoutLoopWide g recur s color_b beta rest r.1 alpha1 false false r.2
    else
      negascoutLoopWide g recur s color_b beta rest score alpha no_moves is_first_child k

/-- The function `negascout(state, depth, alpha, beta, color)`, with counters that
do not wrap. -/
def negascoutWide (g : Game σ) : σ → Nat → Int → Int → Int → Wide → Int × Wide
  | s, 0, _, _, color, k => (mul32 color (g.value s), k.incExpanded)
  | s, depth + 1, alpha, beta, color, k =>
    let k1 := k.incExpanded
    if g.terminal s then (mul32 color (g.value s), k1)
    else
      let color_b := decide (color = 1)
      let out := negascoutLoopWide g
        (fun st a b kk => negascoutWide g st depth a b (neg32 color) kk) s color_b beta
        (List.range g.DIM) (neg32 INT_MAX) alpha true true k1
      if out.2.2.1 then
        let r := negascoutWide g s depth (neg32 beta) (neg32 out.2.1) (neg32 color)
          out.2.2.2.2.incGenerated
        (max out.2.1 (neg32 r.1), r.2)
      else (out.2.1, out.2.2.2.2)

/-! # Theorems -/

/-! ## Machine arithmetic -/

theorem neg32_eq (x : Int) (h1 : -INT_MAX ≤ x) (h2 : x ≤ INT_MAX) : neg32 x = -x := by
  unfold INT_MAX at h1 h2
  unfold neg32 wrap32
  omega

theorem neg32_one : neg32 1 = -1 := by decide

theorem neg32_neg_one : neg32 (-1) = 1 := by decide

theorem neg32_INT_MAX : neg32 INT_MAX = -INT_MAX := by decide

theorem mul32_one (x : Int) (h1 : -INT_MAX ≤ x) (h2 : x ≤ INT_MAX) : mul32 1 x = x := by
  unfold INT_MAX at h1 h2
  unfold mul32 wrap32
  omega

theorem mul32_neg_one (x : Int) (h1 : -INT_MAX ≤ x) (h2 : x ≤ INT_MAX) :
    mul32 (-1) x = -x := by
  unfold INT_MAX at h1 h2
  unfold mul32 wrap32
  omega

/-! ## The legal children of a position -/

theorem kidsOf_nil (g : Game σ) (s : σ) (p : Bool) : kidsOf g s p [] = [] := rfl

theorem kidsOf_cons_legal (g : Game σ) (s : σ) (p : Bool) (pos : Nat) (rest : List Nat)
    (h : g.outflank s p pos = true) :
    kidsOf g s p (pos :: rest) = g.move s p pos :: kidsOf g s p rest := by
  simp [kidsOf, h]

theorem kidsOf_cons_illegal (g : Game σ) (s : σ) (p : Bool) (pos : Nat) (rest : List Nat)
    (h : g.outflank s p pos = false) :
    kidsOf g s p (pos :: rest) = kidsOf g s p rest := by
  simp [kidsOf, h]

/-! ## Negamax without counters -/

/-- The loop of `negamax` computes a left fold of `max` over the legal children,
and leaves `no_moves` set exactly when there is none. -/
theorem negamaxLoop_fst (g : Game σ) (recur : σ → Counters → Int × Counters) (f : σ → Int)
    (hrec : ∀ st kk, (recur st kk).1 = f st) (s : σ) (p : Bool) (l : List Nat) :
    ∀ (alpha : Int) (no_moves : Bool) (k : Counters),
      (negamaxLoop g recur s p l alpha no_moves k).1
          = (kidsOf g s p l).foldl (fun acc ch => max acc (neg32 (f ch))) alpha
        ∧ (negamaxLoop g recur s p l alpha no_moves k).2.1
          = (no_moves && (kidsOf g s p l).isEmpty) := by
  induction l with
  | nil => intro alpha no_moves k; simp [negamaxLoop, kidsOf_nil]
  | cons pos rest ih =>
    intro alpha no_moves k
    by_cases h : g.outflank s p pos = true
    · have := ih (max alpha (neg32 (f (g.move s p pos)))) false
        (recur (g.move s p pos) k.incGenerated).2
      simp [negamaxLoop, h, kidsOf_cons_legal, hrec, this]
    · have h' : g.outflank s p pos = false := by simpa using h
      have := ih alpha no_moves k
      simp [negamaxLoop, h', kidsOf_cons_illegal, this]

/-- The score of `negamax` does not depend on the counters. -/
theorem negamax_fst (g : Game σ) (d : Nat) :
    ∀ (s : σ) (color : Int) (k : Counters), (negamax g s d color k).1 = negamaxV g s d color := by
  induction d with
  | zero => intro s color k; simp [negamax, negamaxV]
  | succ d ih =>
    intro s color k
    unfold negamax negamaxV
    by_cases ht : g.terminal s = true
    · simp [ht]
    · have ht' : g.terminal s = false := by simpa using ht
      have hl := negamaxLoop_fst g (fun st kk => negamax g st d (neg32 color) kk)
        (fun st => negamaxV g st d (neg32 color)) (fun st kk => ih st (neg32 color) kk) s
        (decide (color = 1)) (List.range g.DIM) (neg32 INT_MAX) true k.incExpanded
      simp only [ht', Bool.false_eq_true, if_false]
      by_cases he : (legalChildren g s (decide (color = 1))).isEmpty = true
      · have he' : (kidsOf g s (decide (color = 1)) (List.range g.DIM)).isEmpty = true := he
        simp [hl.1, hl.2, he, he', ih, legalChildren]
      · have he' : (kidsOf g s (decide (color = 1)) (List.range g.DIM)).isEmpty = false := by
          simpa [legalChildren] using he
        simp [hl.1, hl.2, he', legalChildren]

/-! ## Negamax and the minimax value -/

theorem foldl_max_bounds (lo hi : Int) (xs : List Int) :
    ∀ x : Int, lo ≤ x → x ≤ hi → (∀ y ∈ xs, lo ≤ y ∧ y ≤ hi) →
      lo ≤ xs.foldl max x ∧ xs.foldl max x ≤ hi := by
  induction xs with
  | nil => intro x h1 h2 _; exact ⟨h1, h2⟩
  | cons y ys ih =>
    intro x h1 h2 h
    have hy := h y (List.mem_cons_self y ys)
    simp only [List.foldl_cons]
    exact ih (max x y) (by omega) (by omega) (fun z hz => h z (List.mem_cons_of_mem y hz))

theorem foldl_min_bounds (lo hi : Int) (xs : List Int) :
    ∀ x : Int, lo ≤ x → x ≤ hi → (∀ y ∈ xs, lo ≤ y ∧ y ≤ hi) →
      lo ≤ xs.foldl min x ∧ xs.foldl min x ≤ hi := by
  induction xs with
  | nil => intro x h1 h2 _; exact ⟨h1, h2⟩
  | cons y ys ih =>
    intro x h1 h2 h
    have hy := h y (List.mem_cons_self y ys)
    simp only [List.foldl_cons]
    exact ih (min x y) (by omega) (by omega) (fun z hz => h z (List.mem_cons_of_mem y hz))

/-- The minimax value stays within any bounds that hold for the static values. -/
theorem mm_bounds (g : Game σ) (lo hi : Int) (hv : ∀ st, lo ≤ g.value st ∧ g.value st ≤ hi)
    (d : Nat) : ∀ (s : σ) (p : Bool), lo ≤ mm g s d p ∧ mm g s d p ≤ hi := by
  induction d with
  | zero => intro s p; simpa [mm] using hv s
  | succ d ih =>
    intro s p
    rw [mm]
    by_cases ht : g.terminal s = true
    · simpa [ht] using hv s
    · simp only [ht, if_false]
      cases hk : legalChildren g s p with
      | nil => exact ih s (!p)
      | cons c cs =>
        have hmem : ∀ y ∈ cs.map (fun ch => mm g ch d (!p)), lo ≤ y ∧ y ≤ hi := by
          intro y hy
          obtain ⟨ch, _, rfl⟩ := List.mem_map.1 hy
          exact ih ch (!p)
        cases p with
        | true =>
          simpa [maxOf] using foldl_max_bounds lo hi _ _ (ih c _).1 (ih c _).2 hmem
        | false =>
          simpa [minOf] using foldl_min_bounds lo hi _ _ (ih c _).1 (ih c _).2 hmem

theorem foldl_max_neg (F : σ → Int) (cs : List σ) :
    ∀ a : Int, cs.foldl (fun acc ch => max acc (-(F ch))) a
      = -((cs.map F).foldl min (-a)) := by
  induction cs with
  | nil => intro a; simp
  | cons c cs ih =>
    intro a
    simp only [List.foldl_cons, List.map_cons]
    rw [ih]
    congr 2
    omega

theorem foldl_max_map (F : σ → Int) (cs : List σ) (a : Int) :
    cs.foldl (fun acc ch => max acc (F ch)) a = (cs.map F).foldl max a := by
  rw [List.foldl_map]

/-- Unfolding of `negamaxV` at a position that is searched further. -/
theorem negamaxV_succ (g : Game σ) (s : σ) (d : Nat) (color : Int)
    (ht : g.terminal s = false) :
    negamaxV g s (d + 1) color =
      if (legalChildren g s (decide (color = 1))).isEmpty then
        max ((legalChildren g s (decide (color = 1))).foldl
          (fun acc ch => max acc (neg32 (negamaxV g ch d (neg32 color)))) (neg32 INT_MAX))
          (neg32 (negamaxV g s d (neg32 color)))
      else (legalChildren g s (decide (color = 1))).foldl
          (fun acc ch => max acc (neg32 (negamaxV g ch d (neg32 color)))) (neg32 INT_MAX) := by
  rw [negamaxV]
  simp [ht]

/-- Negamax is the minimax value seen from the side of the player to move. -/
theorem negamaxV_eq_mm (g : Game σ) (hv : ∀ st, -INT_MAX < g.value st ∧ g.value st < INT_MAX)
    (d : Nat) : ∀ s : σ,
      negamaxV g s d 1 = mm g s d true ∧ negamaxV g s d (-1) = -mm g s d false := by
  have hv' : ∀ st, -INT_MAX + 1 ≤ g.value st ∧ g.value st ≤ INT_MAX - 1 := fun st => by
    have := hv st; omega
  have hb := mm_bounds g (-INT_MAX + 1) (INT_MAX - 1) hv'
  induction d with
  | zero =>
    intro s
    have := hv s
    simp only [negamaxV, mm]
    exact ⟨mul32_one _ (by omega) (by omega), mul32_neg_one _ (by omega) (by omega)⟩
  | succ d ih =>
    intro s
    by_cases ht : g.terminal s = true
    · have := hv s
      simp only [negamaxV, mm, ht, if_true]
      exact ⟨mul32_one _ (by omega) (by omega), mul32_neg_one _ (by omega) (by omega)⟩
    · have ht' : g.terminal s = false := by simpa using ht
      have e1 : ∀ ch, neg32 (negamaxV g ch d (-1)) = mm g ch d false := fun ch => by
        have := hb d ch false
        rw [(ih ch).2, neg32_eq _ (by omega) (by omega)]; omega
      have e2 : ∀ ch, neg32 (negamaxV g ch d 1) = -mm g ch d true := fun ch => by
        have := hb d ch true
        rw [(ih ch).1, neg32_eq _ (by omega) (by omega)]
      constructor
      · rw [negamaxV_succ g s d 1 ht', mm]
        simp only [ht', neg32_one, decide_True, Bool.not_true, e1, neg32_INT_MAX]
        cases hk : legalChildren g s true with
        | nil => simp; have := hb d s false; omega
        | cons c cs =>
          have := hb d c false
          simp only [List.isEmpty_cons, List.foldl_cons, maxOf, foldl_max_map]
          simp
          congr 1
          omega
      · rw [negamaxV_succ g s d (-1) ht', mm]
        have hdec : decide ((-1 : Int) = 1) = false := by decide
        simp only [ht', neg32_neg_one, hdec, Bool.not_false, e2, neg32_INT_MAX]
        cases hk : legalChildren g s false with
        | nil => simp; have := hb d s true; omega
        | cons c cs =>
          have := hb d c true
          simp only [List.isEmpty_cons, List.foldl_cons, minOf, foldl_max_neg]
          simp
          congr 1
          omega

/-! ## Alpha-beta -/

theorem negamaxV_bounds (g : Game σ) (hv : ∀ st, -INT_MAX < g.value st ∧ g.value st < INT_MAX)
    (s : σ) (d : Nat) (c : Int) (hc : c = 1 ∨ c = -1) :
    -INT_MAX < negamaxV g s d c ∧ negamaxV g s d c < INT_MAX := by
  have hv' : ∀ st, -INT_MAX + 1 ≤ g.value st ∧ g.value st ≤ INT_MAX - 1 := fun st => by
    have := hv st; omega
  have h := negamaxV_eq_mm g hv d s
  rcases hc with rfl | rfl
  · have := mm_bounds g _ _ hv' d s true
    rw [h.1]; omega
  · have := mm_bounds g _ _ hv' d s false
    rw [h.2]; omega

theorem neg32_color (c : Int) (hc : c = 1 ∨ c = -1) : neg32 c = 1 ∨ neg32 c = -1 := by
  rcases hc with rfl | rfl
  · right; decide
  · left; decide

theorem foldl_max_ge_init (F : σ → Int) (cs : List σ) :
    ∀ a : Int, a ≤ cs.foldl (fun acc ch => max acc (F ch)) a := by
  induction cs with
  | nil => intro a; simp
  | cons c cs ih =>
    intro a
    simp only [List.foldl_cons]
    have := ih (max a (F c))
    omega

/-- With no legal move the alpha-beta loop leaves its state unchanged. -/
theorem negamax_abLoop_nil (g : Game σ) (recur : σ → Int → Int → Counters → Int × Counters)
    (s : σ) (p : Bool) (b : Int) (l : List Nat) (h : kidsOf g s p l = []) :
    ∀ (value alpha : Int) (nm : Bool) (k : Counters),
      negamax_abLoop g recur s p b l value alpha nm k = (value, alpha, nm, k) := by
  induction l with
  | nil => intro value alpha nm k; rfl
  | cons pos rest ih =>
    intro value alpha nm k
    by_cases ho : g.outflank s p pos = true
    · rw [kidsOf_cons_legal g s p pos rest ho] at h; cases h
    · have ho' : g.outflank s p pos = false := by simpa using ho
      rw [kidsOf_cons_illegal g s p pos rest ho'] at h
      simp [negamax_abLoop, ho', ih h]

/-- After a legal move the alpha-beta loop ends with `no_moves` cleared. -/
theorem negamax_abLoop_flag (g : Game σ) (recur : σ → Int → Int → Counters → Int × Counters)
    (s : σ) (p : Bool) (b : Int) (l : List Nat) :
    ∀ (value alpha : Int) (nm : Bool) (k : Counters),
      (negamax_abLoop g recur s p b l value alpha nm k).2.2.1
        = (nm && (kidsOf g s p l).isEmpty) := by
  induction l with
  | nil => intro value alpha nm k; simp [negamax_abLoop, kidsOf_nil]
  | cons pos rest ih =>
    intro value alpha nm k
    by_cases ho : g.outflank s p pos = true
    · simp only [negamax_abLoop, ho, if_true, kidsOf_cons_legal g s p pos rest ho]
      split
      · simp
      · simp [ih]
    · have ho' : g.outflank s p pos = false := by simpa using ho
      simp [negamax_abLoop, ho', kidsOf_cons_illegal, ih]

/-- Loop invariant of alpha-beta: `value` never drops below the running true
maximum `m`, and agrees with it above the original `alpha`. -/
theorem negamax_abLoop_spec (g : Game σ) (recur : σ → Int → Int → Counters → Int × Counters)
    (f : σ → Int) (s : σ) (p : Bool) (a0 b : Int)
    (hf : ∀ st, -INT_MAX < f st ∧ f st < INT_MAX)
    (hrec : ∀ st a1 b1 kk, -INT_MAX ≤ a1 → a1 < b1 → b1 ≤ INT_MAX →
      WindowSpec (f st) (recur st a1 b1 kk).1 a1 b1)
    (ha0 : -INT_MAX ≤ a0) (hb : b ≤ INT_MAX) (l : List Nat) :
    ∀ (value alpha m : Int) (nm : Bool) (k : Counters),
      alpha = max a0 value → alpha < b → m ≤ value → max a0 value = max a0 m →
      -INT_MAX ≤ m → m < INT_MAX →
      WindowSpec ((kidsOf g s p l).foldl (fun acc ch => max acc (-(f ch))) m)
        (negamax_abLoop g recur s p b l value alpha nm k).1 a0 b := by
  induction l with
  | nil =>
    intro value alpha m nm k h1 h2 h3 h4 h5 h6
    simp only [negamax_abLoop, kidsOf_nil, List.foldl_nil, WindowSpec]
    omega
  | cons pos rest ih =>
    intro value alpha m nm k h1 h2 h3 h4 h5 h6
    by_cases ho : g.outflank s p pos = true
    · have hfc := hf (g.move s p pos)
      have e1 : neg32 b = -b := neg32_eq b (by omega) hb
      have e2 : neg32 alpha = -alpha := neg32_eq alpha (by omega) (by omega)
      have hr := hrec (g.move s p pos) (-b) (-alpha) k.incGenerated (by omega) (by omega)
        (by omega)
      simp only [WindowSpec] at hr
      have e3 : neg32 (recur (g.move s p pos) (-b) (-alpha) k.incGenerated).1
          = -(recur (g.move s p pos) (-b) (-alpha) k.incGenerated).1 :=
        neg32_eq _ (by omega) (by omega)
      simp only [negamax_abLoop, ho, if_true, kidsOf_cons_legal g s p pos rest ho,
        List.foldl_cons, e1, e2, e3]
      have hge := foldl_max_ge_init (fun ch => -(f ch)) (kidsOf g s p rest)
        (max m (-(f (g.move s p pos))))
      simp only at hge
      split
      · rename_i hcut
        simp only [WindowSpec]
        omega
      · rename_i hcut
        exact ih _ _ (max m (-(f (g.move s p pos)))) false _ (by omega) (by omega) (by omega)
          (by omega) (by omega) (by omega)
    · have ho' : g.outflank s p pos = false := by simpa using ho
      simp only [negamax_abLoop, ho', kidsOf_cons_illegal g s p pos rest ho']
      exact ih value alpha m nm k h1 h2 h3 h4 h5 h6

theorem windowSpec_refl (v a b : Int) : WindowSpec v v a b :=
  ⟨fun h => ⟨le_refl _, h⟩, fun _ _ => rfl, fun h => ⟨h, le_refl _⟩⟩

/-- Alpha-beta meets the window contract for every window inside
`[-INT_MAX, INT_MAX]`. -/
theorem negamax_ab_spec (g : Game σ) (hv : ∀ st, -INT_MAX < g.value st ∧ g.value st < INT_MAX)
    (d : Nat) : ∀ (s : σ) (a b c : Int) (k : Counters), (c = 1 ∨ c = -1) →
      -INT_MAX ≤ a → a < b → b ≤ INT_MAX →
      WindowSpec (negamaxV g s d c) (negamax_ab g s d a b c k).1 a b := by
  induction d with
  | zero =>
    intro s a b c k _ _ _ _
    simp only [negamax_ab, negamaxV]
    exact windowSpec_refl _ _ _
  | succ d ih =>
    intro s a b c k hc ha hab hb
    by_cases ht : g.terminal s = true
    · simp only [negamax_ab, negamaxV, ht, if_true]
      exact windowSpec_refl _ _ _
    · have ht' : g.terminal s = false := by simpa using ht
      have hc' := neg32_color c hc
      have hf : ∀ st, -INT_MAX < negamaxV g st d (neg32 c) ∧ negamaxV g st d (neg32 c) < INT_MAX :=
        fun st => negamaxV_bounds g hv st d _ hc'
      have hfun : (fun acc ch => max acc (neg32 (negamaxV g ch d (neg32 c))))
          = (fun (acc : Int) (ch : σ) => max acc (-(negamaxV g ch d (neg32 c)))) := by
        funext acc ch
        have := hf ch
        rw [neg32_eq _ (by omega) (by omega)]
      rw [negamaxV_succ g s d c ht', hfun, neg32_INT_MAX]
      simp only [negamax_ab, ht', Bool.false_eq_true, if_false, neg32_INT_MAX]
      rw [negamax_abLoop_flag]
      by_cases he : (legalChildren g s (decide (c = 1))).isEmpty = true
      · have hnil : kidsOf g s (decide (c = 1)) (List.range g.DIM) = [] := by
          simpa [legalChildren] using he
        have hnil' : legalChildren g s (decide (c = 1)) = [] := hnil
        rw [negamax_abLoop_nil g _ s _ b _ hnil]
        simp only [hnil, hnil', List.isEmpty_nil, Bool.and_self, if_true, List.foldl_nil]
        have e1 : neg32 b = -b := neg32_eq b (by omega) hb
        have e2 : neg32 a = -a := neg32_eq a (by omega) (by omega)
        have hr := ih s (-b) (-a) (neg32 c) k.incExpanded.incGenerated hc' (by omega) (by omega)
          (by omega)
        have hfs := hf s
        simp only [WindowSpec] at hr
        have e3 : neg32 (negamaxV g s d (neg32 c)) = -(negamaxV g s d (neg32 c)) :=
          neg32_eq _ (by omega) (by omega)
        have e4 : neg32 (negamax_ab g s d (-b) (-a) (neg32 c) k.incExpanded.incGenerated).1
            = -(negamax_ab g s d (-b) (-a) (neg32 c) k.incExpanded.incGenerated).1 :=
          neg32_eq _ (by omega) (by omega)
        rw [e1, e2, e3, e4]
        simp only [WindowSpec]
        omega
      · have he' : (kidsOf g s (decide (c = 1)) (List.range g.DIM)).isEmpty = false := by
          simpa [legalChildren] using he
        have he'' : (legalChildren g s (decide (c = 1))).isEmpty = false := he'
        simp only [he', he'', Bool.and_false, Bool.false_eq_true, if_false]
        exact negamax_abLoop_spec g _ _ s _ a b hf
          (fun st a1 b1 kk h1 h2 h3 => ih st a1 b1 (neg32 c) kk hc' h1 h2 h3) ha hb _ _ _ _ _ _
          (by omega) hab (le_refl _) rfl (le_refl _) (by decide)

/-! ## Negascout -/

/-- With no legal move the negascout loop leaves its state unchanged. -/
theorem negascoutLoop_nil (g : Game σ) (recur : σ → Int → Int → Counters → Int × Counters)
    (s : σ) (p : Bool) (b : Int) (l : List Nat) (h : kidsOf g s p l = []) :
    ∀ (score alpha : Int) (nm first : Bool) (k : Counters),
      negascoutLoop g recur s p b l score alpha nm first k = (score, alpha, nm, first, k) := by
  induction l with
  | nil => intro score alpha nm first k; rfl
  | cons pos rest ih =>
    intro score alpha nm first k
    by_cases ho : g.outflank s p pos = true
    · rw [kidsOf_cons_legal g s p pos rest ho] at h; cases h
    · have ho' : g.outflank s p pos = false := by simpa using ho
      rw [kidsOf_cons_illegal g s p pos rest ho'] at h
      simp [negascoutLoop, ho', ih h]

/-- After a legal move the negascout loop ends with `no_moves` cleared. -/
theorem negascoutLoop_flag (g : Game σ) (recur : σ → Int → Int → Counters → Int × Counters)
    (s : σ) (p : Bool) (b : Int) (l : List Nat) :
    ∀ (score alpha : Int) (nm first : Bool) (k : Counters),
      (negascoutLoop g recur s p b l score alpha nm first k).2.2.1
        = (nm && (kidsOf g s p l).isEmpty) := by
  induction l with
  | nil => intro score alpha nm first k; simp [negascoutLoop, kidsOf_nil]
  | cons pos rest ih =>
    intro score alpha nm first k
    by_cases ho : g.outflank s p pos = true
    · simp only [negascoutLoop, ho, if_true, kidsOf_cons_legal g s p pos rest ho]
      split
      · simp
      · simp [ih]
    · have ho' : g.outflank s p pos = false := by simpa using ho
      simp [negascoutLoop, ho', kidsOf_cons_illegal, ih]

/-- The score negascout obtains for one child meets the window contract for the
current window `(alpha, beta)`, whether or not the child is the first. -/
theorem negascoutChild_spec (recur : σ → Int → Int → Counters → Int × Counters)
    (f : σ → Int) (hf : ∀ st, -INT_MAX < f st ∧ f st < INT_MAX)
    (hrec : ∀ st a1 b1 kk, -INT_MAX ≤ a1 → a1 < b1 → b1 ≤ INT_MAX →
      WindowSpec (f st) (recur st a1 b1 kk).1 a1 b1)
    (child : σ) (alpha b : Int) (first : Bool) (k : Counters)
    (ha : -INT_MAX ≤ alpha) (hab : alpha < b) (hb : b ≤ INT_MAX) :
    WindowSpec (-(f child)) (negascoutChild recur child alpha b first k).1 alpha b := by
  have hfc := hf child
  have e1 : neg32 b = -b := neg32_eq b (by omega) hb
  have e2 : neg32 alpha = -alpha := neg32_eq alpha (by omega) (by omega)
  cases first with
  | true =>
    have hr := hrec child (-b) (-alpha) k (by omega) (by omega) (by omega)
    simp only [WindowSpec] at hr
    have e3 : neg32 (recur child (-b) (-alpha) k).1 = -(recur child (-b) (-alpha) k).1 :=
      neg32_eq _ (by omega) (by omega)
    simp only [negascoutChild, if_true, e1, e2, e3, WindowSpec]
    omega
  | false =>
    have e0 : sub32 (-alpha) 1 = -alpha - 1 := by
      unfold INT_MAX at ha hb
      unfold sub32 wrap32
      omega
    have hr := hrec child (-alpha - 1) (-alpha) k (by omega) (by omega) (by omega)
    simp only [WindowSpec] at hr
    have e3 : neg32 (recur child (-alpha - 1) (-alpha) k).1
        = -(recur child (-alpha - 1) (-alpha) k).1 :=
      neg32_eq _ (by omega) (by omega)
    simp only [negascoutChild, Bool.false_eq_true, if_false, e1, e2, e0, e3]
    split
    · rename_i hin
      have e4 : neg32 (-(recur child (-alpha - 1) (-alpha) k).1)
          = (recur child (-alpha - 1) (-alpha) k).1 := by
        rw [neg32_eq _ (by omega) (by omega)]; omega
      have hr2 := hrec child (-b) (recur child (-alpha - 1) (-alpha) k).1
        (recur child (-alpha - 1) (-alpha) k).2 (by omega) (by omega) (by omega)
      simp only [WindowSpec] at hr2
      have e5 : neg32 (recur child (-b) (recur child (-alpha - 1) (-alpha) k).1
          (recur child (-alpha - 1) (-alpha) k).2).1
          = -(recur child (-b) (recur child (-alpha - 1) (-alpha) k).1
          (recur child (-alpha - 1) (-alpha) k).2).1 :=
        neg32_eq _ (by omega) (by omega)
      simp only [e4, e5, WindowSpec]
      omega
    · rename_i hin
      simp only [WindowSpec]
      omega

/-- Loop invariant of negascout: `alpha` is the larger of the original `alpha`
and the running true maximum `m`. -/
theorem negascoutLoop_spec (g : Game σ) (recur : σ → Int → Int → Counters → Int × Counters)
    (f : σ → Int) (s : σ) (p : Bool) (a0 b : Int)
    (hf : ∀ st, -INT_MAX < f st ∧ f st < INT_MAX)
    (hrec : ∀ st a1 b1 kk, -INT_MAX ≤ a1 → a1 < b1 → b1 ≤ INT_MAX →
      WindowSpec (f st) (recur st a1 b1 kk).1 a1 b1)
    (ha0 : -INT_MAX ≤ a0) (hb : b ≤ INT_MAX) (l : List Nat) :
    ∀ (score alpha m : Int) (nm first : Bool) (k : Counters),
      alpha = max a0 m → alpha < b → -INT_MAX ≤ m → m < INT_MAX →
      WindowSpec ((kidsOf g s p l).foldl (fun acc ch => max acc (-(f ch))) m)
        (negascoutLoop g recur s p b l score alpha nm first k).2.1 a0 b := by
  induction l with
  | nil =>
    intro score alpha m nm first k h1 h2 h3 h4
    simp only [negascoutLoop, kidsOf_nil, List.foldl_nil, WindowSpec]
    omega
  | cons pos rest ih =>
    intro score alpha m nm first k h1 h2 h3 h4
    by_cases ho : g.outflank s p pos = true
    · have hfc := hf (g.move s p pos)
      have hc := negascoutChild_spec recur f hf hrec (g.move s p pos) alpha b first
        k.incGenerated (by omega) h2 hb
      simp only [WindowSpec] at hc
      simp only [negascoutLoop, ho, if_true, kidsOf_cons_legal g s p pos rest ho,
        List.foldl_cons]
      have hge := foldl_max_ge_init (fun ch => -(f ch)) (kidsOf g s p rest)
        (max m (-(f (g.move s p pos))))
      simp only at hge
      split
      · rename_i hcut
        simp only [WindowSpec]
        omega
      · rename_i hcut
        exact ih _ _ (max m (-(f (g.move s p pos)))) false false _ (by omega) (by omega)
          (by omega) (by omega)
    · have ho' : g.outflank s p pos = false := by simpa using ho
      simp only [negascoutLoop, ho', kidsOf_cons_illegal g s p pos rest ho']
      exact ih score alpha m nm first k h1 h2 h3 h4

/-- Negascout meets the window contract for every window inside
`[-INT_MAX, INT_MAX]`. -/
theorem negascout_spec (g : Game σ) (hv : ∀ st, -INT_MAX < g.value st ∧ g.value st < INT_MAX)
    (d : Nat) : ∀ (s : σ) (a b c : Int) (k : Counters), (c = 1 ∨ c = -1) →
      -INT_MAX ≤ a → a < b → b ≤ INT_MAX →
      WindowSpec (negamaxV g s d c) (negascout g s d a b c k).1 a b := by
  induction d with
  | zero =>
    intro s a b c k _ _ _ _
    simp only [negascout, negamaxV]
    exact windowSpec_refl _ _ _
  | succ d ih =>
    intro s a b c k hc ha hab hb
    by_cases ht : g.terminal s = true
    · simp only [negascout, negamaxV, ht, if_true]
      exact windowSpec_refl _ _ _
    · have ht' : g.terminal s = false := by simpa using ht
      have hc' := neg32_color c hc
      have hf : ∀ st, -INT_MAX < negamaxV g st d (neg32 c) ∧ negamaxV g st d (neg32 c) < INT_MAX :=
        fun st => negamaxV_bounds g hv st d _ hc'
      have hfun : (fun acc ch => max acc (neg32 (negamaxV g ch d (neg32 c))))
          = (fun (acc : Int) (ch : σ) => max acc (-(negamaxV g ch d (neg32 c)))) := by
        funext acc ch
        have := hf ch
        rw [neg32_eq _ (by omega) (by omega)]
      rw [negamaxV_succ g s d c ht', hfun, neg32_INT_MAX]
      simp only [negascout, ht', Bool.false_eq_true, if_false, neg32_INT_MAX]
      rw [negascoutLoop_flag]
      by_cases he : (legalChildren g s (decide (c = 1))).isEmpty = true
      · have hnil : kidsOf g s (decide (c = 1)) (List.range g.DIM) = [] := by
          simpa [legalChildren] using he
        have hnil' : legalChildren g s (decide (c = 1)) = [] := hnil
        rw [negascoutLoop_nil g _ s _ b _ hnil]
        simp only [hnil, hnil', List.isEmpty_nil, Bool.and_self, if_true, List.foldl_nil]
        have e1 : neg32 b = -b := neg32_eq b (by omega) hb
        have e2 : neg32 a = -a := neg32_eq a (by omega) (by omega)
        have hr := ih s (-b) (-a) (neg32 c) k.incExpanded.incGenerated hc' (by omega) (by omega)
          (by omega)
        have hfs := hf s
        simp only [WindowSpec] at hr
        have e3 : neg32 (negamaxV g s d (neg32 c)) = -(negamaxV g s d (neg32 c)) :=
          neg32_eq _ (by omega) (by omega)
        have e4 : neg32 (negascout g s d (-b) (-a) (neg32 c) k.incExpanded.incGenerated).1
            = -(negascout g s d (-b) (-a) (neg32 c) k.incExpanded.incGenerated).1 :=
          neg32_eq _ (by omega) (by omega)
        rw [e1, e2, e3, e4]
        simp only [WindowSpec]
        omega
      · have he' : (kidsOf g s (decide (c = 1)) (List.range g.DIM)).isEmpty = false := by
          simpa [legalChildren] using he
        have he'' : (legalChildren g s (decide (c = 1))).isEmpty = false := he'
        simp only [he', he'', Bool.and_false, Bool.false_eq_true, if_false]
        exact negascoutLoop_spec g _ _ s _ a b hf
          (fun st a1 b1 kk h1 h2 h3 => ih st a1 b1 (neg32 c) kk hc' h1 h2 h3) ha hb _ _ _ _ _ _ _
          (by omega) hab (le_refl _) (by decide)

theorem neg32_INT_MIN : neg32 INT_MIN = INT_MIN := by decide

/-- The `alpha` of the negascout loop never decreases. -/
theorem negascoutLoop_ge (g : Game σ) (recur : σ → Int → Int → Counters → Int × Counters)
    (s : σ) (p : Bool) (b : Int) (l : List Nat) :
    ∀ (score alpha : Int) (nm first : Bool) (k : Counters),
      alpha ≤ (negascoutLoop g recur s p b l score alpha nm first k).2.1 := by
  induction l with
  | nil => intro score alpha nm first k; simp [negascoutLoop]
  | cons pos rest ih =>
    intro score alpha nm first k
    by_cases ho : g.outflank s p pos = true
    · simp only [negascoutLoop, ho, if_true]
      split
      · simp only; omega
      · have := ih (negascoutChild recur (g.move s p pos) alpha b first k.incGenerated).1
          (max alpha (negascoutChild recur (g.move s p pos) alpha b first k.incGenerated).1)
          false false (negascoutChild recur (g.move s p pos) alpha b first k.incGenerated).2
        omega
    · have ho' : g.outflank s p pos = false := by simpa using ho
      simp only [negascoutLoop, ho', Bool.false_eq_true, if_false]
      exact ih score alpha nm first k

/-- With `beta = INT_MIN` the negascout loop stops after the first legal child:
its `alpha` is the larger of the incoming `alpha` and the negated result of
that child, which lies between `alpha` and the true maximum. -/
theorem negascoutLoop_inverted (g : Game σ)
    (recur : σ → Int → Int → Counters → Int × Counters) (f : σ → Int) (s : σ) (p : Bool)
    (a : Int) (hf : ∀ st, -INT_MAX < f st ∧ f st < INT_MAX)
    (hrecN : ∀ st kk, Between (f st) (recur st INT_MIN (-a) kk).1 (-a))
    (ha : -INT_MAX ≤ a) (ha' : a ≤ INT_MAX) (l : List Nat) :
    ∀ (score : Int) (nm : Bool) (k : Counters) (m : Int), kidsOf g s p l ≠ [] →
      -INT_MAX ≤ m → m ≤ a →
      Between ((kidsOf g s p l).foldl (fun acc ch => max acc (-(f ch))) m)
        (negascoutLoop g recur s p INT_MIN l score a nm true k).2.1 a := by
  induction l with
  | nil => intro score nm k m h; exact absurd (kidsOf_nil g s p) h
  | cons pos rest ih =>
    intro score nm k m h hm hma
    by_cases ho : g.outflank s p pos = true
    · have hfc := hf (g.move s p pos)
      have e2 : neg32 a = -a := neg32_eq a ha ha'
      have hr := hrecN (g.move s p pos) k.incGenerated
      simp only [Between] at hr
      have e3 : neg32 (recur (g.move s p pos) INT_MIN (-a) k.incGenerated).1
          = -(recur (g.move s p pos) INT_MIN (-a) k.incGenerated).1 :=
        neg32_eq _ (by omega) (by omega)
      have hge := foldl_max_ge_init (fun ch => -(f ch)) (kidsOf g s p rest)
        (max m (-(f (g.move s p pos))))
      simp only at hge
      have hcut : max a (-(recur (g.move s p pos) INT_MIN (-a) k.incGenerated).1) ≥ INT_MIN := by
        unfold INT_MAX at ha; unfold INT_MIN; omega
      simp only [negascoutLoop, ho, if_true, kidsOf_cons_legal g s p pos rest ho,
        List.foldl_cons, negascoutChild, neg32_INT_MIN, e2, e3, hcut, Between]
      omega
    · have ho' : g.outflank s p pos = false := by simpa using ho
      rw [kidsOf_cons_illegal g s p pos rest ho'] at h ⊢
      simp only [negascoutLoop, ho', Bool.false_eq_true, if_false]
      exact ih score nm k m h hm hma

/-- With `alpha = INT_MIN` the first legal child is searched with the window
`(-beta, INT_MIN)`; the loop still ends with a value between the true maximum
and `beta`. -/
theorem negascoutLoop_low (g : Game σ)
    (recur : σ → Int → Int → Counters → Int × Counters) (f : σ → Int) (s : σ) (p : Bool)
    (b : Int) (hf : ∀ st, -INT_MAX < f st ∧ f st < INT_MAX)
    (hrec : ∀ st a1 b1 kk, -INT_MAX ≤ a1 → a1 < b1 → b1 ≤ INT_MAX →
      WindowSpec (f st) (recur st a1 b1 kk).1 a1 b1)
    (hrecM : ∀ st kk, Between (f st) (recur st (-b) INT_MIN kk).1 (-b))
    (hb : INT_MIN < b) (hb' : b ≤ INT_MAX) (l : List Nat) :
    ∀ (score : Int) (nm : Bool) (k : Counters), kidsOf g s p l ≠ [] →
      Between ((kidsOf g s p l).foldl (fun acc ch => max acc (-(f ch))) (-INT_MAX))
        (negascoutLoop g recur s p b l score INT_MIN nm true k).2.1 b := by
  induction l with
  | nil => intro score nm k h; exact absurd (kidsOf_nil g s p) h
  | cons pos rest ih =>
    intro score nm k h
    by_cases ho : g.outflank s p pos = true
    · have hfc := hf (g.move s p pos)
      have hb2 : -INT_MAX ≤ b := by unfold INT_MIN at hb; unfold INT_MAX; omega
      have e1 : neg32 b = -b := neg32_eq b hb2 hb'
      have hr := hrecM (g.move s p pos) k.incGenerated
      simp only [Between] at hr
      have e3 : neg32 (recur (g.move s p pos) (-b) INT_MIN k.incGenerated).1
          = -(recur (g.move s p pos) (-b) INT_MIN k.incGenerated).1 :=
        neg32_eq _ (by omega) (by omega)
      have hge := foldl_max_ge_init (fun ch => -(f ch)) (kidsOf g s p rest)
        (max (-INT_MAX) (-(f (g.move s p pos))))
      simp only at hge
      have hmax : max INT_MIN (-(recur (g.move s p pos) (-b) INT_MIN k.incGenerated).1)
          = -(recur (g.move s p pos) (-b) INT_MIN k.incGenerated).1 := by
        have h1 : INT_MAX = 2147483647 := rfl
        have h2 : INT_MIN = -2147483648 := rfl
        omega
      simp only [negascoutLoop, ho, if_true, kidsOf_cons_legal g s p pos rest ho,
        List.foldl_cons, negascoutChild, neg32_INT_MIN, e1, e3, hmax]
      split
      · rename_i hcut
        simp only [Between]
        omega
      · rename_i hcut
        have hm : max (-INT_MAX) (-(f (g.move s p pos))) = -(f (g.move s p pos)) := by omega
        rw [hm] at hge ⊢
        have hs := negascoutLoop_spec g recur f s p
          (-(recur (g.move s p pos) (-b) INT_MIN k.incGenerated).1) b hf hrec (by omega) hb' rest
          (-(recur (g.move s p pos) (-b) INT_MIN k.incGenerated).1)
          (-(recur (g.move s p pos) (-b) INT_MIN k.incGenerated).1)
          (-(f (g.move s p pos))) false false
          (recur (g.move s p pos) (-b) INT_MIN k.incGenerated).2
          (by omega) (by omega) (by omega) (by omega)
        have hg := negascoutLoop_ge g recur s p b rest
          (-(recur (g.move s p pos) (-b) INT_MIN k.incGenerated).1)
          (-(recur (g.move s p pos) (-b) INT_MIN k.incGenerated).1) false false
          (recur (g.move s p pos) (-b) INT_MIN k.incGenerated).2
        simp only [WindowSpec] at hs
        simp only [Between]
        omega
    · have ho' : g.outflank s p pos = false := by simpa using ho
      rw [kidsOf_cons_illegal g s p pos rest ho'] at h ⊢
      simp only [negascoutLoop, ho', Bool.false_eq_true, if_false]
      exact ih score nm k h

/-- Negascout with `alpha = INT_MIN`, and with `beta = INT_MIN` (the window its
children then receive): the result lies between the true value and the other
end of the window. -/
theorem negascout_edge (g : Game σ) (hv : ∀ st, -INT_MAX < g.value st ∧ g.value st < INT_MAX)
    (d : Nat) :
    (∀ (s : σ) (b c : Int) (k : Counters), (c = 1 ∨ c = -1) → INT_MIN < b → b ≤ INT_MAX →
      Between (negamaxV g s d c) (negascout g s d INT_MIN b c k).1 b) ∧
    (∀ (s : σ) (a c : Int) (k : Counters), (c = 1 ∨ c = -1) → -INT_MAX ≤ a → a ≤ INT_MAX →
      Between (negamaxV g s d c) (negascout g s d a INT_MIN c k).1 a) := by
  have hbt : ∀ v b : Int, Between v v b := fun v b => by simp only [Between]; omega
  induction d with
  | zero =>
    constructor
    · intro s b c k _ _ _; simp only [negascout, negamaxV]; exact hbt _ _
    · intro s a c k _ _ _; simp only [negascout, negamaxV]; exact hbt _ _
  | succ d ih =>
    constructor
    · intro s b c k hc hb hb'
      by_cases ht : g.terminal s = true
      · simp only [negascout, negamaxV, ht, if_true]; exact hbt _ _
      · have ht' : g.terminal s = false := by simpa using ht
        have hc' := neg32_color c hc
        have hb2 : -INT_MAX ≤ b := by unfold INT_MIN at hb; unfold INT_MAX; omega
        have hf : ∀ st, -INT_MAX < negamaxV g st d (neg32 c)
            ∧ negamaxV g st d (neg32 c) < INT_MAX :=
          fun st => negamaxV_bounds g hv st d _ hc'
        have hfun : (fun acc ch => max acc (neg32 (negamaxV g ch d (neg32 c))))
            = (fun (acc : Int) (ch : σ) => max acc (-(negamaxV g ch d (neg32 c)))) := by
          funext acc ch
          have := hf ch
          rw [neg32_eq _ (by omega) (by omega)]
        rw [negamaxV_succ g s d c ht', hfun, neg32_INT_MAX]
        simp only [negascout, ht', Bool.false_eq_true, if_false, neg32_INT_MAX]
        rw [negascoutLoop_flag]
        by_cases he : (legalChildren g s (decide (c = 1))).isEmpty = true
        · have hnil : kidsOf g s (decide (c = 1)) (List.range g.DIM) = [] := by
            simpa [legalChildren] using he
          have hnil' : legalChildren g s (decide (c = 1)) = [] := hnil
          rw [negascoutLoop_nil g _ s _ b _ hnil]
          simp only [hnil, hnil', List.isEmpty_nil, Bool.and_self, if_true, List.foldl_nil]
          have e1 : neg32 b = -b := neg32_eq b hb2 hb'
          have hr := ih.2 s (-b) (neg32 c) k.incExpanded.incGenerated hc' (by omega) (by omega)
          have hfs := hf s
          simp only [Between] at hr
          have e3 : neg32 (negamaxV g s d (neg32 c)) = -(negamaxV g s d (neg32 c)) :=
            neg32_eq _ (by omega) (by omega)
          have e4 : neg32 (negascout g s d (-b) INT_MIN (neg32 c)
              k.incExpanded.incGenerated).1
              = -(negascout g s d (-b) INT_MIN (neg32 c) k.incExpanded.incGenerated).1 :=
            neg32_eq _ (by omega) (by omega)
          rw [e1, neg32_INT_MIN, e3, e4]
          simp only [Between]
          have h1 : INT_MAX = 2147483647 := rfl
          have h2 : INT_MIN = -2147483648 := rfl
          omega
        · have he' : (kidsOf g s (decide (c = 1)) (List.range g.DIM)).isEmpty = false := by
            simpa [legalChildren] using he
          have he'' : (legalChildren g s (decide (c = 1))).isEmpty = false := he'
          have hne : kidsOf g s (decide (c = 1)) (List.range g.DIM) ≠ [] := by
            intro h0; rw [h0] at he'; simp at he'
          simp only [he', he'', Bool.and_false, Bool.false_eq_true, if_false]
          exact negascoutLoop_low g _ _ s _ b hf
            (fun st a1 b1 kk h1 h2 h3 => negascout_spec g hv d st a1 b1 (neg32 c) kk hc' h1 h2 h3)
            (fun st kk => ih.2 st (-b) (neg32 c) kk hc' (by omega) (by omega)) hb hb' _ _ _ _ hne
    · intro s a c k hc ha ha'
      by_cases ht : g.terminal s = true
      · simp only [negascout, negamaxV, ht, if_true]; exact hbt _ _
      · have ht' : g.terminal s = false := by simpa using ht
        have hc' := neg32_color c hc
        have hf : ∀ st, -INT_MAX < negamaxV g st d (neg32 c)
            ∧ negamaxV g st d (neg32 c) < INT_MAX :=
          fun st => negamaxV_bounds g hv st d _ hc'
        have hfun : (fun acc ch => max acc (neg32 (negamaxV g ch d (neg32 c))))
            = (fun (acc : Int) (ch : σ) => max acc (-(negamaxV g ch d (neg32 c)))) := by
          funext acc ch
          have := hf ch
          rw [neg32_eq _ (by omega) (by omega)]
        have hN : ∀ st kk, Between (negamaxV g st d (neg32 c))
            (negascout g st d INT_MIN (-a) (neg32 c) kk).1 (-a) := fun st kk =>
          ih.1 st (-a) (neg32 c) kk hc'
            (by unfold INT_MIN; unfold INT_MAX at ha'; omega) (by omega)
        rw [negamaxV_succ g s d c ht', hfun, neg32_INT_MAX]
        simp only [negascout, ht', Bool.false_eq_true, if_false, neg32_INT_MAX]
        rw [negascoutLoop_flag]
        by_cases he : (legalChildren g s (decide (c = 1))).isEmpty = true
        · have hnil : kidsOf g s (decide (c = 1)) (List.range g.DIM) = [] := by
            simpa [legalChildren] using he
          have hnil' : legalChildren g s (decide (c = 1)) = [] := hnil
          rw [negascoutLoop_nil g _ s _ INT_MIN _ hnil]
          simp only [hnil, hnil', List.isEmpty_nil, Bool.and_self, if_true, List.foldl_nil]
          have e2 : neg32 a = -a := neg32_eq a ha ha'
          have hr := hN s k.incExpanded.incGenerated
          have hfs := hf s
          simp only [Between] at hr
          have e3 : neg32 (negamaxV g s d (neg32 c)) = -(negamaxV g s d (neg32 c)) :=
            neg32_eq _ (by omega) (by omega)
          have e4 : neg32 (negascout g s d INT_MIN (-a) (neg32 c)
              k.incExpanded.incGenerated).1
              = -(negascout g s d INT_MIN (-a) (neg32 c) k.incExpanded.incGenerated).1 :=
            neg32_eq _ (by omega) (by omega)
          rw [e2, neg32_INT_MIN, e3, e4]
          simp only [Between]
          omega
        · have he' : (kidsOf g s (decide (c = 1)) (List.range g.DIM)).isEmpty = false := by
            simpa [legalChildren] using he
          have he'' : (legalChildren g s (decide (c = 1))).isEmpty = false := he'
          have hne : kidsOf g s (decide (c = 1)) (List.range g.DIM) ≠ [] := by
            intro h0; rw [h0] at he'; simp at he'
          simp only [he', he'', Bool.and_false, Bool.false_eq_true, if_false]
          exact negascoutLoop_inverted g _ _ s _ a hf hN ha ha' _ _ _ _ _ hne (le_refl _) ha

/-! ## Test games -/

theorem boundedTreeGame_values (dim : Nat) (st : GTree) :
    -INT_MAX < (boundedTreeGame dim).value st ∧ (boundedTreeGame dim).value st < INT_MAX := by
  have h1 : INT_MAX = 2147483647 := rfl
  simp only [boundedTreeGame]
  omega

theorem boundedTreeGame_wide (dim : Nat) (st : GTree) :
    -201 < (boundedTreeGame dim).value st ∧ (boundedTreeGame dim).value st < 201 ∧
      -201 < -(boundedTreeGame dim).value st ∧ -(boundedTreeGame dim).value st < 201 := by
  simp only [boundedTreeGame]
  omega

/-! ## Claims on the values of the engines -/

/-- C1: with static values of absolute value below `INT_MAX`, `negamax(s, d, c)`
is the depth-limited minimax value seen from the side of `c`:
`negamax(s, d, +1) = mm(s, d, maximizer)` and
`negamax(s, d, -1) = -mm(s, d, minimizer)`, for every position, depth and
state of the counters. -/
theorem negamax_is_minimax (g : Game σ)
    (hv : ∀ st, -INT_MAX < g.value st ∧ g.value st < INT_MAX) (s : σ) (d : Nat)
    (k : Counters) :
    (negamax g s d 1 k).1 = mm g s d true ∧ (negamax g s d (-1) k).1 = -mm g s d false := by
  rw [negamax_fst, negamax_fst]
  exact negamaxV_eq_mm g hv d s

/-- An instance on the two-ply position `twoPly`, at depth 2. -/
theorem negamax_is_minimax_witness :
    (∀ st, -INT_MAX < (boundedTreeGame 2).value st ∧ (boundedTreeGame 2).value st < INT_MAX) ∧
    ((negamax (boundedTreeGame 2) twoPly 2 1 Counters.zero).1 = mm (boundedTreeGame 2) twoPly 2 true
      ∧ (negamax (boundedTreeGame 2) twoPly 2 (-1) Counters.zero).1
        = -mm (boundedTreeGame 2) twoPly 2 false) :=
  ⟨boundedTreeGame_values 2,
    negamax_is_minimax (boundedTreeGame 2) (boundedTreeGame_values 2) twoPly 2 Counters.zero⟩

/-- The minimax values of a game whose static values `x` all satisfy
`a < x < b` and `a < -x < b` lie in the window `(a, b)`, from either side. -/
theorem negamaxV_in_wide_window (g : Game σ)
    (hv : ∀ st, -INT_MAX < g.value st ∧ g.value st < INT_MAX) (a b : Int)
    (hw : ∀ st, a < g.value st ∧ g.value st < b ∧ a < -g.value st ∧ -g.value st < b)
    (s : σ) (d : Nat) (c : Int) (hc : c = 1 ∨ c = -1) :
    a < negamaxV g s d c ∧ negamaxV g s d c < b := by
  have hw' : ∀ st, max (a + 1) (-(b - 1)) ≤ g.value st ∧ g.value st ≤ min (b - 1) (-(a + 1)) :=
    fun st => by have := hw st; omega
  have h := negamaxV_eq_mm g hv d s
  rcases hc with rfl | rfl
  · have := mm_bounds g _ _ hw' d s true
    rw [h.1]; omega
  · have := mm_bounds g _ _ hw' d s false
    rw [h.2]; omega

/-- C2, counterexample: with `alpha = INT_MIN` the negated bound `-alpha`
overflows; on `twoPly` the true value `1` lies inside the window
`(INT_MIN, 10)`, yet alpha-beta returns `5`. -/
theorem negamax_ab_exact_counterexample :
    (∀ st, -INT_MAX < (boundedTreeGame 2).value st ∧ (boundedTreeGame 2).value st < INT_MAX) ∧
    INT_MIN < (negamax (boundedTreeGame 2) twoPly 2 1 Counters.zero).1 ∧
    (negamax (boundedTreeGame 2) twoPly 2 1 Counters.zero).1 < 10 ∧
    (negamax (boundedTreeGame 2) twoPly 2 1 Counters.zero).1 = 1 ∧
    (negamax_ab (boundedTreeGame 2) twoPly 2 INT_MIN 10 1 Counters.zero).1 = 5 ∧
    (negamax_ab (boundedTreeGame 2) twoPly 2 INT_MIN 10 1 Counters.zero).1
      ≠ (negamax (boundedTreeGame 2) twoPly 2 1 Counters.zero).1 :=
  ⟨boundedTreeGame_values 2, by decide, by decide, by decide, by decide, by decide⟩

/-- C2, amended: with static values of absolute value below `INT_MAX`, a color
in `{+1, -1}` and a window with `-INT_MAX <= alpha` and `beta <= INT_MAX`, if
`alpha < negamax(s, d, c) < beta` then the alpha-beta engine returns exactly
`negamax(s, d, c)`; in particular it agrees with plain negamax whenever the
window contains every static value and its negation. -/
theorem negamax_ab_exact (g : Game σ)
    (hv : ∀ st, -INT_MAX < g.value st ∧ g.value st < INT_MAX) (s : σ) (d : Nat)
    (alpha beta c : Int) (k k0 : Counters) (hc : c = 1 ∨ c = -1)
    (ha : -INT_MAX ≤ alpha) (hb : beta ≤ INT_MAX) :
    (alpha < (negamax g s d c k0).1 → (negamax g s d c k0).1 < beta →
      (negamax_ab g s d alpha beta c k).1 = (negamax g s d c k0).1) ∧
    ((∀ st, alpha < g.value st ∧ g.value st < beta ∧ alpha < -g.value st ∧ -g.value st < beta) →
      (negamax_ab g s d alpha beta c k).1 = (negamax g s d c k0).1) := by
  rw [negamax_fst]
  have key : alpha < negamaxV g s d c → negamaxV g s d c < beta →
      (negamax_ab g s d alpha beta c k).1 = negamaxV g s d c := by
    intro h1 h2
    exact (negamax_ab_spec g hv d s alpha beta c k hc ha (by omega) hb).2.1 h1 h2
  refine ⟨key, fun hw => ?_⟩
  have := negamaxV_in_wide_window g hv alpha beta hw s d c hc
  exact key this.1 this.2

/-- An instance on `twoPly` with the window `(-201, 201)`, which contains every
static value of the bounded game and its negation. -/
theorem negamax_ab_exact_witness :
    (∀ st, -INT_MAX < (boundedTreeGame 2).value st ∧ (boundedTreeGame 2).value st < INT_MAX) ∧
    ((1 : Int) = 1 ∨ (1 : Int) = -1) ∧ -INT_MAX ≤ -201 ∧ (201 : Int) ≤ INT_MAX ∧
    (negamax_ab (boundedTreeGame 2) twoPly 2 (-201) 201 1 Counters.zero).1
        = (negamax (boundedTreeGame 2) twoPly 2 1 Counters.zero).1 :=
  ⟨boundedTreeGame_values 2, Or.inl rfl, by decide, by decide,
    (negamax_ab_exact (boundedTreeGame 2) (boundedTreeGame_values 2) twoPly 2 (-201) 201 1
      Counters.zero Counters.zero (Or.inl rfl) (by decide) (by decide)).2
      (boundedTreeGame_wide 2)⟩

/-- C3, counterexample: with `alpha = INT_MIN` the negated bound `-alpha`
overflows; on `twoPly` the true value `1` lies inside the window
`(INT_MIN, 10)`, yet negascout returns `5`. -/
theorem negascout_exact_counterexample :
    (∀ st, -INT_MAX < (boundedTreeGame 2).value st ∧ (boundedTreeGame 2).value st < INT_MAX) ∧
    INT_MIN < (negamax (boundedTreeGame 2) twoPly 2 1 Counters.zero).1 ∧
    (negamax (boundedTreeGame 2) twoPly 2 1 Counters.zero).1 < 10 ∧
    (negamax (boundedTreeGame 2) twoPly 2 1 Counters.zero).1 = 1 ∧
    (negascout (boundedTreeGame 2) twoPly 2 INT_MIN 10 1 Counters.zero).1 = 5 ∧
    (negascout (boundedTreeGame 2) twoPly 2 INT_MIN 10 1 Counters.zero).1
      ≠ (negamax (boundedTreeGame 2) twoPly 2 1 Counters.zero).1 :=
  ⟨boundedTreeGame_values 2, by decide, by decide, by decide, by decide, by decide⟩

/-- C3, amended: with static values of absolute value below `INT_MAX`, a color
in `{+1, -1}` and an integer window with `-INT_MAX <= alpha` and
`beta <= INT_MAX`, if `alpha < negamax(s, d, c) < beta` then negascout returns
exactly `negamax(s, d, c)`, null-window probes and re-searches included; in
particular it agrees with plain negamax whenever the window contains every
static value and its negation. -/
theorem negascout_exact (g : Game σ)
    (hv : ∀ st, -INT_MAX < g.value st ∧ g.value st < INT_MAX) (s : σ) (d : Nat)
    (alpha beta c : Int) (k k0 : Counters) (hc : c = 1 ∨ c = -1)
    (ha : -INT_MAX ≤ alpha) (hb : beta ≤ INT_MAX) :
    (alpha < (negamax g s d c k0).1 → (negamax g s d c k0).1 < beta →
      (negascout g s d alpha beta c k).1 = (negamax g s d c k0).1) ∧
    ((∀ st, alpha < g.value st ∧ g.value st < beta ∧ alpha < -g.value st ∧ -g.value st < beta) →
      (negascout g s d alpha beta c k).1 = (negamax g s d c k0).1) := by
  rw [negamax_fst]
  have key : alpha < negamaxV g s d c → negamaxV g s d c < beta →
      (negascout g s d alpha beta c k).1 = negamaxV g s d c := by
    intro h1 h2
    exact (negascout_spec g hv d s alpha beta c k hc ha (by omega) hb).2.1 h1 h2
  refine ⟨key, fun hw => ?_⟩
  have := negamaxV_in_wide_window g hv alpha beta hw s d c hc
  exact key this.1 this.2

/-- An instance on `twoPly` with the minimizer to move and the window `(-201,
201)`. -/
theorem negascout_exact_witness :
    (∀ st, -INT_MAX < (boundedTreeGame 2).value st ∧ (boundedTreeGame 2).value st < INT_MAX) ∧
    ((-1 : Int) = 1 ∨ (-1 : Int) = -1) ∧ -INT_MAX ≤ -201 ∧ (201 : Int) ≤ INT_MAX ∧
    (negascout (boundedTreeGame 2) twoPly 2 (-201) 201 (-1) Counters.zero).1
        = (negamax (boundedTreeGame 2) twoPly 2 (-1) Counters.zero).1 :=
  ⟨boundedTreeGame_values 2, Or.inr rfl, by decide, by decide,
    (negascout_exact (boundedTreeGame 2) (boundedTreeGame_values 2) twoPly 2 (-201) 201 (-1)
      Counters.zero Counters.zero (Or.inr rfl) (by decide) (by decide)).2
      (boundedTreeGame_wide 2)⟩

/-- C7, counterexample: with `alpha = INT_MIN` and `beta = 1` the true value of
`twoPly` is `1 >= beta`, yet alpha-beta returns `5`, which is not a lower bound
on the true value. -/
theorem negamax_ab_bound_counterexample :
    (∀ st, -INT_MAX < (boundedTreeGame 2).value st ∧ (boundedTreeGame 2).value st < INT_MAX) ∧
    INT_MIN < 1 ∧
    1 ≤ (negamax (boundedTreeGame 2) twoPly 2 1 Counters.zero).1 ∧
    ¬ ((negamax_ab (boundedTreeGame 2) twoPly 2 INT_MIN 1 1 Counters.zero).1
        ≤ (negamax (boundedTreeGame 2) twoPly 2 1 Counters.zero).1) :=
  ⟨boundedTreeGame_values 2, by decide, by decide, by decide⟩

/-- C7, amended: with static values of absolute value below `INT_MAX`, a color
in `{+1, -1}` and a window `-INT_MAX <= alpha < beta <= INT_MAX`, with
`v = negamax(s, d, c)` and `r` the result of alpha-beta: if `v <= alpha` then
`v <= r <= alpha`, and if `v >= beta` then `beta <= r <= v`. -/
theorem negamax_ab_bound (g : Game σ)
    (hv : ∀ st, -INT_MAX < g.value st ∧ g.value st < INT_MAX) (s : σ) (d : Nat)
    (alpha beta c : Int) (k k0 : Counters) (hc : c = 1 ∨ c = -1)
    (ha : -INT_MAX ≤ alpha) (hab : alpha < beta) (hb : beta ≤ INT_MAX) :
    ((negamax g s d c k0).1 ≤ alpha →
      (negamax g s d c k0).1 ≤ (negamax_ab g s d alpha beta c k).1
        ∧ (negamax_ab g s d alpha beta c k).1 ≤ alpha) ∧
    (beta ≤ (negamax g s d c k0).1 →
      beta ≤ (negamax_ab g s d alpha beta c k).1
        ∧ (negamax_ab g s d alpha beta c k).1 ≤ (negamax g s d c k0).1) := by
  rw [negamax_fst]
  have h := negamax_ab_spec g hv d s alpha beta c k hc ha hab hb
  exact ⟨h.1, h.2.2⟩

/-- An instance on `twoPly` with the window `(3, 4)`, above the true value `1`. -/
theorem negamax_ab_bound_witness :
    (∀ st, -INT_MAX < (boundedTreeGame 2).value st ∧ (boundedTreeGame 2).value st < INT_MAX) ∧
    ((1 : Int) = 1 ∨ (1 : Int) = -1) ∧ -INT_MAX ≤ 3 ∧ (3 : Int) < 4 ∧ (4 : Int) ≤ INT_MAX ∧
    (negamax (boundedTreeGame 2) twoPly 2 1 Counters.zero).1
        ≤ (negamax_ab (boundedTreeGame 2) twoPly 2 3 4 1 Counters.zero).1 ∧
    (negamax_ab (boundedTreeGame 2) twoPly 2 3 4 1 Counters.zero).1 ≤ 3 :=
  ⟨boundedTreeGame_values 2, Or.inl rfl, by decide, by decide, by decide,
    (negamax_ab_bound (boundedTreeGame 2) (boundedTreeGame_values 2) twoPly 2 3 4 1
      Counters.zero Counters.zero (Or.inl rfl) (by decide) (by decide) (by decide)).1
      (by decide)⟩

/-- C8, counterexample: a position whose only move leads to a terminal
position of static value `INT_MIN`, at depth `1` with the window
`(INT_MIN, -INT_MAX)`. The negation of `INT_MIN` wraps to `INT_MIN`, so negamax
returns its initial score `v = -INT_MAX`, which is `>= beta`, while negascout
returns `r = INT_MIN`, below `beta`. -/
theorem negascout_bound_counterexample :
    (treeGame 1).value (leaf INT_MIN) = INT_MIN ∧ INT_MIN < -INT_MAX ∧
    (negamax (treeGame 1) (GTree.node 0 false [leaf INT_MIN] []) 1 1 Counters.zero).1
      = -INT_MAX ∧
    (negascout (treeGame 1) (GTree.node 0 false [leaf INT_MIN] []) 1 INT_MIN (-INT_MAX) 1
      Counters.zero).1 = INT_MIN ∧
    -INT_MAX ≤ (negamax (treeGame 1) (GTree.node 0 false [leaf INT_MIN] []) 1 1
      Counters.zero).1 ∧
    ¬ (-INT_MAX ≤ (negascout (treeGame 1) (GTree.node 0 false [leaf INT_MIN] []) 1 INT_MIN
      (-INT_MAX) 1 Counters.zero).1) := by
  decide

/-- C8, amended: with static values of absolute value below `INT_MAX`, a color
in `{+1, -1}` and any `int` window `alpha < beta`, with `v = negamax(s, d, c)`
and `r = negascout(s, d, alpha, beta, c)`: if `v <= alpha` then
`v <= r <= alpha`, and if `v >= beta` then `beta <= r <= v`. -/
theorem negascout_bound (g : Game σ)
    (hv : ∀ st, -INT_MAX < g.value st ∧ g.value st < INT_MAX) (s : σ) (d : Nat)
    (alpha beta c : Int) (k k0 : Counters) (hc : c = 1 ∨ c = -1)
    (ha : INT_MIN ≤ alpha) (hab : alpha < beta) (hb : beta ≤ INT_MAX) :
    ((negamax g s d c k0).1 ≤ alpha →
      (negamax g s d c k0).1 ≤ (negascout g s d alpha beta c k).1
        ∧ (negascout g s d alpha beta c k).1 ≤ alpha) ∧
    (beta ≤ (negamax g s d c k0).1 →
      beta ≤ (negascout g s d alpha beta c k).1
        ∧ (negascout g s d alpha beta c k).1 ≤ (negamax g s d c k0).1) := by
  rw [negamax_fst]
  have h1 : INT_MAX = 2147483647 := rfl
  have h2 : INT_MIN = -2147483648 := rfl
  have hbd := negamaxV_bounds g hv s d c hc
  by_cases hm : alpha = INT_MIN
  · subst hm
    have h := (negascout_edge g hv d).1 s beta c k hc hab hb
    simp only [Between] at h
    constructor
    · intro h0; omega
    · intro h0; omega
  · have h := negascout_spec g hv d s alpha beta c k hc (by omega) hab hb
    exact ⟨h.1, h.2.2⟩

/-- An instance on `twoPly` with the window `(INT_MIN, 1)`, whose upper end is
the true value. -/
theorem negascout_bound_witness :
    (∀ st, -INT_MAX < (boundedTreeGame 2).value st ∧ (boundedTreeGame 2).value st < INT_MAX) ∧
    ((1 : Int) = 1 ∨ (1 : Int) = -1) ∧ INT_MIN ≤ INT_MIN ∧ INT_MIN < 1 ∧ (1 : Int) ≤ INT_MAX ∧
    (1 : Int) ≤ (negascout (boundedTreeGame 2) twoPly 2 INT_MIN 1 1 Counters.zero).1 ∧
    (negascout (boundedTreeGame 2) twoPly 2 INT_MIN 1 1 Counters.zero).1
        ≤ (negamax (boundedTreeGame 2) twoPly 2 1 Counters.zero).1 :=
  ⟨boundedTreeGame_values 2, Or.inl rfl, by decide, by decide, by decide,
    (negascout_bound (boundedTreeGame 2) (boundedTreeGame_values 2) twoPly 2 INT_MIN 1 1
      Counters.zero Counters.zero (Or.inl rfl) (by decide) (by decide) (by decide)).2
      (by decide)⟩

/-! ## The base case of the four engines -/

theorem negamax_base (g : Game σ) (s : σ) (d : Nat) (c : Int) (k : Counters)
    (h : d = 0 ∨ g.terminal s = true) :
    negamax g s d c k = (mul32 c (g.value s), k.incExpanded) := by
  cases d with
  | zero => simp [negamax]
  | succ d =>
    rcases h with h | h
    · exact absurd h (Nat.succ_ne_zero d)
    · simp [negamax, h]

theorem negamax_ab_base (g : Game σ) (s : σ) (d : Nat) (a b c : Int) (k : Counters)
    (h : d = 0 ∨ g.terminal s = true) :
    negamax_ab g s d a b c k = (mul32 c (g.value s), k.incExpanded) := by
  cases d with
  | zero => simp [negamax_ab]
  | succ d =>
    rcases h with h | h
    · exact absurd h (Nat.succ_ne_zero d)
    · simp [negamax_ab, h]

theorem negascout_base (g : Game σ) (s : σ) (d : Nat) (a b c : Int) (k : Counters)
    (h : d = 0 ∨ g.terminal s = true) :
    negascout g s d a b c k = (mul32 c (g.value s), k.incExpanded) := by
  cases d with
  | zero => simp [negascout]
  | succ d =>
    rcases h with h | h
    · exact absurd h (Nat.succ_ne_zero d)
    · simp [negascout, h]

theorem scout_base (g : Game σ) (fuel : Nat) (s : σ) (d : Nat) (c : Int) (k : Counters)
    (h : d = 0 ∨ g.terminal s = true) :
    scout g (fuel + 1) s d c k = some (g.value s, k.incExpanded) := by
  rcases h with h | h
  · subst h; simp [scout]
  · simp [scout, h]

theorem TEST_base (g : Game σ) (fuel : Nat) (s : σ) (d : Nat) (score : Int)
    (cond : Condition) (c : Int) (h : d = 0 ∨ g.terminal s = true) :
    TEST g (fuel + 1) s d score cond c = some (cond.holds (g.value s) score) := by
  rcases h with h | h
  · subst h; simp [TEST]
  · simp [TEST, h]

theorem mul32_color (c x : Int) (hc : c = 1 ∨ c = -1) (h1 : -INT_MAX ≤ x) (h2 : x ≤ INT_MAX) :
    mul32 c x = c * x := by
  rcases hc with rfl | rfl
  · rw [mul32_one x h1 h2]; omega
  · rw [mul32_neg_one x h1 h2]; omega

/-! ## Scout on positions resolved within the depth budget -/

theorem colorOf_cases (p : Bool) : colorOf p = 1 ∨ colorOf p = -1 := by
  cases p
  · right; rfl
  · left; rfl

theorem decide_colorOf (p : Bool) : decide (colorOf p = 1) = p := by
  cases p <;> decide

theorem neg32_colorOf (p : Bool) : neg32 (colorOf p) = colorOf (!p) := by
  cases p <;> decide

theorem holds_max (cond : Condition) (x y t : Int) :
    cond.holds (max x y) t = (cond.holds x t || cond.holds y t) := by
  cases cond <;> simp only [Condition.holds] <;> rw [Bool.eq_iff_iff] <;> simp

theorem holds_min (cond : Condition) (x y t : Int) :
    cond.holds (min x y) t = (cond.holds x t && cond.holds y t) := by
  cases cond <;> simp only [Condition.holds] <;> rw [Bool.eq_iff_iff] <;> simp

theorem holds_foldl_max (cond : Condition) (t : Int) (xs : List Int) :
    ∀ x : Int, cond.holds (xs.foldl max x) t
      = (cond.holds x t || xs.any (fun y => cond.holds y t)) := by
  induction xs with
  | nil => intro x; simp
  | cons y ys ih => intro x; simp [ih, holds_max, Bool.or_assoc]

theorem holds_foldl_min (cond : Condition) (t : Int) (xs : List Int) :
    ∀ x : Int, cond.holds (xs.foldl min x) t
      = (cond.holds x t && xs.all (fun y => cond.holds y t)) := by
  induction xs with
  | nil => intro x; simp
  | cons y ys ih => intro x; simp [ih, holds_min, Bool.and_assoc]

/-- The loop of `TEST` when every recursive call on a legal child `ch` answers
the comparison of `F ch` with `score`: for the maximizer it returns `true` at
the first child that passes, for the minimizer `false` at the first child that
fails, and otherwise falls through. -/
theorem TESTLoop_eval (g : Game σ) (recur : σ → Option Bool) (F : σ → Int) (s : σ)
    (p is_MAX : Bool) (score : Int) (cond : Condition) (l : List Nat)
    (hrec : ∀ ch ∈ kidsOf g s p l, recur ch = some (cond.holds (F ch) score)) :
    ∀ nm : Bool, TESTLoop g recur s p is_MAX l nm =
      some (if is_MAX then
          (if (kidsOf g s p l).any (fun ch => cond.holds (F ch) score) then (some true, false)
           else (none, nm && (kidsOf g s p l).isEmpty))
        else
          (if (kidsOf g s p l).all (fun ch => cond.holds (F ch) score)
           then (none, nm && (kidsOf g s p l).isEmpty)
           else (some false, false))) := by
  induction l with
  | nil => intro nm; cases is_MAX <;> simp [TESTLoop, kidsOf_nil]
  | cons pos rest ih =>
    intro nm
    by_cases ho : g.outflank s p pos = true
    · rw [kidsOf_cons_legal g s p pos rest ho] at hrec ⊢
      have h1 := hrec _ (List.mem_cons_self _ _)
      have ih' := ih (fun ch hch => hrec ch (List.mem_cons_of_mem _ hch)) false
      simp only [TESTLoop, ho, if_true, h1, ih']
      cases is_MAX <;> cases hh : cond.holds (F (g.move s p pos)) score <;> simp [hh]
    · have ho' : g.outflank s p pos = false := by simpa using ho
      rw [kidsOf_cons_illegal g s p pos rest ho'] at hrec ⊢
      simp only [TESTLoop, ho', Bool.false_eq_true, if_false]
      exact ih hrec nm

theorem any_map_holds (F : σ → Int) (P : Int → Bool) (cs : List σ) :
    (cs.map F).any P = cs.any (fun ch => P (F ch)) := by
  induction cs with
  | nil => rfl
  | cons c cs ih => simp [ih]

theorem all_map_holds (F : σ → Int) (P : Int → Bool) (cs : List σ) :
    (cs.map F).all P = cs.all (fun ch => P (F ch)) := by
  induction cs with
  | nil => rfl
  | cons c cs ih => simp [ih]

/-- Unfolding of `mm` at a position that is searched further. -/
theorem mm_succ_cons (g : Game σ) (s : σ) (d : Nat) (p : Bool) (c : σ) (cs : List σ)
    (ht : g.terminal s = false) (hk : legalChildren g s p = c :: cs) :
    mm g s (d + 1) p =
      if p then maxOf (mm g c d (!p)) (cs.map (fun ch => mm g ch d (!p)))
      else minOf (mm g c d (!p)) (cs.map (fun ch => mm g ch d (!p))) := by
  rw [mm]; simp [ht, hk]

theorem mm_succ_nil (g : Game σ) (s : σ) (d : Nat) (p : Bool)
    (ht : g.terminal s = false) (hk : legalChildren g s p = []) :
    mm g s (d + 1) p = mm g s d (!p) := by
  rw [mm]; simp [ht, hk]

theorem mm_terminal (g : Game σ) (s : σ) (d : Nat) (p : Bool) (ht : g.terminal s = true) :
    mm g s d p = g.value s := by
  cases d with
  | zero => simp [mm]
  | succ d => rw [mm]; simp [ht]

/-- On a position resolved within `d` plies, `TEST` at any depth `d1 >= d` and
with fuel above `d` answers the comparison of the minimax value with `score`. -/
theorem TEST_resolved (g : Game σ) (score : Int) (cond : Condition) (d : Nat) :
    ∀ (s : σ) (p : Bool) (d1 fuel : Nat), resolved g s d p = true → d ≤ d1 → d < fuel →
      TEST g fuel s d1 score cond (colorOf p) = some (cond.holds (mm g s d p) score) := by
  induction d with
  | zero =>
    intro s p d1 fuel hr _ hf
    have ht : g.terminal s = true := by simpa [resolved] using hr
    obtain ⟨f, rfl⟩ : ∃ f, fuel = f + 1 := ⟨fuel - 1, by omega⟩
    rw [TEST_base g f s d1 score cond _ (Or.inr ht), mm_terminal g s 0 p ht]
  | succ d ih =>
    intro s p d1 fuel hr hd hf
    obtain ⟨f, rfl⟩ : ∃ f, fuel = f + 1 := ⟨fuel - 1, by omega⟩
    by_cases ht : g.terminal s = true
    · rw [TEST_base g f s d1 score cond _ (Or.inr ht), mm_terminal g s _ p ht]
    · have ht' : g.terminal s = false := by simpa using ht
      have hd1 : (d1 == 0) = false := by simp; omega
      rw [resolved] at hr
      simp only [ht', Bool.false_or] at hr
      rw [TEST]
      simp only [hd1, ht', Bool.or_self, Bool.false_eq_true, if_false, decide_colorOf,
        neg32_colorOf]
      cases hk : legalChildren g s p with
      | nil =>
        have hk' : kidsOf g s p (List.range g.DIM) = [] := hk
        simp only [hk, List.isEmpty_nil, if_true] at hr
        have hl := TESTLoop_eval g
          (fun child => TEST g f child (d1 - 1) score cond (colorOf (!p)))
          (fun ch => mm g ch d (!p)) s p p score cond (List.range g.DIM)
          (by rw [hk']; intro ch hch; cases hch) true
        rw [hl, hk', mm_succ_nil g s d p ht' hk,
          ih s (!p) d1 f hr (by omega) (by omega)]
        cases p <;> cases cond.holds (mm g s d _) score <;> simp
      | cons c cs =>
        have hk' : kidsOf g s p (List.range g.DIM) = c :: cs := hk
        simp only [hk, List.isEmpty_cons, Bool.false_eq_true, if_false] at hr
        have hl := TESTLoop_eval g
          (fun child => TEST g f child (d1 - 1) score cond (colorOf (!p)))
          (fun ch => mm g ch d (!p)) s p p score cond (List.range g.DIM)
          (by
            rw [hk']; intro ch hch
            have hrc : resolved g ch d (!p) = true := by
              rw [List.all_eq_true] at hr; exact hr ch hch
            exact ih ch (!p) (d1 - 1) f hrc (by omega) (by omega)) true
        rw [hl, hk', mm_succ_cons g s d p c cs ht' hk]
        cases p with
        | true =>
          have e : cond.holds (maxOf (mm g c d false) (cs.map (fun ch => mm g ch d false)))
              score = (c :: cs).any (fun ch => cond.holds (mm g ch d false) score) := by
            simp only [maxOf, holds_foldl_max, any_map_holds, List.any_cons]
          simp only [Bool.not_true, if_true, e, List.isEmpty_cons, Bool.and_false]
          generalize ((c :: cs).any fun ch => cond.holds (mm g ch d false) score) = B
          cases B <;> rfl
        | false =>
          have e : cond.holds (minOf (mm g c d true) (cs.map (fun ch => mm g ch d true)))
              score = (c :: cs).all (fun ch => cond.holds (mm g ch d true) score) := by
            simp only [minOf, holds_foldl_min, all_map_holds, List.all_cons]
          simp only [Bool.not_false, Bool.false_eq_true, if_false, e, List.isEmpty_cons,
            Bool.and_false]
          generalize ((c :: cs).all fun ch => cond.holds (mm g ch d true) score) = B
          cases B <;> rfl

/-- The retest of a later child in `scout`, when the recursive call on the child
returns `F child` and `TEST` answers the comparison of `F child` with the score:
the score becomes the larger (maximizer) or the smaller (minimizer) of the
two. -/
theorem scoutRetest_eval (recur : σ → Counters → Option (Int × Counters))
    (test : σ → Int → Condition → Option Bool) (F : σ → Int) (child : σ) (p : Bool)
    (score : Int) (k : Counters)
    (hrec : ∀ kk, ∃ k1, recur child kk = some (F child, k1))
    (htest : ∀ sc cond, test child sc cond = some (cond.holds (F child) sc)) :
    ∃ k1, scoutRetest recur test child (colorOf p) score k
      = some (if p then max score (F child) else min score (F child), k1) := by
  obtain ⟨k1, hk1⟩ := hrec k
  cases p with
  | true =>
    have hc1 : colorOf true = 1 := rfl
    have hne : ¬ ((1 : Int) = -1) := by decide
    simp only [scoutRetest, hc1, if_true, htest, Condition.holds, hne, if_false]
    by_cases h : F child > score
    · refine ⟨k1, ?_⟩
      simp only [h, decide_True, hk1]
      congr 2
      omega
    · refine ⟨k, ?_⟩
      simp only [h, decide_False]
      congr 2
      omega
  | false =>
    have hc1 : colorOf false = -1 := rfl
    have hne : ¬ ((-1 : Int) = 1) := by decide
    simp only [scoutRetest, hc1, if_true, htest, Condition.holds, hne, if_false]
    by_cases h : F child ≥ score
    · refine ⟨k, ?_⟩
      simp only [h, decide_True]
      simp only [Bool.false_eq_true, if_false]
      congr 2
      omega
    · refine ⟨k1, ?_⟩
      simp only [h, decide_False, hk1]
      simp only [Bool.false_eq_true, if_false]
      congr 2
      omega

/-- The loop of `scout` after the first child: a fold of `max` (maximizer) or
`min` (minimizer) over the values of the remaining legal children. -/
theorem scoutLoop_rest (g : Game σ) (recur : σ → Counters → Option (Int × Counters))
    (test : σ → Int → Condition → Option Bool) (F : σ → Int) (s : σ) (p : Bool)
    (l : List Nat)
    (hrec : ∀ ch ∈ kidsOf g s p l, ∀ kk, ∃ k1, recur ch kk = some (F ch, k1))
    (htest : ∀ ch ∈ kidsOf g s p l, ∀ sc cond, test ch sc cond = some (cond.holds (F ch) sc)) :
    ∀ (score : Int) (nm : Bool) (k : Counters),
      ∃ k1, scoutLoop g recur test s (colorOf p) p l score false nm k
        = some (((kidsOf g s p l).map F).foldl
            (fun a b => if p then max a b else min a b) score,
          false, nm && (kidsOf g s p l).isEmpty, k1) := by
  induction l with
  | nil => intro score nm k; exact ⟨k, by simp [scoutLoop, kidsOf_nil]⟩
  | cons pos rest ih =>
    intro score nm k
    by_cases ho : g.outflank s p pos = true
    · rw [kidsOf_cons_legal g s p pos rest ho] at hrec htest ⊢
      obtain ⟨k1, hk1⟩ := scoutRetest_eval recur test F (g.move s p pos) p score
        k.incGenerated (hrec _ (List.mem_cons_self _ _)) (htest _ (List.mem_cons_self _ _))
      obtain ⟨k2, hk2⟩ := ih (fun ch hch => hrec ch (List.mem_cons_of_mem _ hch))
        (fun ch hch => htest ch (List.mem_cons_of_mem _ hch))
        (if p then max score (F (g.move s p pos)) else min score (F (g.move s p pos))) false k1
      refine ⟨k2, ?_⟩
      simp only [scoutLoop, ho, if_true, Bool.false_eq_true, if_false, hk1, hk2,
        List.map_cons, List.foldl_cons, List.isEmpty_cons, Bool.and_false, Bool.false_and]
    · have ho' : g.outflank s p pos = false := by simpa using ho
      rw [kidsOf_cons_illegal g s p pos rest ho'] at hrec htest ⊢
      simp only [scoutLoop, ho', Bool.false_eq_true, if_false]
      exact ih hrec htest score nm k

/-- The loop of `scout` from its start: unchanged when there is no legal move,
otherwise the fold over the later children started from the value of the
first. -/
theorem scoutLoop_first (g : Game σ) (recur : σ → Counters → Option (Int × Counters))
    (test : σ → Int → Condition → Option Bool) (F : σ → Int) (s : σ) (p : Bool)
    (l : List Nat)
    (hrec : ∀ ch ∈ kidsOf g s p l, ∀ kk, ∃ k1, recur ch kk = some (F ch, k1))
    (htest : ∀ ch ∈ kidsOf g s p l, ∀ sc cond, test ch sc cond = some (cond.holds (F ch) sc)) :
    ∀ (score : Int) (nm : Bool) (k : Counters),
      (kidsOf g s p l = [] →
        scoutLoop g recur test s (colorOf p) p l score true nm k = some (score, true, nm, k)) ∧
      (∀ c cs, kidsOf g s p l = c :: cs →
        ∃ k1, scoutLoop g recur test s (colorOf p) p l score true nm k
          = some ((cs.map F).foldl (fun a b => if p then max a b else min a b) (F c),
            false, false, k1)) := by
  induction l with
  | nil =>
    intro score nm k
    exact ⟨fun _ => rfl, fun c cs h => by simp [kidsOf_nil] at h⟩
  | cons pos rest ih =>
    intro score nm k
    by_cases ho : g.outflank s p pos = true
    · rw [kidsOf_cons_legal g s p pos rest ho] at hrec htest ⊢
      refine ⟨fun h => (by cases h), fun c cs h => ?_⟩
      injection h with h1 h2
      subst h1 h2
      obtain ⟨k1, hk1⟩ := hrec _ (List.mem_cons_self _ _) k.incGenerated
      obtain ⟨k2, hk2⟩ := scoutLoop_rest g recur test F s p rest
        (fun ch hch => hrec ch (List.mem_cons_of_mem _ hch))
        (fun ch hch => htest ch (List.mem_cons_of_mem _ hch)) (F (g.move s p pos)) false k1
      refine ⟨k2, ?_⟩
      simp only [scoutLoop, ho, if_true, hk1, hk2, Bool.false_and]
    · have ho' : g.outflank s p pos = false := by simpa using ho
      rw [kidsOf_cons_illegal g s p pos rest ho'] at hrec htest ⊢
      simp only [scoutLoop, ho', Bool.false_eq_true, if_false]
      exact ih hrec htest score nm k

/-- On a position resolved within `d` plies, `scout` at any depth `d1 >= d` and
with fuel above `d` returns the minimax value. -/
theorem scout_resolved (g : Game σ) (d : Nat) :
    ∀ (s : σ) (p : Bool) (d1 fuel : Nat) (k : Counters), resolved g s d p = true → d ≤ d1 →
      d < fuel → ∃ k1, scout g fuel s d1 (colorOf p) k = some (mm g s d p, k1) := by
  induction d with
  | zero =>
    intro s p d1 fuel k hr _ hf
    have ht : g.terminal s = true := by simpa [resolved] using hr
    obtain ⟨f, rfl⟩ : ∃ f, fuel = f + 1 := ⟨fuel - 1, by omega⟩
    exact ⟨_, by rw [scout_base g f s d1 _ k (Or.inr ht), mm_terminal g s 0 p ht]⟩
  | succ d ih =>
    intro s p d1 fuel k hr hd hf
    obtain ⟨f, rfl⟩ : ∃ f, fuel = f + 1 := ⟨fuel - 1, by omega⟩
    by_cases ht : g.terminal s = true
    · exact ⟨_, by rw [scout_base g f s d1 _ k (Or.inr ht), mm_terminal g s _ p ht]⟩
    · have ht' : g.terminal s = false := by simpa using ht
      have hd1 : (d1 == 0) = false := by simp; omega
      rw [resolved] at hr
      simp only [ht', Bool.false_or] at hr
      rw [scout]
      simp only [hd1, ht', Bool.or_self, Bool.false_eq_true, if_false, decide_colorOf,
        neg32_colorOf]
      cases hk : legalChildren g s p with
      | nil =>
        have hk' : kidsOf g s p (List.range g.DIM) = [] := hk
        simp only [hk, List.isEmpty_nil, if_true] at hr
        have hl := (scoutLoop_first g
          (fun child kk => scout g f child (d1 - 1) (colorOf (!p)) kk)
          (fun child score condition => TEST g f child d1 score condition (colorOf (!p)))
          (fun ch => mm g ch d (!p)) s p (List.range g.DIM)
          (by rw [hk']; intro ch hch; cases hch) (by rw [hk']; intro ch hch; cases hch)
          0 true k.incExpanded).1 hk'
        obtain ⟨k1, hk1⟩ := ih s (!p) d1 f k.incExpanded.incGenerated hr (by omega) (by omega)
        refine ⟨k1, ?_⟩
        rw [hl, mm_succ_nil g s d p ht' hk]
        simpa using hk1
      | cons c cs =>
        have hk' : kidsOf g s p (List.range g.DIM) = c :: cs := hk
        simp only [hk, List.isEmpty_cons, Bool.false_eq_true, if_false] at hr
        have hres : ∀ ch ∈ c :: cs, resolved g ch d (!p) = true := by
          rw [List.all_eq_true] at hr; exact hr
        obtain ⟨k1, hk1⟩ := (scoutLoop_first g
          (fun child kk => scout g f child (d1 - 1) (colorOf (!p)) kk)
          (fun child score condition => TEST g f child d1 score condition (colorOf (!p)))
          (fun ch => mm g ch d (!p)) s p (List.range g.DIM)
          (by
            rw [hk']; intro ch hch kk
            exact ih ch (!p) (d1 - 1) f kk (hres ch hch) (by omega) (by omega))
          (by
            rw [hk']; intro ch hch sc cond
            exact TEST_resolved g sc cond d ch (!p) d1 f (hres ch hch) (by omega) (by omega))
          0 true k.incExpanded).2 c cs hk'
        refine ⟨k1, ?_⟩
        rw [hk1, mm_succ_cons g s d p c cs ht' hk]
        cases p <;> simp [maxOf, minOf]

/-! ## A position with a single legal move -/

theorem kidsOf_range_single (g : Game σ) (s : σ) (p : Bool) (pos : Nat)
    (hpos : pos < g.DIM) (hleg : g.outflank s p pos = true)
    (huniq : ∀ q, q < g.DIM → g.outflank s p q = true → q = pos) :
    kidsOf g s p (List.range g.DIM) = [g.move s p pos] := by
  have h1 : (List.range g.DIM).filter (fun q => g.outflank s p q)
      = (List.range g.DIM).filter (fun q => q == pos) := by
    apply List.filter_congr
    intro q hq
    have hq' : q < g.DIM := List.mem_range.1 hq
    by_cases h : q = pos
    · subst h; simp [hleg]
    · have : g.outflank s p q = false := by
        cases ho : g.outflank s p q
        · rfl
        · exact absurd (huniq q hq' ho) h
      simp [this, h]
  have h2 : (List.range g.DIM).filter (fun q => q == pos) = [pos] := by
    rw [List.filter_beq, List.count_eq_one_of_mem (List.nodup_range _) (List.mem_range.2 hpos)]
    rfl
  simp [kidsOf, h1, h2]

theorem negamaxLoop_nil (g : Game σ) (recur : σ → Counters → Int × Counters) (s : σ)
    (p : Bool) (l : List Nat) (h : kidsOf g s p l = []) :
    ∀ (alpha : Int) (nm : Bool) (k : Counters),
      negamaxLoop g recur s p l alpha nm k = (alpha, nm, k) := by
  induction l with
  | nil => intro alpha nm k; rfl
  | cons q rest ih =>
    intro alpha nm k
    by_cases ho : g.outflank s p q = true
    · rw [kidsOf_cons_legal g s p q rest ho] at h; cases h
    · have ho' : g.outflank s p q = false := by simpa using ho
      rw [kidsOf_cons_illegal g s p q rest ho'] at h
      simp [negamaxLoop, ho', ih h]

theorem negamaxLoop_single (g : Game σ) (recur : σ → Counters → Int × Counters) (s : σ)
    (p : Bool) (ch : σ) (l : List Nat) (h : kidsOf g s p l = [ch]) :
    ∀ (alpha : Int) (nm : Bool) (k : Counters),
      negamaxLoop g recur s p l alpha nm k
        = (max alpha (neg32 (recur ch k.incGenerated).1), false, (recur ch k.incGenerated).2) := by
  induction l with
  | nil => rw [kidsOf_nil] at h; cases h
  | cons q rest ih =>
    intro alpha nm k
    by_cases ho : g.outflank s p q = true
    · rw [kidsOf_cons_legal g s p q rest ho] at h
      injection h with h1 h2
      subst h1
      simp only [negamaxLoop, ho, if_true]
      rw [negamaxLoop_nil g recur s p rest h2]
    · have ho' : g.outflank s p q = false := by simpa using ho
      rw [kidsOf_cons_illegal g s p q rest ho'] at h
      simp only [negamaxLoop, ho', Bool.false_eq_true, if_false]
      exact ih h alpha nm k

theorem negamax_abLoop_single (g : Game σ) (recur : σ → Int → Int → Counters → Int × Counters)
    (s : σ) (p : Bool) (b : Int) (ch : σ) (l : List Nat) (h : kidsOf g s p l = [ch]) :
    ∀ (value alpha : Int) (nm : Bool) (k : Counters),
      (negamax_abLoop g recur s p b l value alpha nm k).1
        = max value (neg32 (recur ch (neg32 b) (neg32 alpha) k.incGenerated).1) := by
  induction l with
  | nil => rw [kidsOf_nil] at h; cases h
  | cons q rest ih =>
    intro value alpha nm k
    by_cases ho : g.outflank s p q = true
    · rw [kidsOf_cons_legal g s p q rest ho] at h
      injection h with h1 h2
      subst h1
      simp only [negamax_abLoop, ho, if_true]
      split
      · rfl
      · rw [negamax_abLoop_nil g recur s p b rest h2]
    · have ho' : g.outflank s p q = false := by simpa using ho
      rw [kidsOf_cons_illegal g s p q rest ho'] at h
      simp only [negamax_abLoop, ho', Bool.false_eq_true, if_false]
      exact ih h value alpha nm k

theorem negascoutLoop_single (g : Game σ) (recur : σ → Int → Int → Counters → Int × Counters)
    (s : σ) (p : Bool) (b : Int) (ch : σ) (l : List Nat) (h : kidsOf g s p l = [ch]) :
    ∀ (score alpha : Int) (nm : Bool) (k : Counters),
      (negascoutLoop g recur s p b l score alpha nm true k).2.1
        = max alpha (neg32 (recur ch (neg32 b) (neg32 alpha) k.incGenerated).1) := by
  induction l with
  | nil => rw [kidsOf_nil] at h; cases h
  | cons q rest ih =>
    intro score alpha nm k
    by_cases ho : g.outflank s p q = true
    · rw [kidsOf_cons_legal g s p q rest ho] at h
      injection h with h1 h2
      subst h1
      simp only [negascoutLoop, ho, if_true, negascoutChild]
      split
      · rfl
      · rw [negascoutLoop_nil g recur s p b rest h2]
    · have ho' : g.outflank s p q = false := by simpa using ho
      rw [kidsOf_cons_illegal g s p q rest ho'] at h
      simp only [negascoutLoop, ho', Bool.false_eq_true, if_false]
      exact ih h score alpha nm k

/-! ## Claims on scout, the base case, the pass rule and the single-move position -/

/-- C4, the code at the failing inputs. With color `-1`, `scout` returns the
value seen from the first player where negamax, alpha-beta and negascout return
the value seen from the mover: on a terminal position of value `10` it returns
`10` and they return `-10`, and on `passPosition` at depth `1` it returns `5`
and negamax `-5`. The driver multiplies the result of every engine by the
color, so for that terminal position at index `0` (color `-1`) it prints `10`
for negamax, alpha-beta and negascout and `-10` for scout. With color `+1`,
`scout` differs through its handling of the depth: on `shallowHigh` at depth
`1` it returns `3` and negamax `10`, and on `passPosition` at depth `1` it
returns `5` and negamax `0`. -/
theorem scout_differs_from_negamax :
    ((scout (treeGame 1) 5 (leaf 10) 3 (-1) Counters.zero).map Prod.fst = some 10 ∧
      (negamax (treeGame 1) (leaf 10) 3 (-1) Counters.zero).1 = -10 ∧
      (negamax_ab (treeGame 1) (leaf 10) 3 (-200) 200 (-1) Counters.zero).1 = -10 ∧
      (negascout (treeGame 1) (leaf 10) 3 (-200) 200 (-1) Counters.zero).1 = -10) ∧
    ((scout (treeGame 1) 5 passPosition 1 (-1) Counters.zero).map Prod.fst = some 5 ∧
      (negamax (treeGame 1) passPosition 1 (-1) Counters.zero).1 = -5) ∧
    (driverColor 0 = -1 ∧
      (driverStep (treeGame 1) 40 1 (leaf 10) 0 Counters.zero).map (fun r => r.1.value)
        = some 10 ∧
      (driverStep (treeGame 1) 40 2 (leaf 10) 0 Counters.zero).map (fun r => r.1.value)
        = some 10 ∧
      (driverStep (treeGame 1) 40 3 (leaf 10) 0 Counters.zero).map (fun r => r.1.value)
        = some (-10) ∧
      (driverStep (treeGame 1) 40 4 (leaf 10) 0 Counters.zero).map (fun r => r.1.value)
        = some 10) ∧
    ((scout (treeGame 2) 5 shallowHigh 1 1 Counters.zero).map Prod.fst = some 3 ∧
      (negamax (treeGame 2) shallowHigh 1 1 Counters.zero).1 = 10) ∧
    ((scout (treeGame 1) 5 passPosition 1 1 Counters.zero).map Prod.fst = some 5 ∧
      (negamax (treeGame 1) passPosition 1 1 Counters.zero).1 = 0) := by
  decide

/-- What `scout` computes as coded, where its handling of the depth does not
matter: with static values of absolute value below `INT_MAX` and a color `c` in
`{+1, -1}`, on every position `s` whose lines of play all end within `d` plies,
`scout(s, d, c)` returns (given fuel above `d`) `c * negamax(s, d, c)`, the
value seen from the first player: the value of `negamax` for `c = +1` and its
negation for `c = -1`. -/
theorem scout_eq_signed_negamax (g : Game σ)
    (hv : ∀ st, -INT_MAX < g.value st ∧ g.value st < INT_MAX) (s : σ) (d : Nat) (c : Int)
    (k k0 : Counters) (fuel : Nat) (hc : c = 1 ∨ c = -1)
    (hr : resolved g s d (decide (c = 1)) = true) (hf : d < fuel) :
    ∃ k1, scout g fuel s d c k = some (c * (negamax g s d c k0).1, k1) := by
  have hm := negamaxV_eq_mm g hv d s
  rw [negamax_fst]
  rcases hc with rfl | rfl
  · obtain ⟨k1, hk1⟩ := scout_resolved g d s true d fuel k hr (le_refl _) hf
    refine ⟨k1, ?_⟩
    rw [hm.1, one_mul]
    exact hk1
  · obtain ⟨k1, hk1⟩ := scout_resolved g d s false d fuel k hr (le_refl _) hf
    refine ⟨k1, ?_⟩
    rw [hm.2, neg_one_mul, neg_neg]
    exact hk1

/-- An instance on `twoPly`, which is resolved within two plies. -/
theorem scout_eq_signed_negamax_witness :
    (∀ st, -INT_MAX < (boundedTreeGame 2).value st ∧ (boundedTreeGame 2).value st < INT_MAX) ∧
    ((1 : Int) = 1 ∨ (1 : Int) = -1) ∧
    resolved (boundedTreeGame 2) twoPly 2 (decide ((1 : Int) = 1)) = true ∧ 2 < 3 ∧
    ∃ k1, scout (boundedTreeGame 2) 3 twoPly 2 1 Counters.zero
      = some (1 * (negamax (boundedTreeGame 2) twoPly 2 1 Counters.zero).1, k1) :=
  ⟨boundedTreeGame_values 2, Or.inl rfl, by decide, by decide,
    scout_eq_signed_negamax (boundedTreeGame 2) (boundedTreeGame_values 2) twoPly 2 1
      Counters.zero Counters.zero 3 (Or.inl rfl) (by decide) (by decide)⟩

/-- C5, the code at the failing input. On a terminal position of value `10`
with color `-1` at depth `3`, and on a non-terminal position of static value
`10` with color `-1` at depth `0`, negamax, alpha-beta and negascout return
`-10 = color * value` and `scout` returns `10`: its base case is
`return state.value()`, without the factor `color`. Every engine ends with
`expanded = 1` and `generated = 0`. The driver multiplies every result by the
color, so for the terminal position at index `0` (color `-1`) it prints `10`
for negamax, alpha-beta and negascout and `-10` for scout. -/
theorem scout_base_ignores_color :
    ((treeGame 1).terminal (leaf 10) = true ∧ (treeGame 1).value (leaf 10) = 10 ∧
      negamax (treeGame 1) (leaf 10) 3 (-1) Counters.zero = (-10, ⟨1, 0⟩) ∧
      negamax_ab (treeGame 1) (leaf 10) 3 (-200) 200 (-1) Counters.zero = (-10, ⟨1, 0⟩) ∧
      negascout (treeGame 1) (leaf 10) 3 (-200) 200 (-1) Counters.zero = (-10, ⟨1, 0⟩) ∧
      scout (treeGame 1) 5 (leaf 10) 3 (-1) Counters.zero = some (10, ⟨1, 0⟩)) ∧
    ((treeGame 1).terminal (GTree.node 10 false [] [leaf 0]) = false ∧
      (treeGame 1).value (GTree.node 10 false [] [leaf 0]) = 10 ∧
      negamax (treeGame 1) (GTree.node 10 false [] [leaf 0]) 0 (-1) Counters.zero
        = (-10, ⟨1, 0⟩) ∧
      negamax_ab (treeGame 1) (GTree.node 10 false [] [leaf 0]) 0 (-200) 200 (-1) Counters.zero
        = (-10, ⟨1, 0⟩) ∧
      negascout (treeGame 1) (GTree.node 10 false [] [leaf 0]) 0 (-200) 200 (-1) Counters.zero
        = (-10, ⟨1, 0⟩) ∧
      scout (treeGame 1) 5 (GTree.node 10 false [] [leaf 0]) 0 (-1) Counters.zero
        = some (10, ⟨1, 0⟩)) ∧
    (driverStep (treeGame 1) 40 1 (leaf 10) 0 Counters.zero = some (⟨10, 1, 0⟩, ⟨1, 0⟩) ∧
      driverStep (treeGame 1) 40 2 (leaf 10) 0 Counters.zero = some (⟨10, 1, 0⟩, ⟨1, 0⟩) ∧
      driverStep (treeGame 1) 40 3 (leaf 10) 0 Counters.zero = some (⟨-10, 1, 0⟩, ⟨1, 0⟩) ∧
      driverStep (treeGame 1) 40 4 (leaf 10) 0 Counters.zero = some (⟨10, 1, 0⟩, ⟨1, 0⟩)) := by
  decide

/-- The base case of the four engines as coded: when `depth == 0` (whatever
legal moves exist) or `s` is terminal (at any depth), negamax, alpha-beta
negamax and negascout return the `int` product `c * value(s)` (the exact product
for `c` in `{+1, -1}` and `|value(s)| <= INT_MAX`), whereas `scout` returns
`value(s)` without the factor `c`; none makes a recursive call: from zeroed
counters each ends with `expanded = 1` and `generated = 0`. -/
theorem base_case (g : Game σ) (s : σ) (d : Nat) (alpha beta c : Int) (fuel : Nat)
    (h : d = 0 ∨ g.terminal s = true) :
    negamax g s d c Counters.zero = (mul32 c (g.value s), ⟨1, 0⟩) ∧
    negamax_ab g s d alpha beta c Counters.zero = (mul32 c (g.value s), ⟨1, 0⟩) ∧
    negascout g s d alpha beta c Counters.zero = (mul32 c (g.value s), ⟨1, 0⟩) ∧
    scout g (fuel + 1) s d c Counters.zero = some (g.value s, ⟨1, 0⟩) ∧
    ((c = 1 ∨ c = -1) → -INT_MAX ≤ g.value s → g.value s ≤ INT_MAX →
      mul32 c (g.value s) = c * g.value s) := by
  refine ⟨?_, ?_, ?_, ?_, fun hc h1 h2 => mul32_color c _ hc h1 h2⟩
  · rw [negamax_base g s d c _ h]; rfl
  · rw [negamax_ab_base g s d alpha beta c _ h]; rfl
  · rw [negascout_base g s d alpha beta c _ h]; rfl
  · rw [scout_base g fuel s d c _ h]; rfl

/-- An instance on a terminal position of value `10` with color `-1`, at depth
3. -/
theorem base_case_witness :
    ((3 : Nat) = 0 ∨ (treeGame 1).terminal (leaf 10) = true) ∧
    (negamax (treeGame 1) (leaf 10) 3 (-1) Counters.zero = (-10, ⟨1, 0⟩) ∧
    negamax_ab (treeGame 1) (leaf 10) 3 (-200) 200 (-1) Counters.zero = (-10, ⟨1, 0⟩) ∧
    negascout (treeGame 1) (leaf 10) 3 (-200) 200 (-1) Counters.zero = (-10, ⟨1, 0⟩) ∧
    scout (treeGame 1) (0 + 1) (leaf 10) 3 (-1) Counters.zero = some (10, ⟨1, 0⟩) ∧
    (((-1 : Int) = 1 ∨ (-1 : Int) = -1) → -INT_MAX ≤ (treeGame 1).value (leaf 10) →
      (treeGame 1).value (leaf 10) ≤ INT_MAX →
      mul32 (-1) ((treeGame 1).value (leaf 10)) = -1 * (treeGame 1).value (leaf 10))) :=
  ⟨Or.inr rfl, base_case (treeGame 1) (leaf 10) 3 (-200) 200 (-1) 0 (Or.inr rfl)⟩

/-- C6, the code at the failing input: on `passPosition` (not terminal, no legal
move for the first player) at depth `1`, `scout` re-searches at the same depth
`1` and returns `5`, where a pass that consumed depth would give
`scout(s, 0, -1) = 0`; negamax, alpha-beta and negascout do consume the depth
and return `0`. -/
theorem scout_pass_keeps_depth :
    (treeGame 1).terminal passPosition = false ∧
    (legalChildren (treeGame 1) passPosition true).isEmpty = true ∧
    scout (treeGame 1) 5 passPosition 1 1 Counters.zero = some (5, ⟨3, 2⟩) ∧
    scout (treeGame 1) 5 passPosition 1 (-1) Counters.zero = some (5, ⟨2, 1⟩) ∧
    scout (treeGame 1) 5 passPosition 0 (-1) Counters.zero = some (0, ⟨1, 0⟩) ∧
    (negamax (treeGame 1) passPosition 1 1 Counters.zero).1 = 0 ∧
    (negamax (treeGame 1) passPosition 0 (-1) Counters.zero).1 = 0 ∧
    (negamax_ab (treeGame 1) passPosition 1 (-200) 200 1 Counters.zero).1 = 0 ∧
    (negascout (treeGame 1) passPosition 1 (-200) 200 1 Counters.zero).1 = 0 := by
  decide

/-- C9, the code at the failing input: on `passPosition` with the first player
to move, depth `1` and threshold `2`, the depth-1 minimax value
`1 * negamax(s, 1, 1)` is `0`, not greater than `2`, yet `TEST` with `">"` and
with `">="` both return `true`: the pass inside `TEST` keeps the depth and sees
the value `5` one ply further. -/
theorem TEST_pass_keeps_depth :
    1 * (negamax (treeGame 1) passPosition 1 1 Counters.zero).1 = 0 ∧
    TEST (treeGame 1) 5 passPosition 1 2 Condition.gt 1 = some true ∧
    TEST (treeGame 1) 5 passPosition 1 2 Condition.ge 1 = some true := by
  decide

/-- C10: on a non-terminal position whose only legal move for the maximizer
leads to a terminal child of static value `x`, with color `+1`, any depth
`>= 1` and an `int` window `alpha < x < beta`: negamax, alpha-beta negamax,
negascout and scout (given fuel above `1`) all return `x`, and negamax started
from zeroed counters ends with `expanded = 2`. -/
theorem single_terminal_move (g : Game σ) (s : σ) (d : Nat) (x alpha beta : Int) (pos : Nat)
    (fuel : Nat) (k : Counters) (hd : 1 ≤ d) (hs : g.terminal s = false)
    (hpos : pos < g.DIM) (hleg : g.outflank s true pos = true)
    (huniq : ∀ q, q < g.DIM → g.outflank s true q = true → q = pos)
    (hct : g.terminal (g.move s true pos) = true) (hx : g.value (g.move s true pos) = x)
    (ha : INT_MIN ≤ alpha) (hax : alpha < x) (hxb : x < beta) (hb : beta ≤ INT_MAX)
    (hf : 1 < fuel) :
    (negamax g s d 1 k).1 = x ∧
    (negamax_ab g s d alpha beta 1 k).1 = x ∧
    (negascout g s d alpha beta 1 k).1 = x ∧
    (∃ k1, scout g fuel s d 1 k = some (x, k1)) ∧
    (negamax g s d 1 Counters.zero).2.expanded = 2 := by
  obtain ⟨d0, rfl⟩ : ∃ d0, d = d0 + 1 := ⟨d - 1, by omega⟩
  have h1 : INT_MAX = 2147483647 := rfl
  have h2 : INT_MIN = -2147483648 := rfl
  have hkids := kidsOf_range_single g s true pos hpos hleg huniq
  have hdec : decide ((1 : Int) = 1) = true := by decide
  have hx1 : -INT_MAX ≤ x := by omega
  have hx2 : x ≤ INT_MAX := by omega
  have hm : mul32 (-1) x = -x := mul32_neg_one x hx1 hx2
  have hn : neg32 (-x) = x := by rw [neg32_eq _ (by omega) (by omega)]; omega
  have hmax : max (-INT_MAX) x = x := by omega
  refine ⟨?_, ?_, ?_, ?_, ?_⟩
  · rw [negamax]
    simp only [hs, Bool.false_eq_true, if_false, hdec, decide_True, neg32_one]
    rw [negamaxLoop_single g _ s true _ _ hkids]
    simp only [Bool.false_eq_true, if_false, negamax_base g _ d0 (-1) _ (Or.inr hct), hx, hm, hn,
      neg32_INT_MAX, hmax]
  · rw [negamax_ab]
    simp only [hs, Bool.false_eq_true, if_false, hdec, decide_True, neg32_one]
    rw [negamax_abLoop_flag, negamax_abLoop_single g _ s true _ _ _ hkids]
    simp only [hkids, List.isEmpty_cons, Bool.and_false, Bool.false_eq_true, if_false,
      negamax_ab_base g _ d0 _ _ (-1) _ (Or.inr hct), hx, hm, hn, neg32_INT_MAX, hmax]
  · rw [negascout]
    simp only [hs, Bool.false_eq_true, if_false, hdec, decide_True, neg32_one]
    rw [negascoutLoop_flag, negascoutLoop_single g _ s true _ _ _ hkids]
    simp only [hkids, List.isEmpty_cons, Bool.and_false, Bool.false_eq_true, if_false,
      negascout_base g _ d0 _ _ (-1) _ (Or.inr hct), hx, hm, hn]
    omega
  · have hres : resolved g s 1 true = true := by
      have hk : legalChildren g s true = [g.move s true pos] := hkids
      simp [resolved, hs, hk, hct]
    obtain ⟨k1, hk1⟩ := scout_resolved g 1 s true (d0 + 1) fuel k hres (by omega) hf
    refine ⟨k1, ?_⟩
    have hk : legalChildren g s true = [g.move s true pos] := hkids
    have hmm : mm g s 1 true = x := by
      rw [mm_succ_cons g s 0 true _ [] hs hk]
      simp [maxOf, mm, hx]
    rw [← hmm]
    exact hk1
  · rw [negamax]
    simp only [hs, Bool.false_eq_true, if_false, hdec, decide_True, neg32_one]
    rw [negamaxLoop_single g _ s true _ _ hkids]
    simp only [Bool.false_eq_true, if_false, negamax_base g _ d0 (-1) _ (Or.inr hct)]
    rfl

/-- An instance on `oneMove` (the only move leads to a terminal position of
value `5`), at depth 3. -/
theorem single_terminal_move_witness :
    1 ≤ 3 ∧ (treeGame 2).terminal oneMove = false ∧ 0 < (treeGame 2).DIM ∧
    (treeGame 2).outflank oneMove true 0 = true ∧
    (∀ q, q < (treeGame 2).DIM → (treeGame 2).outflank oneMove true q = true → q = 0) ∧
    (treeGame 2).terminal ((treeGame 2).move oneMove true 0) = true ∧
    (treeGame 2).value ((treeGame 2).move oneMove true 0) = 5 ∧
    INT_MIN ≤ -200 ∧ (-200 : Int) < 5 ∧ (5 : Int) < 200 ∧ (200 : Int) ≤ INT_MAX ∧ 1 < 4 ∧
    ((negamax (treeGame 2) oneMove 3 1 Counters.zero).1 = 5 ∧
    (negamax_ab (treeGame 2) oneMove 3 (-200) 200 1 Counters.zero).1 = 5 ∧
    (negascout (treeGame 2) oneMove 3 (-200) 200 1 Counters.zero).1 = 5 ∧
    (∃ k1, scout (treeGame 2) 4 oneMove 3 1 Counters.zero = some (5, k1)) ∧
    (negamax (treeGame 2) oneMove 3 1 Counters.zero).2.expanded = 2) :=
  ⟨by decide, by decide, by decide, by decide, by decide, by decide, by decide, by decide,
    by decide, by decide, by decide, by decide,
    single_terminal_move (treeGame 2) oneMove 3 5 (-200) 200 0 4 Counters.zero (by decide)
      (by decide) (by decide) (by decide) (by decide) (by decide) (by decide) (by decide)
      (by decide) (by decide) (by decide) (by decide)⟩

/-! ## Recursion depth, the retest of scout, and the range of negamax -/

/-- At a pass, `TEST` returns nothing when the call it delegates to returns
nothing. -/
theorem TEST_pass_none (g : Game σ) (f : Nat) (s : σ) (d : Nat) (score : Int)
    (cond : Condition) (c : Int) (ht : g.terminal s = false) (hd : d ≠ 0)
    (hk : kidsOf g s (decide (c = 1)) (List.range g.DIM) = [])
    (h : TEST g f s d score cond (neg32 c) = none) :
    TEST g (f + 1) s d score cond c = none := by
  have hd1 : (d == 0) = false := by simpa using hd
  have hl := TESTLoop_eval g
    (fun child => TEST g f child (d - 1) score cond (neg32 c))
    (fun _ => 0) s (decide (c = 1)) (decide (c = 1)) score cond (List.range g.DIM)
    (by rw [hk]; intro ch hch; cases hch) true
  rw [TEST]
  simp only [hd1, ht, Bool.or_self, Bool.false_eq_true, if_false]
  rw [hl, hk, h]
  cases decide (c = 1) <;> rfl

/-- On a position that is not terminal and has no legal move for either player,
`scout` and `TEST` pass the turn back and forth at the same depth and never
return, whatever the fuel. -/
theorem stuck_never_returns (fuel : Nat) :
    ∀ (k : Counters) (score : Int) (cond : Condition),
      scout (treeGame 1) fuel stuck 1 1 k = none ∧
      scout (treeGame 1) fuel stuck 1 (-1) k = none ∧
      TEST (treeGame 1) fuel stuck 1 score cond 1 = none ∧
      TEST (treeGame 1) fuel stuck 1 score cond (-1) = none := by
  induction fuel with
  | zero => intro k score cond; exact ⟨rfl, rfl, rfl, rfl⟩
  | succ f ih =>
    intro k score cond
    have h1 : neg32 1 = -1 := by decide
    have h2 : neg32 (-1) = 1 := by decide
    refine ⟨?_, ?_, ?_, ?_⟩
    · rw [scout]
      simp only [h1]
      exact (ih _ score cond).2.1
    · rw [scout]
      simp only [h2]
      exact (ih _ score cond).1
    · exact TEST_pass_none (treeGame 1) f stuck 1 score cond 1 rfl (by decide) rfl
        (by rw [h1]; exact (ih k score cond).2.2.2)
    · exact TEST_pass_none (treeGame 1) f stuck 1 score cond (-1) rfl (by decide) rfl
        (by rw [h2]; exact (ih k score cond).2.2.1)

/-- C11, the code at the failing inputs: on `passPosition` at depth `1` the
nested calls of `scout` and of `TEST` form a chain of three (the pass, made at
the same depth, and the move), so a budget of `d + 1 = 2` nested calls is not
enough and `3` are needed; on `stuck`, where neither player can move and the
position is not terminal, neither function returns for any budget. -/
theorem scout_nesting_exceeds_depth :
    scout (treeGame 1) 2 passPosition 1 1 Counters.zero = none ∧
    scout (treeGame 1) 3 passPosition 1 1 Counters.zero = some (5, ⟨3, 2⟩) ∧
    TEST (treeGame 1) 2 passPosition 1 2 Condition.gt 1 = none ∧
    TEST (treeGame 1) 3 passPosition 1 2 Condition.gt 1 = some true ∧
    (∀ fuel, scout (treeGame 1) fuel stuck 1 1 Counters.zero = none ∧
      TEST (treeGame 1) fuel stuck 1 0 Condition.gt 1 = none) :=
  ⟨by decide, by decide, by decide, by decide, fun fuel =>
    ⟨(stuck_never_returns fuel Counters.zero 0 Condition.gt).1,
      (stuck_never_returns fuel Counters.zero 0 Condition.gt).2.2.1⟩⟩

/-- C14, the code at the failing inputs (depth `1`, first player to move, the
first child worth `3`). On `shallowHigh` the second child is worth `10` at
depth `0`, but `TEST` is called on it with depth `1`, sees `0` one ply further
and answers no: `scout` returns `3`, not the maximum `10`. On `shallowLow` the
second child is worth `0` at depth `0`, `TEST` at depth `1` sees `10` and
answers yes: the score is replaced by `0` and `scout` returns `0`, below the
maximum `3`. -/
theorem scout_retest_depth_mismatch :
    (treeGame 2).terminal shallowHigh = false ∧
    (legalChildren (treeGame 2) shallowHigh true).map
        (fun ch => (scout (treeGame 2) 5 ch 0 (-1) Counters.zero).map Prod.fst)
      = [some 3, some 10] ∧
    (scout (treeGame 2) 5 shallowHigh 1 1 Counters.zero).map Prod.fst = some 3 ∧
    (treeGame 2).terminal shallowLow = false ∧
    (legalChildren (treeGame 2) shallowLow true).map
        (fun ch => (scout (treeGame 2) 5 ch 0 (-1) Counters.zero).map Prod.fst)
      = [some 3, some 0] ∧
    (scout (treeGame 2) 5 shallowLow 1 1 Counters.zero).map Prod.fst = some 0 := by
  decide

/-- C19: if every static value lies in `[-B, B]` with `B < INT_MAX`, then for
every position, depth and color in `{+1, -1}` the result `r` of negamax lies
in `[-B, B]`; in particular it is never the sentinel `-INT_MAX`, and its
32-bit negation is the exact `-r` (no overflow when a caller negates it). -/
theorem negamax_range (g : Game σ) (B : Int) (hB : B < INT_MAX)
    (hv : ∀ st, -B ≤ g.value st ∧ g.value st ≤ B) (s : σ) (d : Nat) (c : Int) (k : Counters)
    (hc : c = 1 ∨ c = -1) :
    -B ≤ (negamax g s d c k).1 ∧ (negamax g s d c k).1 ≤ B ∧
    (negamax g s d c k).1 ≠ -INT_MAX ∧
    neg32 (negamax g s d c k).1 = -(negamax g s d c k).1 := by
  have hv1 : ∀ st, -INT_MAX < g.value st ∧ g.value st < INT_MAX := fun st => by
    have := hv st; omega
  have hm := negamaxV_eq_mm g hv1 d s
  have hr : -B ≤ (negamax g s d c k).1 ∧ (negamax g s d c k).1 ≤ B := by
    rw [negamax_fst]
    rcases hc with rfl | rfl
    · have := mm_bounds g (-B) B hv d s true
      rw [hm.1]; omega
    · have := mm_bounds g (-B) B hv d s false
      rw [hm.2]; omega
  refine ⟨hr.1, hr.2, by omega, neg32_eq _ (by omega) (by omega)⟩

/-- An instance on the bounded game (`B = 200`) and the position `twoPly`. -/
theorem negamax_range_witness :
    (200 : Int) < INT_MAX ∧
    (∀ st, -200 ≤ (boundedTreeGame 2).value st ∧ (boundedTreeGame 2).value st ≤ 200) ∧
    ((-1 : Int) = 1 ∨ (-1 : Int) = -1) ∧
    (-200 ≤ (negamax (boundedTreeGame 2) twoPly 2 (-1) Counters.zero).1 ∧
    (negamax (boundedTreeGame 2) twoPly 2 (-1) Counters.zero).1 ≤ 200 ∧
    (negamax (boundedTreeGame 2) twoPly 2 (-1) Counters.zero).1 ≠ -INT_MAX ∧
    neg32 (negamax (boundedTreeGame 2) twoPly 2 (-1) Counters.zero).1
      = -(negamax (boundedTreeGame 2) twoPly 2 (-1) Counters.zero).1) :=
  ⟨by decide, fun st => by simp only [boundedTreeGame]; omega, Or.inr rfl,
    negamax_range (boundedTreeGame 2) 200 (by decide)
      (fun st => by simp only [boundedTreeGame]; omega) twoPly 2 (-1) Counters.zero
      (Or.inr rfl)⟩

/-! ## The extraction of the principal variation -/

theorem countPV_sentinel (ms tl : List Int) (hm : ∀ x ∈ ms, x ≠ -1) :
    ∀ n : Nat, countPV (ms ++ -1 :: tl) n = n + ms.length := by
  induction ms with
  | nil => intro n; simp [countPV]
  | cons x rest ih =>
    intro n
    have hx : x ≠ -1 := hm x (List.mem_cons_self _ _)
    have := ih (fun y hy => hm y (List.mem_cons_of_mem _ hy)) (n + 1)
    show countPV (x :: (rest ++ -1 :: tl)) n = n + (x :: rest).length
    rw [countPV, if_pos hx, this, List.length_cons]
    omega

theorem extractLoop_length (g : Game σ) (npv : Nat) (l : List Int) :
    ∀ (i : Nat) (st : σ) (pv : List σ), (extractLoop g npv l i st pv).2.length = pv.length := by
  induction l with
  | nil => intro i st pv; rfl
  | cons x rest ih =>
    intro i st pv
    by_cases hx : x ≠ -1
    · simp only [extractLoop, hx, ne_eq, not_false_eq_true, if_true, ih, List.length_set]
    · simp only [extractLoop, hx, if_false]

/-- The extraction loop started at index `i` leaves the entries above
`npv - i` as they are. -/
theorem extractLoop_frame (g : Game σ) (npv : Nat) (l : List Int) :
    ∀ (i : Nat) (st : σ) (pv : List σ) (q : Nat), npv - i < q →
      (extractLoop g npv l i st pv).2[q]? = pv[q]? := by
  induction l with
  | nil => intro i st pv q _; rfl
  | cons x rest ih =>
    intro i st pv q hq
    by_cases hx : x ≠ -1
    · simp only [extractLoop, hx, ne_eq, not_false_eq_true, if_true]
      rw [ih (i + 1) _ _ q (by omega), List.getElem?_set_ne (by omega)]
    · simp only [extractLoop, hx, if_false]

theorem extractLoop_state (g : Game σ) (npv : Nat) (ms tl : List Int)
    (hm : ∀ x ∈ ms, x ≠ -1) :
    ∀ (i : Nat) (st : σ) (pv : List σ),
      (extractLoop g npv (ms ++ -1 :: tl) i st pv).1 = replayFrom g i st ms := by
  induction ms with
  | nil => intro i st pv; simp [extractLoop, replayFrom]
  | cons x rest ih =>
    intro i st pv
    have hx : x ≠ -1 := hm x (List.mem_cons_self _ _)
    simp only [List.cons_append, extractLoop, hx, ne_eq, not_false_eq_true, if_true, replayFrom]
    exact ih (fun y hy => hm y (List.mem_cons_of_mem _ hy)) _ _ _

/-- The extraction loop started at index `i` stores at `npv - (i + t)` the
position reached after the next `t` moves. -/
theorem extractLoop_get (g : Game σ) (npv : Nat) (ms tl : List Int)
    (hm : ∀ x ∈ ms, x ≠ -1) :
    ∀ (i : Nat) (st : σ) (pv : List σ) (t : Nat), i + ms.length = npv → npv < pv.length →
      t < ms.length →
      (extractLoop g npv (ms ++ -1 :: tl) i st pv).2[npv - (i + t)]?
        = some (replayFrom g i st (ms.take t)) := by
  induction ms with
  | nil => intro i st pv t _ _ ht; simp at ht
  | cons x rest ih =>
    intro i st pv t hi hlen ht
    have hx : x ≠ -1 := hm x (List.mem_cons_self _ _)
    simp only [List.length_cons] at hi ht
    simp only [List.cons_append, extractLoop, hx, ne_eq, not_false_eq_true, if_true]
    cases t with
    | zero =>
      rw [extractLoop_frame g npv _ (i + 1) _ _ (npv - (i + 0)) (by omega)]
      simp only [Nat.add_zero, List.take_zero, replayFrom]
      exact List.getElem?_set_self (by omega)
    | succ t1 =>
      have := ih (fun y hy => hm y (List.mem_cons_of_mem _ hy)) (i + 1)
        (g.move st (decide (i % 2 = 0)) x.toNat) (pv.set (npv - i) st) t1 (by omega)
        (by rw [List.length_set]; exact hlen) (by omega)
      simp only [List.take_succ_cons, replayFrom]
      rw [← this]
      congr 2
      omega

/-- C15: for a move list `moves` without the sentinel, of length `n < 128`,
followed in `PV` by the sentinel `-1`, the array `pv` after the extraction holds
at `pv[n - i]`, for every `0 <= i <= n`, the position obtained from the initial
position by the first `i` moves, move `k` being played by the first player
exactly when `k` is even; so `pv[n]` is the initial position and `pv[0]` the
position after all `n` moves. -/
theorem extractPV_positions (g : Game σ) (init : σ) (moves tl : List Int) (i : Nat)
    (hm : ∀ x ∈ moves, x ≠ -1) (hn : moves.length < 128) (hi : i ≤ moves.length) :
    (extractPV g init (moves ++ -1 :: tl))[moves.length - i]?
      = some (replayFrom g 0 init (moves.take i)) := by
  have hc : countPV (moves ++ -1 :: tl) 0 = moves.length := by
    rw [countPV_sentinel moves tl hm]; omega
  have hlen : (extractLoop g moves.length (moves ++ -1 :: tl) 0 init
      (List.replicate 128 init)).2.length = 128 := by
    rw [extractLoop_length]; simp
  simp only [extractPV, hc]
  by_cases hin : i = moves.length
  · subst hin
    rw [Nat.sub_self, List.take_length, extractLoop_state g _ moves tl hm]
    exact List.getElem?_set_self (by omega)
  · rw [List.getElem?_set_ne (by omega)]
    have := extractLoop_get g moves.length moves tl hm 0 init (List.replicate 128 init) i
      (by omega) (by simpa using hn) (by omega)
    simpa using this

/-- An instance with the two moves `0, 0` from `twoPly`, read at `pv[0]`. -/
theorem extractPV_positions_witness :
    (∀ x ∈ ([0, 0] : List Int), x ≠ -1) ∧ ([0, 0] : List Int).length < 128 ∧
    2 ≤ ([0, 0] : List Int).length ∧
    (extractPV (treeGame 2) twoPly ([0, 0] ++ -1 :: []))[([0, 0] : List Int).length - 2]?
      = some (replayFrom (treeGame 2) 0 twoPly (([0, 0] : List Int).take 2)) :=
  ⟨by decide, by decide, by decide,
    extractPV_positions (treeGame 2) twoPly [0, 0] [] 2 (by decide) (by decide) (by decide)⟩

/-! ## The driver's loop over the positions -/

theorem Counters.reset_eq (k : Counters) : k.reset = Counters.zero := rfl

theorem driverColor_cases (i : Nat) : driverColor i = 1 ∨ driverColor i = -1 := by
  unfold driverColor
  split
  · exact Or.inl rfl
  · exact Or.inr rfl

/-- C12, counterexample: for the terminal position of value `10` at an even
index (color `-1`) negamax returns `-10`, the value for the mover, and the
driver reports `10`. -/
theorem driver_reports_counterexample :
    driverColor 0 = -1 ∧
    (negamax (treeGame 1) (leaf 10) 33 (driverColor 0) Counters.zero).1 = -10 ∧
    (driverStep (treeGame 1) 40 1 (leaf 10) 0 Counters.zero).map (fun r => r.1.value)
      = some 10 ∧
    (driverStep (treeGame 1) 40 1 (leaf 10) 0 Counters.zero).map (fun r => r.1.value)
      ≠ some (negamax (treeGame 1) (leaf 10) 33 (driverColor 0) Counters.zero).1 := by
  decide

/-- C12, amended: with static values of absolute value below `INT_MAX`, for the
position `s = pv[i]` the driver reports `color * score`, where `color` is `+1`
for odd `i` and `-1` for even `i` and `score` is what the selected
negamax-family engine (selector `1`, `2` or `4`) returned for
`(s, depth 33, color)`, with the window `(-200, 200)` for alpha-beta and
negascout, from zeroed counters: the returned score when `color = +1` and its
negation when `color = -1`. -/
theorem driver_reports_color_times_score (g : Game σ)
    (hv : ∀ st, -INT_MAX < g.value st ∧ g.value st < INT_MAX) (fuel : Nat) (s : σ) (i : Nat)
    (k : Counters) :
    (driverStep g fuel 1 s i k).map (fun r => r.1.value)
      = some (driverColor i * (negamax g s 33 (driverColor i) Counters.zero).1) ∧
    (driverStep g fuel 2 s i k).map (fun r => r.1.value)
      = some (driverColor i * (negamax_ab g s 33 (-200) 200 (driverColor i) Counters.zero).1) ∧
    (driverStep g fuel 4 s i k).map (fun r => r.1.value)
      = some (driverColor i * (negascout g s 33 (-200) 200 (driverColor i) Counters.zero).1) := by
  have hc := driverColor_cases i
  have h1 : INT_MAX = 2147483647 := rfl
  have hV := negamaxV_bounds g hv s 33 (driverColor i) hc
  have hN : (negamax g s 33 (driverColor i) Counters.zero).1 = negamaxV g s 33 (driverColor i) :=
    negamax_fst g 33 s _ _
  have hA := negamax_ab_spec g hv 33 s (-200) 200 (driverColor i) Counters.zero hc
    (by omega) (by omega) (by omega)
  have hS := negascout_spec g hv 33 s (-200) 200 (driverColor i) Counters.zero hc
    (by omega) (by omega) (by omega)
  simp only [WindowSpec] at hA hS
  refine ⟨?_, ?_, ?_⟩
  · simp only [driverStep, runAlgorithm, Counters.reset_eq, if_true, Option.map_some']
    rw [mul32_color _ _ hc (by omega) (by omega)]
  · have h21 : ¬ ((2 : Int) = 1) := by decide
    simp only [driverStep, runAlgorithm, Counters.reset_eq, h21, if_false, if_true,
      Option.map_some']
    rw [mul32_color _ _ hc (by omega) (by omega)]
  · have h41 : ¬ ((4 : Int) = 1) := by decide
    have h42 : ¬ ((4 : Int) = 2) := by decide
    have h43 : ¬ ((4 : Int) = 3) := by decide
    simp only [driverStep, runAlgorithm, Counters.reset_eq, h41, h42, h43, if_false, if_true,
      Option.map_some']
    rw [mul32_color _ _ hc (by omega) (by omega)]

/-- An instance on the bounded game, for `twoPly` at index `0`. -/
theorem driver_reports_color_times_score_witness :
    (∀ st, -INT_MAX < (boundedTreeGame 2).value st ∧ (boundedTreeGame 2).value st < INT_MAX) ∧
    (driverStep (boundedTreeGame 2) 40 1 twoPly 0 Counters.zero).map (fun r => r.1.value)
      = some (driverColor 0 * (negamax (boundedTreeGame 2) twoPly 33 (driverColor 0)
          Counters.zero).1) :=
  ⟨boundedTreeGame_values 2,
    (driver_reports_color_times_score (boundedTreeGame 2) (boundedTreeGame_values 2) 40 twoPly 0
      Counters.zero).1⟩

/-- C13, the code at the failing input: with the selector `0` (the default) no
engine is invoked, the reported value is `0` and both counters stay at `0`;
plain negamax runs for the selector `1`, alpha-beta for `2`, scout for `3` and
negascout for `4`. On `oneMove` the selector `0` reports `(0, 0, 0)` where
negamax reports the value `5` with two expanded nodes. -/
theorem driver_selector_shifted (g : Game σ) (fuel : Nat) (s : σ) (i : Nat) (color : Int)
    (k : Counters) :
    driverStep g fuel 0 s i k = some (⟨0, 0, 0⟩, Counters.zero) ∧
    runAlgorithm g fuel 0 s color k = some (0, k) ∧
    runAlgorithm g fuel 1 s color k = some (negamax g s 33 color k) ∧
    runAlgorithm g fuel 2 s color k = some (negamax_ab g s 33 (-200) 200 color k) ∧
    runAlgorithm g fuel 3 s color k = scout g fuel s 33 color k ∧
    runAlgorithm g fuel 4 s color k = some (negascout g s 33 (-200) 200 color k) ∧
    driverStep (treeGame 2) 40 0 oneMove 1 Counters.zero = some (⟨0, 0, 0⟩, Counters.zero) ∧
    driverStep (treeGame 2) 40 1 oneMove 1 Counters.zero = some (⟨5, 2, 1⟩, ⟨2, 1⟩) := by
  refine ⟨?_, ?_, ?_, ?_, ?_, ?_, by decide, by decide⟩
  · have h0 : mul32 (driverColor i) 0 = 0 := by simp [mul32, wrap32]
    simp [driverStep, runAlgorithm, Counters.reset_eq, h0, Counters.zero]
  · simp [runAlgorithm]
  · simp [runAlgorithm]
  · simp [runAlgorithm]
  · simp [runAlgorithm]
  · simp [runAlgorithm]

/-! ## The counters -/

theorem Counters.add_add (k : Counters) (a b c d : Nat) :
    (k.add a b).add c d = k.add (a + c) (b + d) := by
  simp only [Counters.add, Counters.mk.injEq]
  constructor <;> omega

theorem Counters.add_valid (k : Counters) (a b : Nat) : (k.add a b).valid := by
  simp only [Counters.add, Counters.valid]
  constructor <;> omega

theorem Counters.add_zero (k : Counters) (h : k.valid) : k.add 0 0 = k := by
  obtain ⟨h1, h2⟩ := h
  cases k
  simp only [Counters.add, Counters.mk.injEq] at *
  constructor <;> omega

theorem Counters.incExpanded_eq (k : Counters) (h : k.valid) : k.incExpanded = k.add 1 0 := by
  obtain ⟨h1, h2⟩ := h
  cases k
  simp only [Counters.incExpanded, Counters.add, Counters.mk.injEq] at *
  exact ⟨trivial, by omega⟩

theorem Counters.incGenerated_eq (k : Counters) (h : k.valid) : k.incGenerated = k.add 0 1 := by
  obtain ⟨h1, h2⟩ := h
  cases k
  simp only [Counters.incGenerated, Counters.add, Counters.mk.injEq] at *
  exact ⟨by omega, trivial⟩

theorem Counters.zero_valid : Counters.zero.valid := by
  simp [Counters.zero, Counters.valid]

/-- The loop of `negamax` adds to both counters the number of moves generated
below it. -/
theorem negamaxLoop_counters (g : Game σ) (recur : σ → Counters → Int × Counters)
    (F : σ → Nat)
    (hrec : ∀ st k, k.valid → (recur st k).2 = k.add (F st + 1) (F st)) (s : σ) (p : Bool)
    (l : List Nat) :
    ∀ (alpha : Int) (nm : Bool) (k : Counters), k.valid →
      (negamaxLoop g recur s p l alpha nm k).2.2
        = k.add (((kidsOf g s p l).map (fun ch => F ch + 1)).sum)
            (((kidsOf g s p l).map (fun ch => F ch + 1)).sum) := by
  induction l with
  | nil =>
    intro alpha nm k hk
    simp [negamaxLoop, kidsOf_nil, Counters.add_zero k hk]
  | cons pos rest ih =>
    intro alpha nm k hk
    by_cases ho : g.outflank s p pos = true
    · simp only [negamaxLoop, ho, if_true, kidsOf_cons_legal g s p pos rest ho, List.map_cons,
        List.sum_cons]
      have hg : k.incGenerated.valid := by
        rw [Counters.incGenerated_eq k hk]; exact Counters.add_valid _ _ _
      have hr := hrec (g.move s p pos) k.incGenerated hg
      have hrv : (recur (g.move s p pos) k.incGenerated).2.valid := by
        rw [hr]; exact Counters.add_valid _ _ _
      rw [ih _ _ _ hrv, hr, Counters.incGenerated_eq k hk, Counters.add_add, Counters.add_add]
      congr 1 <;> omega
    · have ho' : g.outflank s p pos = false := by simpa using ho
      simp only [negamaxLoop, ho', Bool.false_eq_true, if_false,
        kidsOf_cons_illegal g s p pos rest ho']
      exact ih alpha nm k hk

/-- The counters after `negamax`: `negamaxGenerated + 1` more calls and
`negamaxGenerated` more generated moves, modulo `2^32`. -/
theorem negamax_counters (g : Game σ) (d : Nat) :
    ∀ (s : σ) (c : Int) (k : Counters), k.valid →
      (negamax g s d c k).2 = k.add (negamaxGenerated g s d c + 1) (negamaxGenerated g s d c) := by
  induction d with
  | zero =>
    intro s c k hk
    simp [negamax, negamaxGenerated, Counters.incExpanded_eq k hk]
  | succ d ih =>
    intro s c k hk
    by_cases ht : g.terminal s = true
    · simp [negamax, negamaxGenerated, ht, Counters.incExpanded_eq k hk]
    · have ht' : g.terminal s = false := by simpa using ht
      have hk1 : k.incExpanded.valid := by
        rw [Counters.incExpanded_eq k hk]; exact Counters.add_valid _ _ _
      have hl := negamaxLoop_counters g (fun st kk => negamax g st d (neg32 c) kk)
        (fun st => negamaxGenerated g st d (neg32 c)) (fun st kk hkk => ih st (neg32 c) kk hkk) s
        (decide (c = 1)) (List.range g.DIM) (neg32 INT_MAX) true k.incExpanded hk1
      have hf := (negamaxLoop_fst g (fun st kk => negamax g st d (neg32 c) kk)
        (fun st => negamaxV g st d (neg32 c)) (fun st kk => negamax_fst g d st (neg32 c) kk) s
        (decide (c = 1)) (List.range g.DIM) (neg32 INT_MAX) true k.incExpanded).2
      rw [negamax, negamaxGenerated]
      simp only [ht', Bool.false_eq_true, if_false, hf, Bool.true_and]
      by_cases he : (kidsOf g s (decide (c = 1)) (List.range g.DIM)).isEmpty = true
      · have he' : (legalChildren g s (decide (c = 1))).isEmpty = true := he
        have hnil : kidsOf g s (decide (c = 1)) (List.range g.DIM) = [] := by
          simpa using he
        simp only [he, he', if_true]
        have hlv : (negamaxLoop g (fun st kk => negamax g st d (neg32 c) kk) s (decide (c = 1))
            (List.range g.DIM) (neg32 INT_MAX) true k.incExpanded).2.2.valid := by
          rw [hl]; exact Counters.add_valid _ _ _
        have hgv := Counters.incGenerated_eq _ hlv
        rw [ih _ _ _ (by rw [hgv]; exact Counters.add_valid _ _ _), hgv, hl, hnil,
          Counters.incExpanded_eq k hk]
        simp only [List.map_nil, List.sum_nil, Counters.add_add]
        congr 1 <;> omega
      · have he1 : (kidsOf g s (decide (c = 1)) (List.range g.DIM)).isEmpty = false := by
          simpa using he
        have he' : (legalChildren g s (decide (c = 1))).isEmpty = false := he1
        simp only [he1, he', Bool.false_eq_true, if_false]
        rw [hl, Counters.incExpanded_eq k hk, Counters.add_add]
        congr 1
        · simp only [legalChildren]; omega
        · simp only [legalChildren]; omega

/-- The loop of alpha-beta adds the same number to both counters, at most the
number of moves plain negamax generates below the same position, and its
result does not otherwise depend on the counters. -/
theorem negamax_abLoop_counters (g : Game σ)
    (recur : σ → Int → Int → Counters → Int × Counters) (F : σ → Nat)
    (hrec : ∀ st a1 b1, ∃ v G, G ≤ F st ∧
      ∀ k : Counters, k.valid → recur st a1 b1 k = (v, k.add (G + 1) G))
    (s : σ) (p : Bool) (b : Int) (l : List Nat) :
    ∀ (value alpha : Int) (nm : Bool), ∃ v1 a1 nm1 S,
      S ≤ ((kidsOf g s p l).map (fun ch => F ch + 1)).sum ∧
      ∀ k : Counters, k.valid → negamax_abLoop g recur s p b l value alpha nm k = (v1, a1, nm1, k.add S S) := by
  induction l with
  | nil =>
    intro value alpha nm
    exact ⟨value, alpha, nm, 0, Nat.zero_le _, fun k hk => by
      simp [negamax_abLoop, Counters.add_zero k hk]⟩
  | cons pos rest ih =>
    intro value alpha nm
    by_cases ho : g.outflank s p pos = true
    · obtain ⟨v, G, hG, hr⟩ := hrec (g.move s p pos) (neg32 b) (neg32 alpha)
      have hstep : ∀ k : Counters, k.valid →
          recur (g.move s p pos) (neg32 b) (neg32 alpha) k.incGenerated
            = (v, k.add (G + 1) (G + 1)) := by
        intro k hk
        rw [Counters.incGenerated_eq k hk, hr _ (Counters.add_valid _ _ _), Counters.add_add]
        congr 2 <;> omega
      rw [kidsOf_cons_legal g s p pos rest ho]
      simp only [List.map_cons, List.sum_cons]
      by_cases hcut : max alpha (max value (neg32 v)) ≥ b
      · refine ⟨max value (neg32 v), max alpha (max value (neg32 v)), false, G + 1, by omega,
          fun k hk => ?_⟩
        simp only [negamax_abLoop, ho, if_true, hstep k hk, hcut]
      · obtain ⟨v1, a1, nm1, S, hS, hloop⟩ :=
          ih (max value (neg32 v)) (max alpha (max value (neg32 v))) false
        refine ⟨v1, a1, nm1, G + 1 + S, by omega, fun k hk => ?_⟩
        simp only [negamax_abLoop, ho, if_true, hstep k hk, hcut, if_false]
        rw [hloop _ (Counters.add_valid _ _ _), Counters.add_add]
    · have ho' : g.outflank s p pos = false := by simpa using ho
      rw [kidsOf_cons_illegal g s p pos rest ho']
      obtain ⟨v1, a1, nm1, S, hS, hloop⟩ := ih value alpha nm
      refine ⟨v1, a1, nm1, S, hS, fun k hk => ?_⟩
      simp only [negamax_abLoop, ho', Bool.false_eq_true, if_false]
      exact hloop k hk

/-- Alpha-beta makes one call more than it generates moves, generates at most
as many moves as plain negamax, and its score does not depend on the
counters. -/
theorem negamax_ab_counters (g : Game σ) (d : Nat) :
    ∀ (s : σ) (a b c : Int), ∃ v G, G ≤ negamaxGenerated g s d c ∧
      ∀ k : Counters, k.valid → negamax_ab g s d a b c k = (v, k.add (G + 1) G) := by
  induction d with
  | zero =>
    intro s a b c
    exact ⟨mul32 c (g.value s), 0, Nat.zero_le _, fun k hk => by
      simp [negamax_ab, Counters.incExpanded_eq k hk]⟩
  | succ d ih =>
    intro s a b c
    by_cases ht : g.terminal s = true
    · exact ⟨mul32 c (g.value s), 0, Nat.zero_le _, fun k hk => by
        simp [negamax_ab, ht, Counters.incExpanded_eq k hk]⟩
    · have ht' : g.terminal s = false := by simpa using ht
      obtain ⟨v1, a1, nm1, S, hS, hloop⟩ := negamax_abLoop_counters g
        (fun st a2 b2 kk => negamax_ab g st d a2 b2 (neg32 c) kk)
        (fun st => negamaxGenerated g st d (neg32 c)) (fun st a2 b2 => ih st a2 b2 (neg32 c))
        s (decide (c = 1)) b (List.range g.DIM) (neg32 INT_MAX) a true
      have hflag := negamax_abLoop_flag g
        (fun st a2 b2 kk => negamax_ab g st d a2 b2 (neg32 c) kk) s (decide (c = 1)) b
        (List.range g.DIM) (neg32 INT_MAX) a true Counters.zero
      rw [hloop _ Counters.zero_valid] at hflag
      simp only [Bool.true_and] at hflag
      by_cases he : (kidsOf g s (decide (c = 1)) (List.range g.DIM)).isEmpty = true
      · have he' : (legalChildren g s (decide (c = 1))).isEmpty = true := he
        have hnil : kidsOf g s (decide (c = 1)) (List.range g.DIM) = [] := by simpa using he
        have hS0 : S = 0 := by rw [hnil] at hS; simpa using hS
        obtain ⟨v2, G2, hG2, h2⟩ := ih s (neg32 b) (neg32 a1) (neg32 c)
        refine ⟨max v1 (neg32 v2), G2 + 1, ?_, fun k hk => ?_⟩
        · rw [negamaxGenerated]
          simp only [ht', Bool.false_eq_true, if_false, he', if_true]
          omega
        · have hk1 : k.incExpanded.valid := by
            rw [Counters.incExpanded_eq k hk]; exact Counters.add_valid _ _ _
          rw [negamax_ab]
          simp only [ht', Bool.false_eq_true, if_false, hloop _ hk1, hflag, he, if_true]
          rw [Counters.incGenerated_eq _ (Counters.add_valid _ _ _),
            h2 _ (Counters.add_valid _ _ _), Counters.incExpanded_eq k hk, hS0]
          simp only [Counters.add_add]
          congr 2 <;> omega
      · have he1 : (kidsOf g s (decide (c = 1)) (List.range g.DIM)).isEmpty = false := by
          simpa using he
        have he' : (legalChildren g s (decide (c = 1))).isEmpty = false := he1
        refine ⟨v1, S, ?_, fun k hk => ?_⟩
        · rw [negamaxGenerated]
          simp only [ht', Bool.false_eq_true, if_false, he']
          exact hS
        · have hk1 : k.incExpanded.valid := by
            rw [Counters.incExpanded_eq k hk]; exact Counters.add_valid _ _ _
          rw [negamax_ab]
          simp only [ht', Bool.false_eq_true, if_false, hloop _ hk1, hflag, he1]
          rw [Counters.incExpanded_eq k hk, Counters.add_add]
          congr 2 <;> omega

/-! ## A search of more than `2^32` nodes -/

theorem deepGame_kids (p : Bool) : legalChildren deepGame 2 p = [2, 2] := by
  cases p <;> rfl

theorem negamaxGenerated_succ_nil (g : Game σ) (s : σ) (d : Nat) (c : Int)
    (ht : g.terminal s = false) (hk : legalChildren g s (decide (c = 1)) = []) :
    negamaxGenerated g s (d + 1) c = negamaxGenerated g s d (neg32 c) + 1 := by
  rw [negamaxGenerated]
  simp only [ht, Bool.false_eq_true, if_false, hk, List.isEmpty_nil, if_true]

theorem negamaxGenerated_succ_pair (g : Game σ) (s : σ) (d : Nat) (c : Int) (x y : σ)
    (ht : g.terminal s = false) (hk : legalChildren g s (decide (c = 1)) = [x, y]) :
    negamaxGenerated g s (d + 1) c
      = negamaxGenerated g x d (neg32 c) + 1 + (negamaxGenerated g y d (neg32 c) + 1) := by
  rw [negamaxGenerated]
  simp only [ht, Bool.false_eq_true, if_false, hk, List.isEmpty_cons, List.map_cons,
    List.map_nil, List.sum_cons, List.sum_nil]
  omega

theorem negamaxGenerated_terminal (g : Game σ) (s : σ) (d : Nat) (c : Int)
    (ht : g.terminal s = true) : negamaxGenerated g s d c = 0 := by
  cases d with
  | zero => rfl
  | succ d => rw [negamaxGenerated]; simp only [ht, if_true]

/-- From position `2` of `deepGame` plain negamax at depth `n` generates
`2^(n+1) - 2` moves. -/
theorem negamaxGenerated_deep (n : Nat) :
    ∀ c : Int, negamaxGenerated deepGame 2 n c + 2 = 2 ^ (n + 1) := by
  induction n with
  | zero => intro c; simp [negamaxGenerated]
  | succ n ih =>
    intro c
    have h := ih (neg32 c)
    rw [negamaxGenerated_succ_pair deepGame 2 n c 2 2 rfl (deepGame_kids _), pow_succ]
    omega

/-- From position `3` of `deepGame`, where the first player must pass, plain
negamax at depth `n + 2` generates `2^(n+2) - 1` moves. -/
theorem negamaxGenerated_deep_pass (n : Nat) (c : Int) (h1 : decide (c = 1) = true)
    (h2 : decide (neg32 c = 1) = false) :
    negamaxGenerated deepGame 3 (n + 2) c + 1 = 2 ^ (n + 2) := by
  have hk1 : legalChildren deepGame 3 (decide (c = 1)) = [] := by rw [h1]; rfl
  have hk2 : legalChildren deepGame 3 (decide (neg32 c = 1)) = [2, 2] := by rw [h2]; rfl
  have h := negamaxGenerated_deep n (neg32 (neg32 c))
  rw [negamaxGenerated_succ_nil deepGame 3 (n + 1) c rfl hk1,
    negamaxGenerated_succ_pair deepGame 3 n (neg32 c) 2 2 rfl hk2, pow_succ]
  omega

/-- From position `0` of `deepGame` plain negamax at depth `n + 1` generates
`2^(n+1)` moves. -/
theorem negamaxGenerated_deep_root (n : Nat) (c : Int) (h1 : decide (c = 1) = true) :
    negamaxGenerated deepGame 0 (n + 1) c = 2 ^ (n + 1) := by
  have hk : legalChildren deepGame 0 (decide (c = 1)) = [1, 2] := by rw [h1]; rfl
  have h := negamaxGenerated_deep n (neg32 c)
  rw [negamaxGenerated_succ_pair deepGame 0 n c 1 2 rfl hk,
    negamaxGenerated_terminal deepGame 1 n (neg32 c) rfl]
  omega

theorem negamaxGenerated_deep_pass_eq (d n : Nat) (c : Int) (N : Nat) (hd : d = n + 2)
    (h1 : decide (c = 1) = true) (h2 : decide (neg32 c = 1) = false)
    (hN : 2 ^ (n + 2) = N + 1) : negamaxGenerated deepGame 3 d c = N := by
  subst hd
  have := negamaxGenerated_deep_pass n c h1 h2
  omega

theorem negamaxGenerated_deep_root_eq (d n : Nat) (c : Int) (N : Nat) (hd : d = n + 1)
    (h1 : decide (c = 1) = true) (hN : 2 ^ (n + 1) = N) :
    negamaxGenerated deepGame 0 d c = N := by
  subst hd
  rw [negamaxGenerated_deep_root n c h1, hN]

/-- The counters plain negamax leaves when started from zero, given the number
of moves it generates. -/
theorem negamax_counters_zero (g : Game σ) (s : σ) (d : Nat) (c : Int) (N : Nat)
    (h : negamaxGenerated g s d c = N) :
    (negamax g s d c Counters.zero).2 = Counters.zero.add (N + 1) N := by
  rw [negamax_counters g d s c Counters.zero Counters.zero_valid, h]

theorem counters_wrapped (a : Counters) (ha : a = ⟨0, 4294967295⟩) :
    a.expanded ≠ a.generated + 1 := by
  subst ha; decide

theorem counters_not_le (a b : Counters) (ha : a = ⟨2, 1⟩) (hb : b = ⟨1, 0⟩) :
    ¬ (a.expanded ≤ b.expanded) ∧ ¬ (a.generated ≤ b.generated) := by
  subst ha hb; decide

/-- C17, counterexample: from position `3` of `deepGame` at depth `32` plain
negamax makes exactly `2^32` calls and generates `2^32 - 1` moves, so it ends
with `expanded = 0` and `generated = 4294967295`. -/
theorem counters_differ_by_one_counterexample :
    (negamax deepGame 3 32 1 Counters.zero).2 = ⟨0, 4294967295⟩ ∧
    (negamax deepGame 3 32 1 Counters.zero).2.expanded
      ≠ (negamax deepGame 3 32 1 Counters.zero).2.generated + 1 :=
  have hG : negamaxGenerated deepGame 3 32 1 = 4294967295 :=
    negamaxGenerated_deep_pass_eq 32 30 1 4294967295 rfl rfl rfl (by norm_num)
  have h : (negamax deepGame 3 32 1 Counters.zero).2 = ⟨0, 4294967295⟩ :=
    (negamax_counters_zero deepGame 3 32 1 4294967295 hG).trans rfl
  ⟨h, counters_wrapped _ h⟩

/-- C17, amended: for plain negamax and for alpha-beta negamax, every
top-level call started from zeroed counters ends with
`expanded = (generated + 1) mod 2^32`: every generated move, the synthetic pass
move included, is followed by exactly one recursive call, and the counters are
32-bit. So `expanded = generated + 1` unless `generated = 2^32 - 1`. -/
theorem counters_differ_by_one (g : Game σ) (s : σ) (d : Nat) (alpha beta c : Int) :
    (negamax g s d c Counters.zero).2.expanded
      = ((negamax g s d c Counters.zero).2.generated + 1) % 4294967296 ∧
    (negamax_ab g s d alpha beta c Counters.zero).2.expanded
      = ((negamax_ab g s d alpha beta c Counters.zero).2.generated + 1) % 4294967296 ∧
    ((negamax g s d c Counters.zero).2.generated ≠ 4294967295 →
      (negamax g s d c Counters.zero).2.expanded
        = (negamax g s d c Counters.zero).2.generated + 1) ∧
    ((negamax_ab g s d alpha beta c Counters.zero).2.generated ≠ 4294967295 →
      (negamax_ab g s d alpha beta c Counters.zero).2.expanded
        = (negamax_ab g s d alpha beta c Counters.zero).2.generated + 1) := by
  have h1 := negamax_counters g d s c Counters.zero Counters.zero_valid
  obtain ⟨v, G, _, h2⟩ := negamax_ab_counters g d s alpha beta c
  have h2' := h2 Counters.zero Counters.zero_valid
  rw [h1, h2']
  simp only [Counters.add, Counters.zero]
  refine ⟨by omega, by omega, fun h => by omega, fun h => by omega⟩

/-- C18, counterexample: from position `0` of `deepGame` at depth `33`, plain
negamax makes `2^33 + 1` calls and generates `2^33` moves, so its counters end
at `expanded = 1` and `generated = 0`; alpha-beta with the window `(-200, 200)`
cuts off after the first move and ends with `expanded = 2` and
`generated = 1`. -/
theorem pruning_counts_counterexample :
    (negamax deepGame 0 33 1 Counters.zero).2 = ⟨1, 0⟩ ∧
    (negamax_ab deepGame 0 33 (-200) 200 1 Counters.zero).2 = ⟨2, 1⟩ ∧
    ¬ ((negamax_ab deepGame 0 33 (-200) 200 1 Counters.zero).2.expanded
        ≤ (negamax deepGame 0 33 1 Counters.zero).2.expanded) ∧
    ¬ ((negamax_ab deepGame 0 33 (-200) 200 1 Counters.zero).2.generated
        ≤ (negamax deepGame 0 33 1 Counters.zero).2.generated) :=
  have hG : negamaxGenerated deepGame 0 33 1 = 8589934592 :=
    negamaxGenerated_deep_root_eq 33 32 1 8589934592 rfl rfl (by norm_num)
  have h1 : (negamax deepGame 0 33 1 Counters.zero).2 = ⟨1, 0⟩ :=
    (negamax_counters_zero deepGame 0 33 1 8589934592 hG).trans rfl
  have h2 : (negamax_ab deepGame 0 33 (-200) 200 1 Counters.zero).2 = ⟨2, 1⟩ := by decide
  ⟨h1, h2, counters_not_le _ _ h2 h1⟩

/-- C18, amended: whenever the plain negamax search of the position makes fewer
than `2^32` calls (its counters do not wrap around), for every window the
expanded count and the generated count produced by alpha-beta negamax from
zeroed counters are each at most the corresponding count produced by plain
negamax on the same position, depth and color. -/
theorem pruning_never_costs_nodes (g : Game σ) (s : σ) (d : Nat) (alpha beta c : Int)
    (h : negamaxGenerated g s d c + 1 < 4294967296) :
    (negamax_ab g s d alpha beta c Counters.zero).2.expanded
      ≤ (negamax g s d c Counters.zero).2.expanded ∧
    (negamax_ab g s d alpha beta c Counters.zero).2.generated
      ≤ (negamax g s d c Counters.zero).2.generated := by
  have h1 := negamax_counters g d s c Counters.zero Counters.zero_valid
  obtain ⟨v, G, hG, h2⟩ := negamax_ab_counters g d s alpha beta c
  have h2' := h2 Counters.zero Counters.zero_valid
  rw [h1, h2']
  simp only [Counters.add, Counters.zero]
  constructor <;> omega

/-- An instance on `twoPly` with the window `(0, 1)`, where plain negamax
generates three moves. -/
theorem pruning_never_costs_nodes_witness :
    negamaxGenerated (treeGame 2) twoPly 2 1 + 1 < 4294967296 ∧
    (negamax_ab (treeGame 2) twoPly 2 0 1 1 Counters.zero).2.expanded
      ≤ (negamax (treeGame 2) twoPly 2 1 Counters.zero).2.expanded ∧
    (negamax_ab (treeGame 2) twoPly 2 0 1 1 Counters.zero).2.generated
      ≤ (negamax (treeGame 2) twoPly 2 1 Counters.zero).2.generated :=
  ⟨by decide, pruning_never_costs_nodes (treeGame 2) twoPly 2 0 1 1 (by decide)⟩

/-! ## The counters of negascout and scout -/

/-- The search of one child by negascout (probe and re-search included) adds
fixed numbers to the counters and its score does not depend on them. -/
theorem negascoutChild_counters (recur : σ → Int → Int → Counters → Int × Counters)
    (hrec : ∀ st a1 b1, ∃ v E G, 1 ≤ E ∧
      ∀ k : Counters, k.valid → recur st a1 b1 k = (v, k.add E G))
    (child : σ) (alpha b : Int) (first : Bool) :
    ∃ sc E G, 1 ≤ E ∧
      ∀ k : Counters, k.valid → negascoutChild recur child alpha b first k = (sc, k.add E G) := by
  cases first with
  | true =>
    obtain ⟨v, E, G, hE, hr⟩ := hrec child (neg32 b) (neg32 alpha)
    exact ⟨neg32 v, E, G, hE, fun k hk => by simp only [negascoutChild, if_true, hr k hk]⟩
  | false =>
    obtain ⟨v, E, G, hE, hr⟩ := hrec child (sub32 (neg32 alpha) 1) (neg32 alpha)
    by_cases hin : alpha < neg32 v ∧ neg32 v < b
    · obtain ⟨v2, E2, G2, _, hr2⟩ := hrec child (neg32 b) (neg32 (neg32 v))
      refine ⟨neg32 v2, E + E2, G + G2, by omega, fun k hk => ?_⟩
      simp only [negascoutChild, Bool.false_eq_true, if_false, hr k hk, hin, and_self, if_true,
        hr2 _ (Counters.add_valid _ _ _), Counters.add_add]
    · refine ⟨neg32 v, E, G, hE, fun k hk => ?_⟩
      simp only [negascoutChild, Bool.false_eq_true, if_false, hr k hk, hin]

theorem negascoutLoop_counters (g : Game σ)
    (recur : σ → Int → Int → Counters → Int × Counters)
    (hrec : ∀ st a1 b1, ∃ v E G, 1 ≤ E ∧
      ∀ k : Counters, k.valid → recur st a1 b1 k = (v, k.add E G))
    (s : σ) (p : Bool) (b : Int) (l : List Nat) :
    ∀ (score alpha : Int) (nm first : Bool), ∃ sc a1 nm1 f1 E G,
      ∀ k : Counters, k.valid →
        negascoutLoop g recur s p b l score alpha nm first k = (sc, a1, nm1, f1, k.add E G) := by
  induction l with
  | nil =>
    intro score alpha nm first
    exact ⟨score, alpha, nm, first, 0, 0, fun k hk => by
      simp [negascoutLoop, Counters.add_zero k hk]⟩
  | cons pos rest ih =>
    intro score alpha nm first
    by_cases ho : g.outflank s p pos = true
    · obtain ⟨sc, E, G, _, hc⟩ :=
        negascoutChild_counters recur hrec (g.move s p pos) alpha b first
      have hstep : ∀ k : Counters, k.valid →
          negascoutChild recur (g.move s p pos) alpha b first k.incGenerated
            = (sc, k.add E (G + 1)) := by
        intro k hk
        rw [Counters.incGenerated_eq k hk, hc _ (Counters.add_valid _ _ _), Counters.add_add]
        congr 2 <;> omega
      by_cases hcut : max alpha sc ≥ b
      · refine ⟨sc, max alpha sc, false, false, E, G + 1, fun k hk => ?_⟩
        simp only [negascoutLoop, ho, if_true, hstep k hk, hcut]
      · obtain ⟨sc1, a1, nm1, f1, E1, G1, hloop⟩ := ih sc (max alpha sc) false false
        refine ⟨sc1, a1, nm1, f1, E + E1, G + 1 + G1, fun k hk => ?_⟩
        simp only [negascoutLoop, ho, if_true, hstep k hk, hcut, if_false]
        rw [hloop _ (Counters.add_valid _ _ _), Counters.add_add]
    · have ho' : g.outflank s p pos = false := by simpa using ho
      obtain ⟨sc1, a1, nm1, f1, E1, G1, hloop⟩ := ih score alpha nm first
      refine ⟨sc1, a1, nm1, f1, E1, G1, fun k hk => ?_⟩
      simp only [negascoutLoop, ho', Bool.false_eq_true, if_false]
      exact hloop k hk

/-- Negascout adds fixed numbers to the counters, at least one call, and its
score does not depend on them. -/
theorem negascout_counters (g : Game σ) (d : Nat) :
    ∀ (s : σ) (a b c : Int), ∃ v E G, 1 ≤ E ∧
      ∀ k : Counters, k.valid → negascout g s d a b c k = (v, k.add E G) := by
  induction d with
  | zero =>
    intro s a b c
    exact ⟨mul32 c (g.value s), 1, 0, le_refl _, fun k hk => by
      simp [negascout, Counters.incExpanded_eq k hk]⟩
  | succ d ih =>
    intro s a b c
    by_cases ht : g.terminal s = true
    · exact ⟨mul32 c (g.value s), 1, 0, le_refl _, fun k hk => by
        simp [negascout, ht, Counters.incExpanded_eq k hk]⟩
    · have ht' : g.terminal s = false := by simpa using ht
      obtain ⟨sc1, a1, nm1, f1, E1, G1, hloop⟩ := negascoutLoop_counters g
        (fun st a2 b2 kk => negascout g st d a2 b2 (neg32 c) kk)
        (fun st a2 b2 => ih st a2 b2 (neg32 c))
        s (decide (c = 1)) b (List.range g.DIM) (neg32 INT_MAX) a true true
      cases nm1 with
      | true =>
        obtain ⟨v2, E2, G2, _, h2⟩ := ih s (neg32 b) (neg32 a1) (neg32 c)
        refine ⟨max a1 (neg32 v2), 1 + E1 + E2, G1 + 1 + G2, by omega, fun k hk => ?_⟩
        have hk1 : k.incExpanded.valid := by
          rw [Counters.incExpanded_eq k hk]; exact Counters.add_valid _ _ _
        rw [negascout]
        simp only [ht', Bool.false_eq_true, if_false, hloop _ hk1, if_true]
        rw [Counters.incGenerated_eq _ (Counters.add_valid _ _ _),
          h2 _ (Counters.add_valid _ _ _), Counters.incExpanded_eq k hk]
        simp only [Counters.add_add]
        congr 2; omega
      | false =>
        refine ⟨a1, 1 + E1, G1, by omega, fun k hk => ?_⟩
        have hk1 : k.incExpanded.valid := by
          rw [Counters.incExpanded_eq k hk]; exact Counters.add_valid _ _ _
        rw [negascout]
        simp only [ht', Bool.false_eq_true, if_false, hloop _ hk1]
        rw [Counters.incExpanded_eq k hk, Counters.add_add]
        congr 2; omega

/-- The retest of a later child by `scout` either returns nothing or adds fixed
numbers to the counters, with a score that does not depend on them. -/
theorem scoutRetest_counters (recur : σ → Counters → Option (Int × Counters))
    (test : σ → Int → Condition → Option Bool)
    (hrec : ∀ st, (∀ k : Counters, k.valid → recur st k = none) ∨
      ∃ v E G, ∀ k : Counters, k.valid → recur st k = some (v, k.add E G))
    (child : σ) (color score : Int) :
    (∀ k : Counters, k.valid → scoutRetest recur test child color score k = none) ∨
    ∃ sc E G, ∀ k : Counters, k.valid →
      scoutRetest recur test child color score k = some (sc, k.add E G) := by
  by_cases h1 : color = 1
  · subst h1
    have hne : ¬ ((1 : Int) = -1) := by decide
    cases ht : test child score Condition.gt with
    | none =>
      left; intro k _
      unfold scoutRetest
      rw [if_pos rfl, ht]
    | some t =>
      cases t with
      | true =>
        rcases hrec child with hn | ⟨v, E, G, hr⟩
        · left; intro k hk
          unfold scoutRetest
          rw [if_pos rfl, ht]
          show (match recur child k with
            | none => none
            | some (score1, k1) => _) = none
          rw [hn k hk]
        · right
          refine ⟨v, E, G, fun k hk => ?_⟩
          unfold scoutRetest
          rw [if_pos rfl, ht]
          show (match recur child k with
            | none => none
            | some (score1, k1) => _) = _
          rw [hr k hk]
          show (if (1 : Int) = -1 then _ else _) = _
          rw [if_neg hne]
      | false =>
        right
        refine ⟨score, 0, 0, fun k hk => ?_⟩
        unfold scoutRetest
        rw [if_pos rfl, ht]
        show (if (1 : Int) = -1 then _ else _) = _
        rw [if_neg hne, Counters.add_zero k hk]
  · by_cases h2 : color = -1
    · subst h2
      cases ht : test child score Condition.ge with
      | none =>
        left; intro k _
        unfold scoutRetest
        rw [if_neg h1]
        show (if (-1 : Int) = -1 then _ else _) = _
        rw [if_pos rfl, ht]
      | some t =>
        cases t with
        | false =>
          rcases hrec child with hn | ⟨v, E, G, hr⟩
          · left; intro k hk
            unfold scoutRetest
            rw [if_neg h1]
            show (if (-1 : Int) = -1 then _ else _) = _
            rw [if_pos rfl, ht]
            exact hn k hk
          · right
            refine ⟨v, E, G, fun k hk => ?_⟩
            unfold scoutRetest
            rw [if_neg h1]
            show (if (-1 : Int) = -1 then _ else _) = _
            rw [if_pos rfl, ht]
            exact hr k hk
        | true =>
          right
          refine ⟨score, 0, 0, fun k hk => ?_⟩
          unfold scoutRetest
          rw [if_neg h1]
          show (if (-1 : Int) = -1 then _ else _) = _
          rw [if_pos rfl, ht, Counters.add_zero k hk]
    · right
      refine ⟨score, 0, 0, fun k hk => ?_⟩
      unfold scoutRetest
      rw [if_neg h1]
      show (if color = -1 then _ else _) = _
      rw [if_neg h2, Counters.add_zero k hk]

/-- The loop of `scout` either returns nothing or adds fixed numbers to the
counters, with a loop state that does not depend on them. -/
theorem scoutLoop_counters (g : Game σ) (recur : σ → Counters → Option (Int × Counters))
    (test : σ → Int → Condition → Option Bool)
    (hrec : ∀ st, (∀ k : Counters, k.valid → recur st k = none) ∨
      ∃ v E G, ∀ k : Counters, k.valid → recur st k = some (v, k.add E G))
    (s : σ) (color : Int) (p : Bool) (l : List Nat) :
    ∀ (score : Int) (first nm : Bool),
      (∀ k : Counters, k.valid → scoutLoop g recur test s color p l score first nm k = none) ∨
      ∃ sc f1 nm1 E G, ∀ k : Counters, k.valid →
        scoutLoop g recur test s color p l score first nm k = some (sc, f1, nm1, k.add E G) := by
  induction l with
  | nil =>
    intro score first nm
    right
    exact ⟨score, first, nm, 0, 0, fun k hk => by simp [scoutLoop, Counters.add_zero k hk]⟩
  | cons pos rest ih =>
    intro score first nm
    by_cases ho : g.outflank s p pos = true
    · have hchild : (∀ k : Counters, k.valid →
          (if first = true then recur (g.move s p pos) k
            else scoutRetest recur test (g.move s p pos) color score k) = none) ∨
          ∃ sc E G, ∀ k : Counters, k.valid →
            (if first = true then recur (g.move s p pos) k
              else scoutRetest recur test (g.move s p pos) color score k)
              = some (sc, k.add E G) := by
        cases first with
        | true => simpa using hrec (g.move s p pos)
        | false =>
          simpa using scoutRetest_counters recur test hrec (g.move s p pos) color score
      rcases hchild with hn | ⟨sc, E, G, hc⟩
      · left
        intro k hk
        have hg : k.incGenerated.valid := by
          rw [Counters.incGenerated_eq k hk]; exact Counters.add_valid _ _ _
        have := hn _ hg
        cases first with
        | true =>
          simp only [if_true] at this
          simp only [scoutLoop, ho, if_true, this]
        | false =>
          simp only [Bool.false_eq_true, if_false] at this
          simp only [scoutLoop, ho, if_true, Bool.false_eq_true, if_false, this]
      · rcases ih sc false false with hn | ⟨sc1, f1, nm1, E1, G1, hloop⟩
        · left
          intro k hk
          have hg : k.incGenerated.valid := by
            rw [Counters.incGenerated_eq k hk]; exact Counters.add_valid _ _ _
          have := hc _ hg
          cases first with
          | true =>
            simp only [if_true] at this
            simp only [scoutLoop, ho, if_true, this]
            exact hn _ (Counters.add_valid _ _ _)
          | false =>
            simp only [Bool.false_eq_true, if_false] at this
            simp only [scoutLoop, ho, if_true, Bool.false_eq_true, if_false, this]
            exact hn _ (Counters.add_valid _ _ _)
        · right
          refine ⟨sc1, f1, nm1, E + E1, G + 1 + G1, fun k hk => ?_⟩
          have hg : k.incGenerated.valid := by
            rw [Counters.incGenerated_eq k hk]; exact Counters.add_valid _ _ _
          have := hc _ hg
          have hadd : (k.incGenerated.add E G).add E1 G1 = k.add (E + E1) (G + 1 + G1) := by
            rw [Counters.incGenerated_eq k hk, Counters.add_add, Counters.add_add]
            congr 1 <;> omega
          cases first with
          | true =>
            simp only [if_true] at this
            simp only [scoutLoop, ho, if_true, this]
            rw [hloop _ (Counters.add_valid _ _ _), hadd]
          | false =>
            simp only [Bool.false_eq_true, if_false] at this
            simp only [scoutLoop, ho, if_true, Bool.false_eq_true, if_false, this]
            rw [hloop _ (Counters.add_valid _ _ _), hadd]
    · have ho' : g.outflank s p pos = false := by simpa using ho
      rcases ih score first nm with hn | ⟨sc1, f1, nm1, E1, G1, hloop⟩
      · left
        intro k hk
        simp only [scoutLoop, ho', Bool.false_eq_true, if_false]
        exact hn k hk
      · right
        refine ⟨sc1, f1, nm1, E1, G1, fun k hk => ?_⟩
        simp only [scoutLoop, ho', Bool.false_eq_true, if_false]
        exact hloop k hk

/-- A call of `scout` either returns nothing or adds fixed numbers to the
counters, at least one call, with a score that does not depend on them. -/
theorem scout_counters (g : Game σ) (fuel : Nat) :
    ∀ (s : σ) (d : Nat) (c : Int),
      (∀ k : Counters, k.valid → scout g fuel s d c k = none) ∨
      ∃ v E G, 1 ≤ E ∧ ∀ k : Counters, k.valid → scout g fuel s d c k = some (v, k.add E G) := by
  induction fuel with
  | zero => intro s d c; left; intro k _; rfl
  | succ f ih =>
    intro s d c
    by_cases hb : (d == 0 || g.terminal s) = true
    · right
      refine ⟨g.value s, 1, 0, le_refl _, fun k hk => ?_⟩
      rw [scout]
      simp only [hb, if_true, Counters.incExpanded_eq k hk]
    · have hweak : ∀ st d1 c1, (∀ k : Counters, k.valid → scout g f st d1 c1 k = none) ∨
          ∃ v E G, ∀ k : Counters, k.valid → scout g f st d1 c1 k = some (v, k.add E G) := by
        intro st d1 c1
        rcases ih st d1 c1 with hn | ⟨v, E, G, _, h⟩
        · exact Or.inl hn
        · exact Or.inr ⟨v, E, G, h⟩
      have hk1 : ∀ k : Counters, k.valid → k.incExpanded.valid := fun k hk => by
        rw [Counters.incExpanded_eq k hk]; exact Counters.add_valid _ _ _
      rcases scoutLoop_counters g (fun child kk => scout g f child (d - 1) (neg32 c) kk)
          (fun child score condition => TEST g f child d score condition (neg32 c))
          (fun st => hweak st (d - 1) (neg32 c)) s c (decide (c = 1)) (List.range g.DIM)
          0 true true with hn | ⟨sc1, f1, nm1, E1, G1, hloop⟩
      · left
        intro k hk
        rw [scout]
        simp only [hb, Bool.false_eq_true, if_false, hn _ (hk1 k hk)]
      · cases nm1 with
        | true =>
          rcases ih s d (neg32 c) with hn | ⟨v, E, G, _, h⟩
          · left
            intro k hk
            rw [scout]
            simp only [hb, Bool.false_eq_true, if_false, hloop _ (hk1 k hk), if_true]
            rw [Counters.incGenerated_eq _ (Counters.add_valid _ _ _)]
            exact hn _ (Counters.add_valid _ _ _)
          · right
            refine ⟨v, 1 + E1 + E, G1 + 1 + G, by omega, fun k hk => ?_⟩
            rw [scout]
            simp only [hb, Bool.false_eq_true, if_false, hloop _ (hk1 k hk), if_true]
            rw [Counters.incGenerated_eq _ (Counters.add_valid _ _ _),
              h _ (Counters.add_valid _ _ _), Counters.incExpanded_eq k hk]
            simp only [Counters.add_add]
            congr 3; omega
        | false =>
          right
          refine ⟨sc1, 1 + E1, G1, by omega, fun k hk => ?_⟩
          rw [scout]
          simp only [hb, Bool.false_eq_true, if_false, hloop _ (hk1 k hk)]
          rw [Counters.incExpanded_eq k hk, Counters.add_add]
          congr 3; omega

/-! ## The 32-bit counters and the unbounded counts -/

theorem Wide.wrap_incExpanded (u : Wide) : u.wrap.incExpanded = u.incExpanded.wrap := by
  simp only [Wide.wrap, Wide.incExpanded, Counters.incExpanded, Counters.mk.injEq]
  exact ⟨by omega, trivial⟩

theorem Wide.wrap_incGenerated (u : Wide) : u.wrap.incGenerated = u.incGenerated.wrap := by
  simp only [Wide.wrap, Wide.incGenerated, Counters.incGenerated, Counters.mk.injEq]
  exact ⟨trivial, by omega⟩

/-- The loop of `negamax` on 32-bit counters follows the loop on unbounded
counters, whose counts do not decrease. -/
theorem negamaxLoop_wide (g : Game σ) (recur : σ → Counters → Int × Counters)
    (recurW : σ → Wide → Int × Wide)
    (hrec : ∀ st u, recur st u.wrap = ((recurW st u).1, (recurW st u).2.wrap) ∧
      u.expanded + 1 ≤ (recurW st u).2.expanded ∧ u.generated ≤ (recurW st u).2.generated)
    (s : σ) (p : Bool) (l : List Nat) :
    ∀ (alpha : Int) (nm : Bool) (u : Wide),
      negamaxLoop g recur s p l alpha nm u.wrap
        = ((negamaxLoopWide g recurW s p l alpha nm u).1,
           (negamaxLoopWide g recurW s p l alpha nm u).2.1,
           (negamaxLoopWide g recurW s p l alpha nm u).2.2.wrap) ∧
      u.expanded ≤ (negamaxLoopWide g recurW s p l alpha nm u).2.2.expanded ∧
      u.generated ≤ (negamaxLoopWide g recurW s p l alpha nm u).2.2.generated := by
  induction l with
  | nil =>
    intro alpha nm u
    simp [negamaxLoop, negamaxLoopWide]
  | cons pos rest ih =>
    intro alpha nm u
    by_cases ho : g.outflank s p pos = true
    · obtain ⟨h1, h2, h3⟩ := hrec (g.move s p pos) u.incGenerated
      obtain ⟨i1, i2, i3⟩ := ih (max alpha (neg32 (recurW (g.move s p pos) u.incGenerated).1))
        false (recurW (g.move s p pos) u.incGenerated).2
      have e1 : u.incGenerated.expanded = u.expanded := rfl
      have e2 : u.incGenerated.generated = u.generated + 1 := rfl
      simp only [negamaxLoop, negamaxLoopWide, ho, if_true, Wide.wrap_incGenerated, h1]
      exact ⟨i1, by omega, by omega⟩
    · have ho' : g.outflank s p pos = false := by simpa using ho
      simp only [negamaxLoop, negamaxLoopWide, ho', Bool.false_eq_true, if_false]
      exact ih alpha nm u

/-- The counters of `negamax` are the counts of the same search on unbounded
counters, reduced modulo `2^32`; the score is the same; and the unbounded
counts grow by at least one call and by no fewer than zero moves. -/
theorem negamax_wide (g : Game σ) (d : Nat) :
    ∀ (s : σ) (c : Int) (u : Wide),
      negamax g s d c u.wrap = ((negamaxWide g s d c u).1, (negamaxWide g s d c u).2.wrap) ∧
      u.expanded + 1 ≤ (negamaxWide g s d c u).2.expanded ∧
      u.generated ≤ (negamaxWide g s d c u).2.generated := by
  induction d with
  | zero =>
    intro s c u
    simp only [negamax, negamaxWide, Wide.wrap_incExpanded]
    exact ⟨trivial, le_refl _, le_refl _⟩
  | succ d ih =>
    intro s c u
    have e1 : u.incExpanded.expanded = u.expanded + 1 := rfl
    have e2 : u.incExpanded.generated = u.generated := rfl
    by_cases ht : g.terminal s = true
    · simp only [negamax, negamaxWide, ht, if_true, Wide.wrap_incExpanded]
      exact ⟨trivial, le_refl _, le_refl _⟩
    · have ht' : g.terminal s = false := by simpa using ht
      obtain ⟨l1, l2, l3⟩ := negamaxLoop_wide g (fun st kk => negamax g st d (neg32 c) kk)
        (fun st kk => negamaxWide g st d (neg32 c) kk) (fun st u1 => ih st (neg32 c) u1) s
        (decide (c = 1)) (List.range g.DIM) (neg32 INT_MAX) true u.incExpanded
      rw [negamax, negamaxWide]
      simp only [ht', Bool.false_eq_true, if_false, Wide.wrap_incExpanded]
      generalize negamaxLoopWide g (fun st kk => negamaxWide g st d (neg32 c) kk) s
        (decide (c = 1)) (List.range g.DIM) (neg32 INT_MAX) true u.incExpanded = L at l1 l2 l3 ⊢
      rw [l1]
      obtain ⟨a, nm, w⟩ := L
      have e3 : w.incGenerated.expanded = w.expanded := rfl
      have e4 : w.incGenerated.generated = w.generated + 1 := rfl
      cases nm with
      | true =>
        obtain ⟨p1, p2, p3⟩ := ih s (neg32 c) w.incGenerated
        simp only [if_true, Wide.wrap_incGenerated, p1] at l2 l3 ⊢
        exact ⟨trivial, by omega, by omega⟩
      | false =>
        simp only [Bool.false_eq_true, if_false] at l2 l3 ⊢
        exact ⟨trivial, by omega, by omega⟩

/-- The loop of `negamax` on unbounded counters adds to both counts the number
of moves generated below it. -/
theorem negamaxLoopWide_counts (g : Game σ) (recurW : σ → Wide → Int × Wide) (F : σ → Nat)
    (hrec : ∀ st u, (recurW st u).2 = ⟨u.expanded + (F st + 1), u.generated + F st⟩)
    (s : σ) (p : Bool) (l : List Nat) :
    ∀ (alpha : Int) (nm : Bool) (u : Wide),
      (negamaxLoopWide g recurW s p l alpha nm u).2.1 = (nm && (kidsOf g s p l).isEmpty) ∧
      (negamaxLoopWide g recurW s p l alpha nm u).2.2
        = ⟨u.expanded + ((kidsOf g s p l).map (fun ch => F ch + 1)).sum,
           u.generated + ((kidsOf g s p l).map (fun ch => F ch + 1)).sum⟩ := by
  induction l with
  | nil =>
    intro alpha nm u
    simp [negamaxLoopWide, kidsOf_nil]
  | cons pos rest ih =>
    intro alpha nm u
    by_cases ho : g.outflank s p pos = true
    · obtain ⟨i1, i2⟩ := ih (max alpha (neg32 (recurW (g.move s p pos) u.incGenerated).1)) false
        (recurW (g.move s p pos) u.incGenerated).2
      have hr := hrec (g.move s p pos) u.incGenerated
      have e1 : u.incGenerated.expanded = u.expanded := rfl
      have e2 : u.incGenerated.generated = u.generated + 1 := rfl
      rw [kidsOf_cons_legal g s p pos rest ho]
      simp only [negamaxLoopWide, ho, if_true, List.map_cons, List.sum_cons, List.isEmpty_cons,
        Bool.and_false]
      refine ⟨by rw [i1]; rfl, ?_⟩
      rw [i2, hr, e1, e2]
      simp only [Wide.mk.injEq]
      constructor <;> omega
    · have ho' : g.outflank s p pos = false := by simpa using ho
      simp only [negamaxLoopWide, ho', Bool.false_eq_true, if_false,
        kidsOf_cons_illegal g s p pos rest ho']
      exact ih alpha nm u

/-- On unbounded counters `negamax` makes `negamaxGenerated + 1` calls and
generates `negamaxGenerated` moves. -/
theorem negamaxWide_counts (g : Game σ) (d : Nat) :
    ∀ (s : σ) (c : Int) (u : Wide),
      (negamaxWide g s d c u).2
        = ⟨u.expanded + (negamaxGenerated g s d c + 1), u.generated + negamaxGenerated g s d c⟩ := by
  induction d with
  | zero =>
    intro s c u
    simp [negamaxWide, negamaxGenerated, Wide.incExpanded]
  | succ d ih =>
    intro s c u
    by_cases ht : g.terminal s = true
    · simp [negamaxWide, negamaxGenerated, ht, Wide.incExpanded]
    · have ht' : g.terminal s = false := by simpa using ht
      obtain ⟨l1, l2⟩ := negamaxLoopWide_counts g (fun st kk => negamaxWide g st d (neg32 c) kk)
        (fun st => negamaxGenerated g st d (neg32 c)) (fun st u1 => ih st (neg32 c) u1) s
        (decide (c = 1)) (List.range g.DIM) (neg32 INT_MAX) true u.incExpanded
      rw [negamaxWide, negamaxGenerated]
      simp only [ht', Bool.false_eq_true, if_false]
      generalize negamaxLoopWide g (fun st kk => negamaxWide g st d (neg32 c) kk) s
        (decide (c = 1)) (List.range g.DIM) (neg32 INT_MAX) true u.incExpanded = L at l1 l2 ⊢
      obtain ⟨a, nm, w⟩ := L
      have e1 : u.incExpanded.expanded = u.expanded + 1 := rfl
      have e2 : u.incExpanded.generated = u.generated := rfl
      simp only [Bool.true_and] at l1 l2
      subst l1 l2
      by_cases he : (kidsOf g s (decide (c = 1)) (List.range g.DIM)).isEmpty = true
      · have he' : (legalChildren g s (decide (c = 1))).isEmpty = true := he
        have hnil : kidsOf g s (decide (c = 1)) (List.range g.DIM) = [] := by simpa using he
        simp only [he, he', if_true, ih, hnil, List.map_nil, List.sum_nil, Wide.incGenerated, e1, e2,
          Wide.mk.injEq, List.isEmpty_nil]
        constructor <;> omega
      · have he1 : (kidsOf g s (decide (c = 1)) (List.range g.DIM)).isEmpty = false := by
          simpa using he
        have he' : (legalChildren g s (decide (c = 1))).isEmpty = false := he1
        simp only [he1, he', Bool.false_eq_true, if_false, e1, e2, Wide.mk.injEq, legalChildren]
        exact ⟨by omega, trivial⟩

/-- The loop of alpha-beta on 32-bit counters follows the loop on unbounded
counters, whose counts do not decrease. -/
theorem negamax_abLoop_wide (g : Game σ) (recur : σ → Int → Int → Counters → Int × Counters)
    (recurW : σ → Int → Int → Wide → Int × Wide)
    (hrec : ∀ st a b u, recur st a b u.wrap = ((recurW st a b u).1, (recurW st a b u).2.wrap) ∧
      u.expanded + 1 ≤ (recurW st a b u).2.expanded ∧
      u.generated ≤ (recurW st a b u).2.generated)
    (s : σ) (p : Bool) (beta : Int) (l : List Nat) :
    ∀ (value alpha : Int) (nm : Bool) (u : Wide),
      negamax_abLoop g recur s p beta l value alpha nm u.wrap
        = ((negamax_abLoopWide g recurW s p beta l value alpha nm u).1,
           (negamax_abLoopWide g recurW s p beta l value alpha nm u).2.1,
           (negamax_abLoopWide g recurW s p beta l value alpha nm u).2.2.1,
           (negamax_abLoopWide g recurW s p beta l value alpha nm u).2.2.2.wrap) ∧
      u.expanded ≤ (negamax_abLoopWide g recurW s p beta l value alpha nm u).2.2.2.expanded ∧
      u.generated ≤ (negamax_abLoopWide g recurW s p beta l value alpha nm u).2.2.2.generated := by
  induction l with
  | nil =>
    intro value alpha nm u
    simp [negamax_abLoop, negamax_abLoopWide]
  | cons pos rest ih =>
    intro value alpha nm u
    by_cases ho : g.outflank s p pos = true
    · obtain ⟨h1, h2, h3⟩ := hrec (g.move s p pos) (neg32 beta) (neg32 alpha) u.incGenerated
      have e1 : u.incGenerated.expanded = u.expanded := rfl
      have e2 : u.incGenerated.generated = u.generated + 1 := rfl
      simp only [negamax_abLoop, negamax_abLoopWide, ho, if_true, Wide.wrap_incGenerated, h1]
      generalize recurW (g.move s p pos) (neg32 beta) (neg32 alpha) u.incGenerated = R
        at h1 h2 h3 ⊢
      by_cases hcut : max alpha (max value (neg32 R.1)) ≥ beta
      · simp only [hcut, if_true]
        exact ⟨trivial, by omega, by omega⟩
      · obtain ⟨i1, i2, i3⟩ := ih (max value (neg32 R.1)) (max alpha (max value (neg32 R.1)))
          false R.2
        simp only [hcut, if_false]
        exact ⟨i1, by omega, by omega⟩
    · have ho' : g.outflank s p pos = false := by simpa using ho
      simp only [negamax_abLoop, negamax_abLoopWide, ho', Bool.false_eq_true, if_false]
      exact ih value alpha nm u

/-- The counters of alpha-beta negamax are the counts of the same search on
unbounded counters, reduced modulo `2^32`; the score is the same; and the
unbounded counts grow by at least one call. -/
theorem negamax_ab_wide (g : Game σ) (d : Nat) :
    ∀ (s : σ) (a b c : Int) (u : Wide),
      negamax_ab g s d a b c u.wrap
        = ((negamax_abWide g s d a b c u).1, (negamax_abWide g s d a b c u).2.wrap) ∧
      u.expanded + 1 ≤ (negamax_abWide g s d a b c u).2.expanded ∧
      u.generated ≤ (negamax_abWide g s d a b c u).2.generated := by
  induction d with
  | zero =>
    intro s a b c u
    simp only [negamax_ab, negamax_abWide, Wide.wrap_incExpanded]
    exact ⟨trivial, le_refl _, le_refl _⟩
  | succ d ih =>
    intro s a b c u
    have e1 : u.incExpanded.expanded = u.expanded + 1 := rfl
    have e2 : u.incExpanded.generated = u.generated := rfl
    by_cases ht : g.terminal s = true
    · simp only [negamax_ab, negamax_abWide, ht, if_true, Wide.wrap_incExpanded]
      exact ⟨trivial, le_refl _, le_refl _⟩
    · have ht' : g.terminal s = false := by simpa using ht
      obtain ⟨l1, l2, l3⟩ := negamax_abLoop_wide g
        (fun st a2 b2 kk => negamax_ab g st d a2 b2 (neg32 c) kk)
        (fun st a2 b2 kk => negamax_abWide g st d a2 b2 (neg32 c) kk)
        (fun st a2 b2 u1 => ih st a2 b2 (neg32 c) u1) s
        (decide (c = 1)) b (List.range g.DIM) (neg32 INT_MAX) a true u.incExpanded
      rw [negamax_ab, negamax_abWide]
      simp only [ht', Bool.false_eq_true, if_false, Wide.wrap_incExpanded]
      generalize negamax_abLoopWide g (fun st a2 b2 kk => negamax_abWide g st d a2 b2 (neg32 c) kk)
        s (decide (c = 1)) b (List.range g.DIM) (neg32 INT_MAX) a true u.incExpanded = L
        at l1 l2 l3 ⊢
      rw [l1]
      obtain ⟨v1, a1, nm, w⟩ := L
      have e3 : w.incGenerated.expanded = w.expanded := rfl
      have e4 : w.incGenerated.generated = w.generated + 1 := rfl
      cases nm with
      | true =>
        obtain ⟨p1, p2, p3⟩ := ih s (neg32 b) (neg32 a1) (neg32 c) w.incGenerated
        simp only [if_true, Wide.wrap_incGenerated, p1] at l2 l3 ⊢
        exact ⟨trivial, by omega, by omega⟩
      | false =>
        simp only [Bool.false_eq_true, if_false] at l2 l3 ⊢
        exact ⟨trivial, by omega, by omega⟩

/-- The search of one child by `negascout` on 32-bit counters follows the search
on unbounded counters, which makes at least one call. -/
theorem negascoutChild_wide (recur : σ → Int → Int → Counters → Int × Counters)
    (recurW : σ → Int → Int → Wide → Int × Wide)
    (hrec : ∀ st a b u, recur st a b u.wrap = ((recurW st a b u).1, (recurW st a b u).2.wrap) ∧
      u.expanded + 1 ≤ (recurW st a b u).2.expanded ∧
      u.generated ≤ (recurW st a b u).2.generated)
    (child : σ) (alpha beta : Int) (first : Bool) (u : Wide) :
    negascoutChild recur child alpha beta first u.wrap
      = ((negascoutChildWide recurW child alpha beta first u).1,
         (negascoutChildWide recurW child alpha beta first u).2.wrap) ∧
    u.expanded + 1 ≤ (negascoutChildWide recurW child alpha beta first u).2.expanded ∧
    u.generated ≤ (negascoutChildWide recurW child alpha beta first u).2.generated := by
  cases first with
  | true =>
    obtain ⟨h1, h2, h3⟩ := hrec child (neg32 beta) (neg32 alpha) u
    simp only [negascoutChild, negascoutChildWide, if_true, h1]
    exact ⟨trivial, h2, h3⟩
  | false =>
    obtain ⟨h1, h2, h3⟩ := hrec child (sub32 (neg32 alpha) 1) (neg32 alpha) u
    simp only [negascoutChild, negascoutChildWide, Bool.false_eq_true, if_false, h1]
    generalize recurW child (sub32 (neg32 alpha) 1) (neg32 alpha) u = R at h1 h2 h3 ⊢
    by_cases hw : alpha < neg32 R.1 ∧ neg32 R.1 < beta
    · obtain ⟨p1, p2, p3⟩ := hrec child (neg32 beta) (neg32 (neg32 R.1)) R.2
      simp only [hw, and_self, if_true, p1]
      exact ⟨trivial, by omega, by omega⟩
    · simp only [hw, if_false]
      exact ⟨trivial, by omega, by omega⟩

/-- The loop of `negascout` on 32-bit counters follows the loop on unbounded
counters, whose counts do not decrease. -/
theorem negascoutLoop_wide (g : Game σ) (recur : σ → Int → Int → Counters → Int × Counters)
    (recurW : σ → Int → Int → Wide → Int × Wide)
    (hrec : ∀ st a b u, recur st a b u.wrap = ((recurW st a b u).1, (recurW st a b u).2.wrap) ∧
      u.expanded + 1 ≤ (recurW st a b u).2.expanded ∧
      u.generated ≤ (recurW st a b u).2.generated)
    (s : σ) (p : Bool) (beta : Int) (l : List Nat) :
    ∀ (score alpha : Int) (nm first : Bool) (u : Wide),
      negascoutLoop g recur s p beta l score alpha nm first u.wrap
        = ((negascoutLoopWide g recurW s p beta l score alpha nm first u).1,
           (negascoutLoopWide g recurW s p beta l score alpha nm first u).2.1,
           (negascoutLoopWide g recurW s p beta l score alpha nm first u).2.2.1,
           (negascoutLoopWide g recurW s p beta l score alpha nm first u).2.2.2.1,
           (negascoutLoopWide g recurW s p beta l score alpha nm first u).2.2.2.2.wrap) ∧
      u.expanded
        ≤ (negascoutLoopWide g recurW s p beta l score alpha nm first u).2.2.2.2.expanded ∧
      u.generated
        ≤ (negascoutLoopWide g recurW s p beta l score alpha nm first u).2.2.2.2.generated := by
  induction l with
  | nil =>
    intro score alpha nm first u
    simp [negascoutLoop, negascoutLoopWide]
  | cons pos rest ih =>
    intro score alpha nm first u
    by_cases ho : g.outflank s p pos = true
    · obtain ⟨h1, h2, h3⟩ := negascoutChild_wide recur recurW hrec (g.move s p pos) alpha beta
        first u.incGenerated
      have e1 : u.incGenerated.expanded = u.expanded := rfl
      have e2 : u.incGenerated.generated = u.generated + 1 := rfl
      simp only [negascoutLoop, negascoutLoopWide, ho, if_true, Wide.wrap_incGenerated, h1]
      generalize negascoutChildWide recurW (g.move s p pos) alpha beta first u.incGenerated = R
        at h1 h2 h3 ⊢
      by_cases hcut : max alpha R.1 ≥ beta
      · simp only [hcut, if_true]
        exact ⟨trivial, by omega, by omega⟩
      · obtain ⟨i1, i2, i3⟩ := ih R.1 (max alpha R.1) false false R.2
        simp only [hcut, if_false]
        exact ⟨i1, by omega, by omega⟩
    · have ho' : g.outflank s p pos = false := by simpa using ho
      simp only [negascoutLoop, negascoutLoopWide, ho', Bool.false_eq_true, if_false]
      exact ih score alpha nm first u

/-- The counters of `negascout` are the counts of the same search on unbounded
counters, reduced modulo `2^32`; the score is the same; and the unbounded
counts grow by at least one call. -/
theorem negascout_wide (g : Game σ) (d : Nat) :
    ∀ (s : σ) (a b c : Int) (u : Wide),
      negascout g s d a b c u.wrap
        = ((negascoutWide g s d a b c u).1, (negascoutWide g s d a b c u).2.wrap) ∧
      u.expanded + 1 ≤ (negascoutWide g s d a b c u).2.expanded ∧
      u.generated ≤ (negascoutWide g s d a b c u).2.generated := by
  induction d with
  | zero =>
    intro s a b c u
    simp only [negascout, negascoutWide, Wide.wrap_incExpanded]
    exact ⟨trivial, le_refl _, le_refl _⟩
  | succ d ih =>
    intro s a b c u
    have e1 : u.incExpanded.expanded = u.expanded + 1 := rfl
    have e2 : u.incExpanded.generated = u.generated := rfl
    by_cases ht : g.terminal s = true
    · simp only [negascout, negascoutWide, ht, if_true, Wide.wrap_incExpanded]
      exact ⟨trivial, le_refl _, le_refl _⟩
    · have ht' : g.terminal s = false := by simpa using ht
      obtain ⟨l1, l2, l3⟩ := negascoutLoop_wide g
        (fun st a2 b2 kk => negascout g st d a2 b2 (neg32 c) kk)
        (fun st a2 b2 kk => negascoutWide g st d a2 b2 (neg32 c) kk)
        (fun st a2 b2 u1 => ih st a2 b2 (neg32 c) u1) s
        (decide (c = 1)) b (List.range g.DIM) (neg32 INT_MAX) a true true u.incExpanded
      rw [negascout, negascoutWide]
      simp only [ht', Bool.false_eq_true, if_false, Wide.wrap_incExpanded]
      generalize negascoutLoopWide g (fun st a2 b2 kk => negascoutWide g st d a2 b2 (neg32 c) kk)
        s (decide (c = 1)) b (List.range g.DIM) (neg32 INT_MAX) a true true u.incExpanded = L
        at l1 l2 l3 ⊢
      rw [l1]
      obtain ⟨v1, a1, nm, f1, w⟩ := L
      have e3 : w.incGenerated.expanded = w.expanded := rfl
      have e4 : w.incGenerated.generated = w.generated + 1 := rfl
      cases nm with
      | true =>
        obtain ⟨p1, p2, p3⟩ := ih s (neg32 b) (neg32 a1) (neg32 c) w.incGenerated
        simp only [if_true, Wide.wrap_incGenerated, p1] at l2 l3 ⊢
        exact ⟨trivial, by omega, by omega⟩
      | false =>
        simp only [Bool.false_eq_true, if_false] at l2 l3 ⊢
        exact ⟨trivial, by omega, by omega⟩

/-- The retest of a later child by `scout` on 32-bit counters follows the retest
on unbounded counters, whose counts do not decrease. -/
theorem scoutRetest_wide (recur : σ → Counters → Option (Int × Counters))
    (recurW : σ → Wide → Option (Int × Wide)) (test : σ → Int → Condition → Option Bool)
    (hrec : ∀ st u, recur st u.wrap = (recurW st u).map (fun r => (r.1, r.2.wrap)) ∧
      ∀ r, recurW st u = some r → u.expanded + 1 ≤ r.2.expanded ∧ u.generated ≤ r.2.generated)
    (child : σ) (color score : Int) (u : Wide) :
    scoutRetest recur test child color score u.wrap
      = (scoutRetestWide recurW test child color score u).map (fun r => (r.1, r.2.wrap)) ∧
    ∀ r, scoutRetestWide recurW test child color score u = some r →
      u.expanded ≤ r.2.expanded ∧ u.generated ≤ r.2.generated := by
  obtain ⟨h1, h2⟩ := hrec child u
  by_cases hc1 : color = 1
  · subst hc1
    cases ht : test child score Condition.gt with
    | none => simp [scoutRetest, scoutRetestWide, ht]
    | some t =>
      cases t with
      | true =>
        cases hR : recurW child u with
        | none =>
          rw [hR] at h1
          simp [scoutRetest, scoutRetestWide, ht, hR, h1]
        | some R =>
          obtain ⟨v, w⟩ := R
          rw [hR] at h1
          have h3 := h2 _ hR
          simp only [scoutRetest, scoutRetestWide, ht, hR, h1, if_true, Option.map_some']
          simp only [show ¬ ((1 : Int) = -1) by decide, if_false, Option.map_some']
          refine ⟨trivial, ?_⟩
          intro r hr
          injection hr with hr
          subst hr
          omega
      | false =>
        simp only [scoutRetest, scoutRetestWide, ht, if_true]
        simp only [show ¬ ((1 : Int) = -1) by decide, if_false, Option.map_some']
        refine ⟨trivial, ?_⟩
        intro r hr
        injection hr with hr
        subst hr
        exact ⟨le_refl _, le_refl _⟩
  · by_cases hc2 : color = -1
    · subst hc2
      cases ht : test child score Condition.ge with
      | none => simp [scoutRetest, scoutRetestWide, ht]
      | some t =>
        cases t with
        | false =>
          cases hR : recurW child u with
          | none =>
            rw [hR] at h1
            simp [scoutRetest, scoutRetestWide, ht, hR, h1]
          | some R =>
            obtain ⟨v, w⟩ := R
            rw [hR] at h1
            have h3 := h2 _ hR
            simp only [scoutRetest, scoutRetestWide, hc1, if_false, if_true, ht, hR, h1,
              Option.map_some']
            refine ⟨trivial, ?_⟩
            intro r hr
            injection hr with hr
            subst hr
            omega
        | true =>
          simp only [scoutRetest, scoutRetestWide, hc1, if_false, if_true, ht,
            Option.map_some']
          refine ⟨trivial, ?_⟩
          intro r hr
          injection hr with hr
          subst hr
          exact ⟨le_refl _, le_refl _⟩
    · simp only [scoutRetest, scoutRetestWide, hc1, hc2, if_false, Option.map_some']
      refine ⟨trivial, ?_⟩
      intro r hr
      injection hr with hr
      subst hr
      exact ⟨le_refl _, le_refl _⟩

/-- The loop of `scout` on 32-bit counters follows the loop on unbounded
counters, whose counts do not decrease. -/
theorem scoutLoop_wide (g : Game σ) (recur : σ → Counters → Option (Int × Counters))
    (recurW : σ → Wide → Option (Int × Wide)) (test : σ → Int → Condition → Option Bool)
    (hrec : ∀ st u, recur st u.wrap = (recurW st u).map (fun r => (r.1, r.2.wrap)) ∧
      ∀ r, recurW st u = some r → u.expanded + 1 ≤ r.2.expanded ∧ u.generated ≤ r.2.generated)
    (s : σ) (color : Int) (p : Bool) (l : List Nat) :
    ∀ (score : Int) (first nm : Bool) (u : Wide),
      scoutLoop g recur test s color p l score first nm u.wrap
        = (scoutLoopWide g recurW test s color p l score first nm u).map
            (fun r => (r.1, r.2.1, r.2.2.1, r.2.2.2.wrap)) ∧
      ∀ r, scoutLoopWide g recurW test s color p l score first nm u = some r →
        u.expanded ≤ r.2.2.2.expanded ∧ u.generated ≤ r.2.2.2.generated := by
  induction l with
  | nil =>
    intro score first nm u
    simp only [scoutLoop, scoutLoopWide, Option.map_some']
    refine ⟨trivial, ?_⟩
    intro r hr
    injection hr with hr
    subst hr
    exact ⟨le_refl _, le_refl _⟩
  | cons pos rest ih =>
    intro score first nm u
    by_cases ho : g.outflank s p pos = true
    · have e1 : u.incGenerated.expanded = u.expanded := rfl
      have e2 : u.incGenerated.generated = u.generated + 1 := rfl
      cases first with
      | true =>
        obtain ⟨h1, h2⟩ := hrec (g.move s p pos) u.incGenerated
        simp only [scoutLoop, scoutLoopWide, ho, if_true, Wide.wrap_incGenerated]
        generalize recurW (g.move s p pos) u.incGenerated = cw at h1 h2 ⊢
        rw [h1]
        cases cw with
        | none => simp
        | some R =>
          obtain ⟨v, w⟩ := R
          have hm := h2 _ rfl
          obtain ⟨i1, i2⟩ := ih v false false w
          refine ⟨i1, fun r hr => ?_⟩
          have := i2 r hr
          simp only at hm
          omega
      | false =>
        obtain ⟨h1, h2⟩ := scoutRetest_wide recur recurW test hrec (g.move s p pos) color score
          u.incGenerated
        simp only [scoutLoop, scoutLoopWide, ho, if_true, Bool.false_eq_true, if_false,
          Wide.wrap_incGenerated]
        generalize scoutRetestWide recurW test (g.move s p pos) color score u.incGenerated = cw
          at h1 h2 ⊢
        rw [h1]
        cases cw with
        | none => simp
        | some R =>
          obtain ⟨v, w⟩ := R
          have hm := h2 _ rfl
          obtain ⟨i1, i2⟩ := ih v false false w
          refine ⟨i1, fun r hr => ?_⟩
          have := i2 r hr
          simp only at hm
          omega
    · have ho' : g.outflank s p pos = false := by simpa using ho
      simp only [scoutLoop, scoutLoopWide, ho', Bool.false_eq_true, if_false]
      exact ih score first nm u

/-- The result of `scout` on 32-bit counters is the result of the same search on
unbounded counters with the counts reduced modulo `2^32`: both return or
neither does, the score is the same, and the unbounded counts grow by at least
one call. -/
theorem scout_wide (g : Game σ) (fuel : Nat) :
    ∀ (s : σ) (d : Nat) (c : Int) (u : Wide),
      scout g fuel s d c u.wrap = (scoutWide g fuel s d c u).map (fun r => (r.1, r.2.wrap)) ∧
      ∀ r, scoutWide g fuel s d c u = some r →
        u.expanded + 1 ≤ r.2.expanded ∧ u.generated ≤ r.2.generated := by
  induction fuel with
  | zero =>
    intro s d c u
    simp [scout, scoutWide]
  | succ fuel ih =>
    intro s d c u
    have e1 : u.incExpanded.expanded = u.expanded + 1 := rfl
    have e2 : u.incExpanded.generated = u.generated := rfl
    by_cases hb : (d == 0 || g.terminal s) = true
    · simp only [scout, scoutWide, hb, if_true, Wide.wrap_incExpanded, Option.map_some']
      refine ⟨trivial, ?_⟩
      intro r hr
      injection hr with hr
      subst hr
      exact ⟨le_refl _, le_refl _⟩
    · obtain ⟨l1, l2⟩ := scoutLoop_wide g
        (fun child kk => scout g fuel child (d - 1) (neg32 c) kk)
        (fun child kk => scoutWide g fuel child (d - 1) (neg32 c) kk)
        (fun child score condition => TEST g fuel child d score condition (neg32 c))
        (fun st u1 => ih st (d - 1) (neg32 c) u1) s c (decide (c = 1)) (List.range g.DIM)
        0 true true u.incExpanded
      rw [scout, scoutWide]
      simp only [hb, Bool.false_eq_true, if_false, Wide.wrap_incExpanded]
      generalize scoutLoopWide g (fun child kk => scoutWide g fuel child (d - 1) (neg32 c) kk)
        (fun child score condition => TEST g fuel child d score condition (neg32 c))
        s c (decide (c = 1)) (List.range g.DIM) 0 true true u.incExpanded = L at l1 l2 ⊢
      rw [l1]
      cases L with
      | none => simp
      | some R =>
        obtain ⟨sc, f1, nm, w⟩ := R
        have hm := l2 _ rfl
        have e3 : w.incGenerated.expanded = w.expanded := rfl
        have e4 : w.incGenerated.generated = w.generated + 1 := rfl
        simp only at hm
        cases nm with
        | true =>
          obtain ⟨p1, p2⟩ := ih s d (neg32 c) w.incGenerated
          simp only [Option.map_some', if_true, Wide.wrap_incGenerated]
          refine ⟨p1, ?_⟩
          intro r hr
          have := p2 r hr
          omega
        | false =>
          simp only [Option.map_some', Bool.false_eq_true, if_false]
          refine ⟨trivial, ?_⟩
          intro r hr
          injection hr with hr
          subst hr
          simp only
          omega

/-! ## The counters never decrease, up to wrap-around -/

theorem counters_dropped (a : Counters) (ha : a = ⟨0, 4294967295⟩) :
    ¬ (a.expanded ≥ Counters.zero.expanded + 1) := by
  subst ha; decide

/-- C16, counterexample: started from zeroed counters on position `3` of
`deepGame` at depth `32`, plain negamax makes `2^32` calls and ends with
`expanded = 0`, which is not at least its value before the call plus `1`.
Likewise a single call on a terminal position that starts with
`expanded = 4294967295` ends with `expanded = 0`. -/
theorem counters_never_decrease_counterexample :
    ((negamax deepGame 3 32 1 Counters.zero).2 = ⟨0, 4294967295⟩ ∧
      ¬ ((negamax deepGame 3 32 1 Counters.zero).2.expanded
          ≥ Counters.zero.expanded + 1)) ∧
    (⟨4294967295, 0⟩ : Counters).valid ∧
    (negamax (treeGame 1) (leaf 10) 3 1 ⟨4294967295, 0⟩).2 = ⟨0, 0⟩ ∧
    ¬ ((negamax (treeGame 1) (leaf 10) 3 1 ⟨4294967295, 0⟩).2.expanded
        ≥ (⟨4294967295, 0⟩ : Counters).expanded + 1) :=
  have hG : negamaxGenerated deepGame 3 32 1 = 4294967295 :=
    negamaxGenerated_deep_pass_eq 32 30 1 4294967295 rfl rfl rfl (by norm_num)
  have h : (negamax deepGame 3 32 1 Counters.zero).2 = ⟨0, 4294967295⟩ :=
    (negamax_counters_zero deepGame 3 32 1 4294967295 hG).trans rfl
  ⟨⟨h, counters_dropped _ h⟩, by simp [Counters.valid], by decide, by decide⟩

/-- Counts that grow and stay below `2^32` are read off the 32-bit counters
without loss. -/
theorem Wide.wrap_le (u w : Wide) (h1 : u.expanded + 1 ≤ w.expanded)
    (h2 : u.generated ≤ w.generated) (h3 : w.expanded < 4294967296)
    (h4 : w.generated < 4294967296) :
    u.wrap.expanded + 1 ≤ w.wrap.expanded ∧ u.wrap.generated ≤ w.wrap.generated := by
  simp only [Wide.wrap]
  constructor <;> omega

/-- C16, amended: the counters are 32-bit and hold the true counts modulo
`2^32`. For each of the four engines and every number `u` of executions of
`++expanded` and `++generated` before a call (counted without limit), let `w`
be the counts after the call, as given by the same code on unbounded counters.
Then the call on the 32-bit counters `u mod 2^32` returns the same score and
leaves the counters `w mod 2^32` (for `scout`: it returns exactly when the
unbounded run returns); the true counts satisfy `w.expanded >= u.expanded + 1`
and `w.generated >= u.generated`; hence, whenever `w.expanded < 2^32` and
`w.generated < 2^32` (no counter has wrapped), `expanded` after the call is at
least its value before plus `1` and `generated` after the call is at least its
value before. For plain negamax the true counts are `negamaxGenerated + 1`
more calls and `negamaxGenerated` more moves. The driver sets both counters to
zero immediately before each top-level engine invocation. -/
theorem counters_advance_mod (g : Game σ) (s : σ) (d : Nat) (alpha beta c : Int)
    (fuel : Nat) (u : Wide) :
    (negamax g s d c u.wrap = ((negamaxWide g s d c u).1, (negamaxWide g s d c u).2.wrap) ∧
      u.expanded + 1 ≤ (negamaxWide g s d c u).2.expanded ∧
      u.generated ≤ (negamaxWide g s d c u).2.generated ∧
      (negamaxWide g s d c u).2
        = ⟨u.expanded + (negamaxGenerated g s d c + 1),
           u.generated + negamaxGenerated g s d c⟩ ∧
      ((negamaxWide g s d c u).2.expanded < 4294967296 →
        (negamaxWide g s d c u).2.generated < 4294967296 →
        u.wrap.expanded + 1 ≤ (negamax g s d c u.wrap).2.expanded ∧
        u.wrap.generated ≤ (negamax g s d c u.wrap).2.generated)) ∧
    (negamax_ab g s d alpha beta c u.wrap
        = ((negamax_abWide g s d alpha beta c u).1,
           (negamax_abWide g s d alpha beta c u).2.wrap) ∧
      u.expanded + 1 ≤ (negamax_abWide g s d alpha beta c u).2.expanded ∧
      u.generated ≤ (negamax_abWide g s d alpha beta c u).2.generated ∧
      ((negamax_abWide g s d alpha beta c u).2.expanded < 4294967296 →
        (negamax_abWide g s d alpha beta c u).2.generated < 4294967296 →
        u.wrap.expanded + 1 ≤ (negamax_ab g s d alpha beta c u.wrap).2.expanded ∧
        u.wrap.generated ≤ (negamax_ab g s d alpha beta c u.wrap).2.generated)) ∧
    (negascout g s d alpha beta c u.wrap
        = ((negascoutWide g s d alpha beta c u).1,
           (negascoutWide g s d alpha beta c u).2.wrap) ∧
      u.expanded + 1 ≤ (negascoutWide g s d alpha beta c u).2.expanded ∧
      u.generated ≤ (negascoutWide g s d alpha beta c u).2.generated ∧
      ((negascoutWide g s d alpha beta c u).2.expanded < 4294967296 →
        (negascoutWide g s d alpha beta c u).2.generated < 4294967296 →
        u.wrap.expanded + 1 ≤ (negascout g s d alpha beta c u.wrap).2.expanded ∧
        u.wrap.generated ≤ (negascout g s d alpha beta c u.wrap).2.generated)) ∧
    (scout g fuel s d c u.wrap = (scoutWide g fuel s d c u).map (fun r => (r.1, r.2.wrap)) ∧
      ∀ (v : Int) (w : Wide), scoutWide g fuel s d c u = some (v, w) →
        u.expanded + 1 ≤ w.expanded ∧ u.generated ≤ w.generated ∧
        (w.expanded < 4294967296 → w.generated < 4294967296 →
          ∃ k1, scout g fuel s d c u.wrap = some (v, k1) ∧
            u.wrap.expanded + 1 ≤ k1.expanded ∧ u.wrap.generated ≤ k1.generated)) ∧
    (∀ (k : Counters) (algorithm : Int) (i : Nat), k.reset = Counters.zero ∧
      driverStep g fuel algorithm s i k = driverStep g fuel algorithm s i Counters.zero) := by
  have hN := negamax_wide g d s c u
  have hA := negamax_ab_wide g d s alpha beta c u
  have hS := negascout_wide g d s alpha beta c u
  have hC := scout_wide g fuel s d c u
  refine ⟨⟨hN.1, hN.2.1, hN.2.2, negamaxWide_counts g d s c u, fun h1 h2 => ?_⟩, ⟨hA.1, hA.2.1, hA.2.2, fun h1 h2 => ?_⟩,
    ⟨hS.1, hS.2.1, hS.2.2, fun h1 h2 => ?_⟩, ⟨hC.1, fun v w hw => ?_⟩,
    fun k algorithm i => ⟨rfl, rfl⟩⟩
  · rw [hN.1]
    exact Wide.wrap_le _ _ hN.2.1 hN.2.2 h1 h2
  · rw [hA.1]
    exact Wide.wrap_le _ _ hA.2.1 hA.2.2 h1 h2
  · rw [hS.1]
    exact Wide.wrap_le _ _ hS.2.1 hS.2.2 h1 h2
  · have hm := hC.2 _ hw
    refine ⟨hm.1, hm.2, fun h1 h2 => ⟨w.wrap, ?_, Wide.wrap_le _ _ hm.1 hm.2 h1 h2⟩⟩
    rw [hC.1, hw]
    rfl

end Othello
